import Mathlib

/-!
Distributed maximum finding by flooding (`async_distributed`).

A shallow embedding of `main.go`.

* Go `int` values are `Int`; they are only compared and copied, never added,
  so no wrap-around occurs.
* A Go `map[int]V` is an association list `GoMap V` with the three operations
  the program uses: indexing (zero value when the key is missing), assignment,
  and `range` (which only visits the keys that are present).
* A buffered channel `make(chan Message, c)` is a FIFO buffer with capacity
  `c`.  A send on a full channel suspends the goroutine; this is the
  `Outcome.blocked` result of a loop iteration.
* Pointers (`*Node`, `*Edge`, `*World`) are the values they point to.
* `log.Printf` / `fmt.Printf` output is not part of the model, except for the
  final announcement of the monitor.
* The random source is the sequence of values it hands out; `float32`
  arithmetic is replaced by exact arithmetic on samples `x / 2^24`.
* In the tables of `initializeChannels` and in the system of workers a
  channel is a reference: its position in the list of the channels created.
  `System.iter` is the iteration of `MaxWorkerProc` on such references; it
  agrees with `loopStep` on the channels behind them
  (`iter_refines_loopStep`, `loopStep_refines_iter`).
-/

namespace AsyncDistributed

/-! ## Go maps with integer keys -/

/-- A Go map with `int` keys, as an association list. -/
abbrev GoMap (V : Type) := List (Int × V)

namespace GoMap

variable {V : Type}

/-- The entry stored at key `k`, if there is one. -/
def lookup : GoMap V → Int → Option V
  | [], _ => none
  | (k', v) :: t, k => if k' = k then some v else lookup t k

/-- Key `k` is present in the map. -/
def contains (m : GoMap V) (k : Int) : Bool := (lookup m k).isSome

/-- Go indexing `m[k]`: the zero value `zero` when the key is missing. -/
def get (zero : V) (m : GoMap V) (k : Int) : V := (lookup m k).getD zero

/-- The map with the value stored at key `k` replaced by `v`. -/
def overwrite : GoMap V → Int → V → GoMap V
  | [], _, _ => []
  | (k', v') :: t, k, v => (k', if k' = k then v else v') :: overwrite t k v

/-- Go assignment `m[k] = v`: overwrite when present, insert otherwise. -/
def set (m : GoMap V) (k : Int) (v : V) : GoMap V :=
  if contains m k then overwrite m k v else m ++ [(k, v)]

/-- The loop `for id := range m { m[id] = v }`. -/
def setAll (m : GoMap V) (v : V) : GoMap V := m.map (fun e => (e.1, v))

end GoMap

/-! ## Messages, channels and worker state -/

inductive messageType where
  | MAX_MESSAGE
  | GET_MESSAGE
  deriving DecidableEq, Repr

structure Message where
  msgType : messageType
  from_ : Int
  payload : Int
  deriving DecidableEq, Repr

/-- A buffered channel of messages: pending messages, oldest first, and the
capacity given to `make`. -/
structure Chan where
  buf : List Message
  cap : Nat
  deriving DecidableEq, Repr

/-- A send on the channel completes at once. -/
def Chan.hasRoom (c : Chan) : Bool := decide (c.buf.length < c.cap)

/-- The channel after `c <- m`. -/
def Chan.push (c : Chan) (m : Message) : Chan := { c with buf := c.buf ++ [m] }

structure MaxState where
  value : Int
  max : Int
  shouldSendTable : GoMap Bool
  deriving DecidableEq, Repr

structure Node where
  Id : Int
  deriving DecidableEq, Repr

/-- The arguments of `MaxWorkerProc` together with the local variable `state`
and the current contents of the channels. -/
structure Worker where
  n : Node
  state : MaxState
  send : List Chan
  recv : List Chan
  result : Chan
  deriving DecidableEq, Repr

/-- The report or gossip message a worker builds from its id and a payload. -/
def maxMessage (w : Worker) (payload : Int) : Message :=
  { msgType := messageType.MAX_MESSAGE, from_ := w.n.Id, payload := payload }

/-- Result of one iteration of the inner loop of `MaxWorkerProc`. -/
inductive Outcome where
  /-- the iteration ran to its end -/
  | done (w : Worker)
  /-- the goroutine is suspended in a send on a full channel; `w` is the
  configuration at that point -/
  | blocked (w : Worker)
  /-- index out of range -/
  | panic
  deriving DecidableEq, Repr

/-- The `select` statement of `MaxWorkerProc` at position `i`: one iteration
of the inner loop. -/
def loopStep (w : Worker) (i : Nat) : Outcome :=
  match w.recv[i]? with
  | none => Outcome.panic
  | some c =>
    match c.buf with
    | m :: rest =>
      -- case m := <-recv[i]
      let w1 : Worker := { w with recv := w.recv.set i { c with buf := rest } }
      if m.payload > w1.state.max then
        let w2 : Worker := { w1 with state := { w1.state with max := m.payload } }
        let msg : Message :=
          { msgType := messageType.MAX_MESSAGE, from_ := w2.n.Id, payload := w2.state.max }
        if w2.result.hasRoom then
          Outcome.done
            { w2 with
              result := w2.result.push msg
              state := { w2.state with
                shouldSendTable := GoMap.setAll w2.state.shouldSendTable true } }
        else Outcome.blocked w2
      else Outcome.done w1
    | [] =>
      -- default
      if GoMap.get false w.state.shouldSendTable (i : Int) then
        let msg : Message :=
          { msgType := messageType.MAX_MESSAGE, from_ := w.n.Id, payload := w.state.max }
        match w.send[i]? with
        | none => Outcome.panic
        | some sc =>
          if sc.hasRoom then
            Outcome.done
              { w with
                send := w.send.set i (sc.push msg)
                state := { w.state with
                  shouldSendTable := GoMap.set w.state.shouldSendTable (i : Int) false } }
          else Outcome.blocked w
      else Outcome.done w

/-- What can happen to a worker: it runs the iteration at position `i`, or the
other goroutines act on its channels (the neighbours send on `recv` and receive
from `send`, the monitor receives from `result`). -/
inductive Event where
  | iter (i : Nat)
  | env (send recv : List Chan) (result : Chan)
  deriving DecidableEq, Repr

/-- The worker after an event; `none` when the iteration does not run to its
end. -/
def applyEvent (w : Worker) : Event → Option Worker
  | Event.iter i =>
    match loopStep w i with
    | Outcome.done w' => some w'
    | _ => none
  | Event.env s r res => some { w with send := s, recv := r, result := res }

/-- The configurations a worker goes through along a sequence of events,
the starting one first. -/
def runEvents (w : Worker) : List Event → List Worker
  | [] => [w]
  | ev :: evs =>
    match applyEvent w ev with
    | some w' => w :: runEvents w' evs
    | none => [w]

/-- The inner loop `for i := 0; i < len(recv); i++` over the positions that
are still to be visited. -/
def scanFrom (w : Worker) : List Nat → Outcome
  | [] => Outcome.done w
  | i :: is =>
    match loopStep w i with
    | Outcome.done w' => scanFrom w' is
    | o => o

/-- The loop of `MaxWorkerProc`; `fuel` bounds the number of passes of the
endless outer loop. -/
def MaxWorkerProc : Nat → Worker → Outcome
  | 0, w => Outcome.done w
  | fuel + 1, w =>
    match scanFrom w (List.range w.recv.length) with
    | Outcome.done w' => MaxWorkerProc fuel w'
    | o => o

/-- A worker used to illustrate the theorems: node 1 with seed 4, two
neighbours, a report of 9 pending on the first inbound link. -/
def exampleWorker : Worker :=
  { n := { Id := 1 }
    state := { value := 4, max := 4, shouldSendTable := [(0, true), (1, true)] }
    send := [{ buf := [], cap := 2 }, { buf := [], cap := 2 }]
    recv := [{ buf := [{ msgType := messageType.MAX_MESSAGE, from_ := 0, payload := 9 }],
               cap := 2 },
             { buf := [], cap := 2 }]
    result := { buf := [], cap := 2 } }

/-- The example worker after it has received the report of 9. -/
def exampleWorkerRaised : Worker :=
  { exampleWorker with
    recv := [{ buf := [], cap := 2 }, { buf := [], cap := 2 }]
    state := { value := 4, max := 9, shouldSendTable := [(0, true), (1, true)] }
    result :=
      { buf := [{ msgType := messageType.MAX_MESSAGE, from_ := 1, payload := 9 }], cap := 2 } }

/-- The example worker after the report of 9, with the same report pending
once more on the first inbound link. -/
def exampleWorkerRedelivered : Worker :=
  { exampleWorkerRaised with
    recv := [{ buf := [{ msgType := messageType.MAX_MESSAGE, from_ := 0, payload := 9 }],
               cap := 2 },
             { buf := [], cap := 2 }] }

/-- The example worker with the report of 9 pending twice on the first
inbound link. -/
def exampleWorkerTwice : Worker :=
  { exampleWorker with
    recv := [{ buf := [{ msgType := messageType.MAX_MESSAGE, from_ := 0, payload := 9 },
                       { msgType := messageType.MAX_MESSAGE, from_ := 0, payload := 9 }],
               cap := 2 },
             { buf := [], cap := 2 }] }

/-- The example worker after it has told both neighbours its maximum 9. -/
def exampleWorkerIdle : Worker :=
  { exampleWorkerRaised with
    state := { value := 4, max := 9, shouldSendTable := [(0, false), (1, false)] }
    send := [{ buf := [{ msgType := messageType.MAX_MESSAGE, from_ := 1, payload := 9 }],
               cap := 2 },
             { buf := [{ msgType := messageType.MAX_MESSAGE, from_ := 1, payload := 9 }],
               cap := 2 }] }

/-! ## The world: nodes and edges -/

structure Edge where
  From : Int
  To : Int
  Weight : Int
  Directed : Bool
  deriving DecidableEq, Repr

structure World where
  Nodes : List Node
  Edges : List Edge
  deriving DecidableEq, Repr

def NewEdge (from_ to_ weight : Int) (directed : Bool) : Edge :=
  { From := from_, To := to_, Weight := weight, Directed := directed }

def BlankWorld : World := { Edges := [], Nodes := [] }

/-- The ids of the nodes which neighbour node `id`, in the order of the edge
list. -/
def World.Neighbors (w : World) (id : Int) : List Int :=
  w.Edges.foldl
    (fun neighbors e =>
      if e.From = id then neighbors ++ [e.To]
      else if e.To = id then neighbors ++ [e.From]
      else neighbors)
    []

/-- The loop of `HasEdge` over the edges that are still to be inspected. -/
def hasEdgeIn : List Edge → Int → Int → Bool
  | [], _, _ => false
  | e :: es, i, j =>
    if e.From = i ∧ e.To = j then true
    else if e.From = j ∧ e.To = i then true
    else hasEdgeIn es i j

def World.HasEdge (w : World) (i j : Int) : Bool := hasEdgeIn w.Edges i j

/-- Two edges join the same unordered pair of nodes. -/
def Edge.samePair (e e' : Edge) : Prop :=
  (e.From = e'.From ∧ e.To = e'.To) ∨ (e.From = e'.To ∧ e.To = e'.From)

/-- An edge list without self-loop and without two edges that join the same
unordered pair of nodes. -/
def SimpleEdges (es : List Edge) : Prop :=
  (∀ e ∈ es, e.From ≠ e.To) ∧ es.Pairwise (fun e e' => ¬ e.samePair e')

/-- Both endpoints of every edge are numbers below `n`. -/
def EndpointsBelow (n : Nat) (es : List Edge) : Prop :=
  ∀ e ∈ es, ∃ a b : Nat, a < n ∧ b < n ∧ e.From = (a : Int) ∧ e.To = (b : Int)

/-! ## The random source -/

/-- The global source of `math/rand` after seeding: the values it is going to
hand out, and how many of them have been consumed. -/
structure Rand where
  draws : Nat → Nat
  pos : Nat

/-- The call `rand.Float32()`: a sample `x / 2^24` of `[0, 1)`, given by its
numerator `x`. -/
def Rand.Float32 (r : Rand) : Nat × Rand :=
  (r.draws r.pos % 2 ^ 24, { r with pos := r.pos + 1 })

/-- The call `rand.Intn(n)` for `n > 0`: a value of `[0, n)`. -/
def Rand.Intn (r : Rand) (n : Nat) : Nat × Rand :=
  (r.draws r.pos % n, { r with pos := r.pos + 1 })

/-- The test `rand.Float32() <= neighborP` for the sample `x / 2^24`, where
`neighborP = float32(d) / float32(nodes-1)`.  The quotient is taken exactly
(no rounding to `float32`); a division by zero gives `+Inf` for `d > 0` and
`NaN` or `-Inf` otherwise. -/
def leNeighborP (x : Nat) (d nodes : Int) : Bool :=
  if 0 < nodes - 1 then decide ((x : Int) * (nodes - 1) ≤ d * 2 ^ 24)
  else if nodes - 1 < 0 then decide (d * 2 ^ 24 ≤ (x : Int) * (nodes - 1))
  else decide (0 < d)

/-- The body of the inner loop of `generateWorld` for the pair `(i, j)`. -/
def edgeStep (d nodes : Int) (weighted : Bool) (i j : Nat) (s : World × Rand) :
    World × Rand :=
  if i ≠ j then
    if leNeighborP s.2.Float32.1 d nodes then
      let r1 := s.2.Float32.2
      let weight : Int := if weighted then ((r1.Intn 100).1 : Int) else 1
      let r2 := if weighted then (r1.Intn 100).2 else r1
      let e := NewEdge i j weight false
      if !s.1.HasEdge i j then ({ s.1 with Edges := s.1.Edges ++ [e] }, r2)
      else (s.1, r2)
    else (s.1, s.2.Float32.2)
  else s

/-- The body of the outer loop of `generateWorld` for node `i`. -/
def nodeStep (d nodes : Int) (weighted : Bool) (s : World × Rand) (i : Nat) :
    World × Rand :=
  (List.range nodes.toNat).foldl
    (fun s j => edgeStep d nodes weighted i j s)
    ({ s.1 with Nodes := s.1.Nodes ++ [{ Id := (i : Int) }] }, s.2)

/-- Generates a graph; `rnd` is the random source after `rand.Seed`.  Returns
the world and the source after the draws. -/
def generateWorld (nodes d : Int) (weighted : Bool) (rnd : Rand) : World × Rand :=
  (List.range nodes.toNat).foldl (nodeStep d nodes weighted) (BlankWorld, rnd)

/-- A random source whose draws are all 0, so that every sample passes the
test against a non-negative `neighborP`. -/
def zeroRand : Rand := { draws := fun _ => 0, pos := 0 }

/-! ## The monitor loop of `main` -/

/-- The variables of the monitor loop: the table `curMaxes` and the contents
of the result channels `resultChans`. -/
structure MonitorState where
  curMaxes : GoMap Int
  resultChans : GoMap Chan
  deriving DecidableEq, Repr

inductive MonitorOutcome where
  /-- convergence is declared: `curMaxes[0]` is printed as the maximum and
  `main` returns -/
  | announce (max : Int)
  /-- the loop goes on from this state -/
  | polling (s : MonitorState)
  deriving DecidableEq, Repr

/-- The flag `complete` after the loop over `curMaxes`. -/
def complete (curMaxes : GoMap Int) : Bool :=
  curMaxes.foldl (fun complete e => complete && decide (e.2 = GoMap.get 0 curMaxes 0)) true

/-- The `select` statement of the monitor for the entry `id` of
`resultChans`. -/
def monitorVisit (s : MonitorState) (id : Int) : MonitorOutcome :=
  match GoMap.lookup s.resultChans id with
  | none => MonitorOutcome.polling s
  | some channel =>
    match channel.buf with
    | maxMsg :: rest =>
      MonitorOutcome.polling
        { curMaxes := GoMap.set s.curMaxes id maxMsg.payload
          resultChans := GoMap.set s.resultChans id { channel with buf := rest } }
    | [] =>
      if complete s.curMaxes then MonitorOutcome.announce (GoMap.get 0 s.curMaxes 0)
      else MonitorOutcome.polling s

/-- One pass `for id, channel := range resultChans`; `order` is the order in
which this pass visits the keys. -/
def monitorPass (s : MonitorState) : List Int → MonitorOutcome
  | [] => MonitorOutcome.polling s
  | id :: ids =>
    match monitorVisit s id with
    | MonitorOutcome.polling s' => monitorPass s' ids
    | out => out

/-- A report of node `id` with the given payload. -/
def report (id payload : Int) : Message :=
  { msgType := messageType.MAX_MESSAGE, from_ := id, payload := payload }

/-- The monitor of a world with two nodes at its first poll: nothing has been
reported. -/
def monitorNothingReported : MonitorState :=
  { curMaxes := []
    resultChans := [(0, { buf := [], cap := 1000 }), (1, { buf := [], cap := 1000 })] }

/-- The monitor of the world `0 - 1` with seeds 3 and 5 at its first poll:
node 0 has raised its maximum to 5 and reported it, node 1 holds the maximum
from the start and has nothing to report. -/
def monitorOneReported : MonitorState :=
  { curMaxes := []
    resultChans :=
      [(0, { buf := [report 0 5], cap := 1000 }), (1, { buf := [], cap := 1000 })] }

/-- A monitor state in which node 1 alone has reported, the value 5. -/
def monitorNodeZeroMissing : MonitorState :=
  { curMaxes := [(1, 5)]
    resultChans := [(0, { buf := [], cap := 1000 }), (1, { buf := [], cap := 1000 })] }

/-- A monitor state in which the two nodes have reported the same value. -/
def monitorAgreed : MonitorState :=
  { curMaxes := [(0, 5), (1, 5)]
    resultChans := [(0, { buf := [], cap := 1000 }), (1, { buf := [], cap := 1000 })] }

/-- A monitor state in which two reports of node 0 are pending, 3 sent before
7. -/
def monitorTwoPending : MonitorState :=
  { curMaxes := []
    resultChans := [(0, { buf := [report 0 3, report 0 7], cap := 1000 })] }

/-- The state `monitorTwoPending` after a pass. -/
def monitorTwoPendingAfter : MonitorState :=
  { curMaxes := [(0, 3)]
    resultChans := [(0, { buf := [report 0 7], cap := 1000 })] }

/-! ## Reports and receptions along a run of a worker -/

/-- The reports a completed iteration from `w` to `w'` has put on the result
channel. -/
def emitted (w w' : Worker) : List Message :=
  w'.result.buf.drop w.result.buf.length

/-- The message the iteration at position `i` takes from the inbound link, if
one is pending. -/
def received (w : Worker) (i : Nat) : List Message :=
  match w.recv[i]? with
  | some c => c.buf.take 1
  | none => []

/-- The reports a worker puts on its result channel along a sequence of
events, in the order in which they are sent. -/
def reportsAlong (w : Worker) : List Event → List Message
  | [] => []
  | Event.iter i :: evs =>
    match loopStep w i with
    | Outcome.done w' => emitted w w' ++ reportsAlong w' evs
    | _ => []
  | Event.env s r res :: evs =>
    reportsAlong { w with send := s, recv := r, result := res } evs

/-- The messages a worker takes from its inbound links along a sequence of
events. -/
def receivedAlong (w : Worker) : List Event → List Message
  | [] => []
  | Event.iter i :: evs =>
    match loopStep w i with
    | Outcome.done w' => received w i ++ receivedAlong w' evs
    | _ => received w i
  | Event.env s r res :: evs =>
    receivedAlong { w with send := s, recv := r, result := res } evs

/-! ## Initial worker states -/

/-- The table built by the loop
`for sendIndex := range neighbors { shouldSendTable[sendIndex] = true }` over a
slice of length `n`. -/
def initialShouldSendTable (n : Nat) : GoMap Bool :=
  (List.range n).foldl (fun t (sendIndex : Nat) => GoMap.set t (sendIndex : Int) true) []

/-- The initial state of the worker of node `n`; `none` stands for the panic of
`rand.Intn` on a bound that is not positive. -/
def generateInitialMaxState (w : World) (n : Node) (max : Int) (rnd : Rand) :
    Option (MaxState × Rand) :=
  if max ≤ 0 then none
  else
    let val : Int := ((rnd.Intn max.toNat).1 : Int)
    let shouldSendTable := initialShouldSendTable (w.Neighbors n.Id).length
    some ({ value := val, max := val, shouldSendTable := shouldSendTable },
      (rnd.Intn max.toNat).2)

/-- The path `0 - 1 - 2 - 3`. -/
def pathWorld : World :=
  { Nodes := [{ Id := 0 }, { Id := 1 }, { Id := 2 }, { Id := 3 }]
    Edges := [NewEdge 0 1 1 false, NewEdge 1 2 1 false, NewEdge 2 3 1 false] }

/-- A random source that hands out 3, 7, 2, 9 and then 0. -/
def seedRand : Rand := { draws := fun k => [3, 7, 2, 9].getD k 0, pos := 0 }

/-! ## The samples drawn by `generateWorld` -/

/-- The record of the existence samples drawn so far: one entry `(i, j, b)`
for each evaluation of `rand.Float32() <= neighborP`, in order, where `(i, j)`
is the pair of the iteration and `b` the result of the test. -/
abbrev SampleLog := List (Nat × Nat × Bool)

/-- The body of the inner loop of `generateWorld` together with the record of
its sample. -/
def edgeStepLog (d nodes : Int) (weighted : Bool) (i j : Nat)
    (t : (World × Rand) × SampleLog) : (World × Rand) × SampleLog :=
  (edgeStep d nodes weighted i j t.1,
    if i ≠ j then t.2 ++ [(i, j, leNeighborP t.1.2.Float32.1 d nodes)] else t.2)

/-- The body of the outer loop of `generateWorld` together with the record of
its samples. -/
def nodeStepLog (d nodes : Int) (weighted : Bool) (t : (World × Rand) × SampleLog)
    (i : Nat) : (World × Rand) × SampleLog :=
  (List.range nodes.toNat).foldl
    (fun t j => edgeStepLog d nodes weighted i j t)
    (({ t.1.1 with Nodes := t.1.1.Nodes ++ [{ Id := (i : Int) }] }, t.1.2), t.2)

/-- The run of `generateWorld` together with the record of its samples. -/
def generateWorldLog (nodes d : Int) (weighted : Bool) (rnd : Rand) :
    (World × Rand) × SampleLog :=
  (List.range nodes.toNat).foldl (nodeStepLog d nodes weighted) ((BlankWorld, rnd), [])

/-- The edges of the world are those announced by the record of samples. -/
def LogInv (t : (World × Rand) × SampleLog) : Prop :=
  ∀ a b : Nat, t.1.1.HasEdge (a : Int) (b : Int) = true ↔
    ((a, b, true) ∈ t.2 ∨ (b, a, true) ∈ t.2)

/-- The pairs `(i, j)` with `i != j` in the order in which the loops of
`generateWorld` over `n` nodes visit them. -/
def orderedPairs (n : Nat) : List (Nat × Nat) :=
  ((List.range n).map fun i : Nat =>
    ((List.range n).filter fun j : Nat => decide (i ≠ j)).map fun j : Nat => (i, j)).flatten

/-- A random source whose first six samples are above one half except the
third, the sample of the pair `(1, 0)` in a world of three nodes. -/
def thirdSampleRand : Rand :=
  { draws := fun k => [16777215, 16777215, 0, 16777215, 16777215, 16777215].getD k 16777215
    pos := 0 }

/-- A random source whose first six samples are above one half except the
first, the sample of the pair `(0, 1)` in a world of three nodes. -/
def firstSampleRand : Rand :=
  { draws := fun k => [0, 16777215, 16777215, 16777215, 16777215, 16777215].getD k 16777215
    pos := 0 }

/-! ## The channels between the workers -/

def NODES : Nat := 1000

def MAX : Int := 1000

/-- The result of `initializeChannels`: the two tables, which hold references
to channels, and the channels created by `make`.  A reference is the position
of the channel in `chans`. -/
structure Channels where
  sendTable : GoMap (List Nat)
  receiveTable : GoMap (List Nat)
  chans : List Chan
  deriving DecidableEq, Repr

/-- The statement `table[k] = append(table[k], c)`. -/
def appendAt (table : GoMap (List Nat)) (k : Int) (c : Nat) : GoMap (List Nat) :=
  GoMap.set table k (GoMap.get [] table k ++ [c])

/-- The body of the loop of `initializeChannels` for the edge `e`. -/
def registerEdge (st : Channels) (e : Edge) : Channels :=
  let FromTo := st.chans.length
  let ToFrom := st.chans.length + 1
  let chans := st.chans ++ [{ buf := [], cap := NODES }, { buf := [], cap := NODES }]
  let receiveChannel := appendAt st.receiveTable e.To FromTo
  let receiveChannel := appendAt receiveChannel e.From ToFrom
  let sendChannel := appendAt st.sendTable e.To ToFrom
  let sendChannel := appendAt sendChannel e.From FromTo
  { sendTable := sendChannel, receiveTable := receiveChannel, chans := chans }

def initializeChannels (w : World) : Channels :=
  w.Edges.foldl registerEdge { sendTable := [], receiveTable := [], chans := [] }

/-- The channel created as `FromTo` for the edge at position `j` of the edge
list. -/
def linkFromTo (j : Nat) : Nat := 2 * j

/-- The channel created as `ToFrom` for the edge at position `j` of the edge
list. -/
def linkToFrom (j : Nat) : Nat := 2 * j + 1

/-- The references that the edges `es` add to the send table of node `c`, when
`off` channels exist before. -/
def sendRefs (c : Int) : Nat → List Edge → List Nat
  | _, [] => []
  | off, e :: es =>
    (if e.To = c then [off + 1] else []) ++ (if e.From = c then [off] else []) ++
      sendRefs c (off + 2) es

/-- The references that the edges `es` add to the receive table of node `c`,
when `off` channels exist before. -/
def recvRefs (c : Int) : Nat → List Edge → List Nat
  | _, [] => []
  | off, e :: es =>
    (if e.To = c then [off] else []) ++ (if e.From = c then [off + 1] else []) ++
      recvRefs c (off + 2) es

/-- The neighbours of node `c` along the edges `es`, in order. -/
def neighborsRec (c : Int) : List Edge → List Int
  | [] => []
  | e :: es =>
    if e.From = c then e.To :: neighborsRec c es
    else if e.To = c then e.From :: neighborsRec c es
    else neighborsRec c es

/-- For each edge of `es` incident to node `c`, in order: the channel on which
`c` sends to the other endpoint, the channel on which it receives from it, and
the other endpoint. -/
def incidence (c : Int) : Nat → List Edge → List (Nat × Nat × Int)
  | _, [] => []
  | off, e :: es =>
    if e.From = c then (off, off + 1, e.To) :: incidence c (off + 2) es
    else if e.To = c then (off + 1, off, e.From) :: incidence c (off + 2) es
    else incidence c (off + 2) es

/-! ## The system of workers -/

/-- The arguments `n`, `send` and `recv` of a running `MaxWorkerProc`; the
channels are references into the list of channels of the system. -/
structure Proc where
  n : Node
  send : List Nat
  recv : List Nat
  deriving DecidableEq, Repr

/-- The workers started by `main`: for the goroutine at position `p`, its
arguments `procs[p]`, its local variable `states[p]` and its result channel
`results[p]`; and the channels `links` made by `initializeChannels`. -/
structure System where
  procs : List Proc
  states : List MaxState
  links : List Chan
  results : List Chan
  deriving DecidableEq, Repr

/-- One iteration of the inner loop of `MaxWorkerProc`, at position `i`, run
by the worker at position `p` of the system; `none` when the iteration does
not run to its end (a send on a full channel, or an index out of range). -/
def System.iter (s : System) (p i : Nat) : Option System :=
  match s.procs[p]?, s.states[p]?, s.results[p]? with
  | some pr, some state, some result =>
    match pr.recv[i]? with
    | none => none
    | some r =>
      match s.links[r]? with
      | none => none
      | some c =>
        match c.buf with
        | m :: rest =>
          -- case m := <-recv[i]
          if m.payload > state.max then
            if result.hasRoom then
              some
                { s with
                  links := s.links.set r { c with buf := rest }
                  results := s.results.set p
                    (result.push
                      { msgType := messageType.MAX_MESSAGE, from_ := pr.n.Id,
                        payload := m.payload })
                  states := s.states.set p
                    { value := state.value
                      max := m.payload
                      shouldSendTable := GoMap.setAll state.shouldSendTable true } }
            else none
          else some { s with links := s.links.set r { c with buf := rest } }
        | [] =>
          -- default
          if GoMap.get false state.shouldSendTable (i : Int) then
            match pr.send[i]? with
            | none => none
            | some sr =>
              match s.links[sr]? with
              | none => none
              | some sc =>
                if sc.hasRoom then
                  some
                    { s with
                      links := s.links.set sr
                        (sc.push
                          { msgType := messageType.MAX_MESSAGE, from_ := pr.n.Id,
                            payload := state.max })
                      states := s.states.set p
                        { state with
                          shouldSendTable :=
                            GoMap.set state.shouldSendTable (i : Int) false } }
                else none
          else some s
  | _, _, _ => none

/-- The monitor receives the oldest report of the worker at position `p`. -/
def System.take (s : System) (p : Nat) : Option System :=
  match s.results[p]? with
  | some c =>
    match c.buf with
    | _ :: rest => some { s with results := s.results.set p { c with buf := rest } }
    | [] => none
  | none => none

/-- A step of the system: an iteration of one worker, or a receive of the
monitor. -/
inductive Action where
  | iter (p i : Nat)
  | take (p : Nat)
  deriving DecidableEq, Repr

def System.act (s : System) : Action → Option System
  | Action.iter p i => s.iter p i
  | Action.take p => s.take p

/-- The system after a sequence of steps; `none` when one of them cannot be
taken. -/
def System.run (s : System) : List Action → Option System
  | [] => some s
  | a :: as =>
    match s.act a with
    | some s' => s'.run as
    | none => none

/-- The worker at position `p` as `loopStep` sees it: the channels behind its
references. -/
def System.view (s : System) (pr : Proc) (state : MaxState) (result : Chan) : Worker :=
  { n := pr.n
    state := state
    send := pr.send.map fun l => s.links.getD l { buf := [], cap := 0 }
    recv := pr.recv.map fun l => s.links.getD l { buf := [], cap := 0 }
    result := result }

/-- The loop of `main` that starts the workers, over the nodes still to be
started: the arguments and the initial states, in the order of the nodes. -/
def spawn (w : World) (ch : Channels) :
    List Node → Rand → Option (List Proc × List MaxState × Rand)
  | [], rnd => some ([], [], rnd)
  | n :: ns, rnd =>
    match generateInitialMaxState w n MAX rnd with
    | none => none
    | some (state, rnd1) =>
      match spawn w ch ns rnd1 with
      | none => none
      | some (ps, sts, rnd2) =>
        some
          ({ n := n
             send := GoMap.get [] ch.sendTable n.Id
             recv := GoMap.get [] ch.receiveTable n.Id } :: ps,
            state :: sts, rnd2)

/-- The system that `main` sets up for the world `w`: the channels of
`initializeChannels`, one worker per node with the state of
`generateInitialMaxState` and an empty result channel of capacity `NODES`. -/
def startWorkers (w : World) (rnd : Rand) : Option System :=
  match spawn w (initializeChannels w) w.Nodes rnd with
  | none => none
  | some (ps, sts, _) =>
    some
      { procs := ps
        states := sts
        links := (initializeChannels w).chans
        results := ps.map fun _ => { buf := [], cap := NODES } }

/-- One pass of the inner loop of every worker, the workers taken in the order
of their positions from `p` on. -/
def passes : Nat → List Proc → List Action
  | _, [] => []
  | p, pr :: prs => (List.range pr.recv.length).map (Action.iter p) ++ passes (p + 1) prs

/-- The round-robin schedule of `rounds` rounds: in every round each worker
runs one pass of its inner loop. -/
def roundRobin (s : System) (rounds : Nat) : List Action :=
  (List.replicate rounds (passes 0 s.procs)).flatten

/-- The table `resultChans` of `main` for the system: the result channel of
each worker under the id of its node. -/
def System.resultChans (s : System) : GoMap Chan :=
  (s.procs.zip s.results).foldl (fun m x => GoMap.set m x.1.n.Id x.2) []

/-- The seeds of the system: the `value` of each worker, in the order of the
workers. -/
def System.seeds (s : System) : List Int := s.states.map fun st => st.value

/-- Validity with respect to the seeds `S`: every `max`, every payload in
flight and every reported payload is one of the seeds, every worker still has
its seed as `value`, and its `max` is at least that seed. -/
def Valid (S : List Int) (s : System) : Prop :=
  (∀ (p : Nat) (st : MaxState), s.states[p]? = some st →
    st.max ∈ S ∧ S[p]? = some st.value ∧ st.value ≤ st.max) ∧
  (∀ c ∈ s.links, ∀ m ∈ c.buf, m.payload ∈ S) ∧
  (∀ c ∈ s.results, ∀ m ∈ c.buf, m.payload ∈ S)

/-- The system that `main` sets up for the path `0 - 1 - 2 - 3` with the seeds
3, 7, 2, 9. -/
def pathSystem : System :=
  { procs := [{ n := { Id := 0 }, send := [0], recv := [1] },
              { n := { Id := 1 }, send := [1, 2], recv := [0, 3] },
              { n := { Id := 2 }, send := [3, 4], recv := [2, 5] },
              { n := { Id := 3 }, send := [5], recv := [4] }]
    states := [{ value := 3, max := 3, shouldSendTable := [(0, true)] },
               { value := 7, max := 7, shouldSendTable := [(0, true), (1, true)] },
               { value := 2, max := 2, shouldSendTable := [(0, true), (1, true)] },
               { value := 9, max := 9, shouldSendTable := [(0, true)] }]
    links := List.replicate 6 { buf := [], cap := 1000 }
    results := List.replicate 4 { buf := [], cap := 1000 } }

/-- The path system after eight rounds of the round-robin schedule: every
worker holds 9, no message is in flight and no flag is set. -/
def pathSystemQuiescent : System :=
  { pathSystem with
    states := [{ value := 3, max := 9, shouldSendTable := [(0, false)] },
               { value := 7, max := 9, shouldSendTable := [(0, false), (1, false)] },
               { value := 2, max := 9, shouldSendTable := [(0, false), (1, false)] },
               { value := 9, max := 9, shouldSendTable := [(0, false)] }]
    results := [{ buf := [report 0 7, report 0 9], cap := 1000 },
                { buf := [report 1 9], cap := 1000 },
                { buf := [report 2 7, report 2 9], cap := 1000 },
                { buf := [], cap := 1000 }] }

/-- All links are empty and all needs-send flags are false. -/
def System.quiescent (s : System) : Bool :=
  s.links.all (fun c => c.buf.isEmpty) &&
    s.states.all (fun st => st.shouldSendTable.all (fun e => !e.2))

/-- Every channel is received from by one worker only. -/
def OneReceiver (s : System) : Prop :=
  ∀ (q q' : Nat) (qr qr' : Proc) (k k' l : Nat),
    s.procs[q]? = some qr → s.procs[q']? = some qr' →
    qr.recv[k]? = some l → qr'.recv[k']? = some l → q = q'

/-- The flag table of every worker has a key for each of its send
positions. -/
def FlagsCover (s : System) : Prop :=
  ∀ (p : Nat) (pr : Proc) (st : MaxState), s.procs[p]? = some pr → s.states[p]? = some st →
    ∀ k : Nat, k < pr.send.length → GoMap.contains st.shouldSendTable (k : Int) = true

/-- The invariant of the flooding: for every channel, from worker `p` (at its
send position `k`) to worker `q`, either `p` still has the flag for `k` set,
or `q` already knows a value at least as great as the `max` of `p`, or a
message carrying the `max` of `p` is in flight on the channel. -/
def LinkInv (s : System) : Prop :=
  ∀ (p q : Nat) (pr qr : Proc) (sp sq : MaxState) (k k' l : Nat),
    s.procs[p]? = some pr → s.procs[q]? = some qr →
    s.states[p]? = some sp → s.states[q]? = some sq →
    pr.send[k]? = some l → qr.recv[k']? = some l →
    GoMap.get false sp.shouldSendTable (k : Int) = true ∨ sp.max ≤ sq.max ∨
      ∃ c : Chan, s.links[l]? = some c ∧ ∃ m ∈ c.buf, m.payload = sp.max

/-- Any two nodes of the world are joined by a path of edges through nodes of
the world. -/
def World.Connected (w : World) : Prop :=
  ∀ a b : Int, a ∈ w.Nodes.map Node.Id → b ∈ w.Nodes.map Node.Id →
    Relation.ReflTransGen
      (fun x y => y ∈ w.Nodes.map Node.Id ∧ w.HasEdge x y = true) a b

/-- The invariants of the system that the workers keep: the workers and the
number of states do not change, every channel has one receiver, the flag
tables cover the send positions and the flooding invariant holds. -/
def Flood (s0 s : System) : Prop :=
  s.procs = s0.procs ∧ s.states.length = s0.states.length ∧
    OneReceiver s ∧ FlagsCover s ∧ LinkInv s

/-- The monitor loop of `main` when it starts polling the system `s`: the
table `curMaxes` is empty. -/
def monitorOf (s : System) : MonitorState :=
  { curMaxes := [], resultChans := s.resultChans }

/-! ## Lemmas on Go maps -/

namespace GoMap

variable {V : Type}

theorem lookup_map_val (m : GoMap V) (v : V) (k : Int) :
    lookup (m.map (fun e => (e.1, v))) k = (lookup m k).map (fun _ => v) := by
  induction m with
  | nil => rfl
  | cons e t ih =>
    obtain ⟨k', v'⟩ := e
    by_cases h : k' = k
    · simp [lookup, h]
    · simpa [lookup, h] using ih

theorem lookup_setAll (m : GoMap V) (v : V) (k : Int) :
    lookup (setAll m v) k = (lookup m k).map (fun _ => v) :=
  lookup_map_val m v k

theorem contains_setAll (m : GoMap V) (v : V) (k : Int) :
    contains (setAll m v) k = contains m k := by
  simp [contains, lookup_setAll]

theorem lookup_append_of_none (m t : GoMap V) (k : Int) (h : lookup m k = none) :
    lookup (m ++ t) k = lookup t k := by
  induction m with
  | nil => rfl
  | cons e m ih =>
    obtain ⟨k', v'⟩ := e
    by_cases hk : k' = k
    · simp [lookup, hk] at h
    · simp only [lookup, hk, if_false] at h
      simpa [lookup, hk] using ih h

theorem lookup_append_of_some (m t : GoMap V) (k : Int) (v : V) (h : lookup m k = some v) :
    lookup (m ++ t) k = some v := by
  induction m with
  | nil => simp [lookup] at h
  | cons e m ih =>
    obtain ⟨k', v'⟩ := e
    by_cases hk : k' = k
    · simpa [lookup, hk] using h
    · simp only [lookup, hk, if_false] at h
      simpa [lookup, hk] using ih h

theorem lookup_overwrite (m : GoMap V) (k k' : Int) (v : V) :
    lookup (overwrite m k v) k' =
      if k' = k then (lookup m k).map (fun _ => v) else lookup m k' := by
  induction m with
  | nil => simp [lookup, overwrite]
  | cons e t ih =>
    obtain ⟨k0, v0⟩ := e
    simp only [overwrite, lookup]
    by_cases h1 : k' = k
    · subst h1
      by_cases h0 : k0 = k'
      · simp [h0]
      · simpa [h0] using ih
    · by_cases h2 : k0 = k'
      · simp [h1, h2]
      · simpa [h1, h2] using ih

theorem lookup_set_self (m : GoMap V) (k : Int) (v : V) :
    lookup (set m k v) k = some v := by
  unfold set
  by_cases h : contains m k = true
  · rw [if_pos h, lookup_overwrite, if_pos rfl]
    unfold contains at h
    obtain ⟨x, hx⟩ := Option.isSome_iff_exists.mp h
    simp [hx]
  · rw [if_neg h]
    have hn : lookup m k = none := by
      unfold contains at h
      simpa using h
    rw [lookup_append_of_none m _ k hn]
    simp [lookup]

theorem lookup_set_ne (m : GoMap V) (k k' : Int) (v : V) (hne : k' ≠ k) :
    lookup (set m k v) k' = lookup m k' := by
  unfold set
  by_cases h : contains m k = true
  · rw [if_pos h, lookup_overwrite, if_neg hne]
  · rw [if_neg h]
    cases hl : lookup m k' with
    | none =>
      rw [lookup_append_of_none m _ k' hl]
      have : ¬ k = k' := fun h => hne h.symm
      simp [lookup, this]
    | some x => exact lookup_append_of_some m _ k' x hl

theorem get_set_self (zero : V) (m : GoMap V) (k : Int) (v : V) :
    get zero (set m k v) k = v := by
  simp [get, lookup_set_self]

theorem get_set_ne (zero : V) (m : GoMap V) (k k' : Int) (v : V) (hne : k' ≠ k) :
    get zero (set m k v) k' = get zero m k' := by
  simp [get, lookup_set_ne m k k' v hne]

theorem get_setAll_of_contains (zero : V) (m : GoMap V) (v : V) (k : Int)
    (h : contains m k = true) : get zero (setAll m v) k = v := by
  unfold contains at h
  obtain ⟨x, hx⟩ := Option.isSome_iff_exists.mp h
  simp [get, lookup_setAll, hx]

end GoMap

/-! ## The worker: one iteration of the loop of `MaxWorkerProc` -/

theorem loopStep_recv_le (w : Worker) (i : Nat) (m : Message) (rest : List Message)
    (cap : Nat) (hrecv : w.recv[i]? = some { buf := m :: rest, cap := cap })
    (hle : m.payload ≤ w.state.max) :
    loopStep w i =
      Outcome.done { w with recv := w.recv.set i { buf := rest, cap := cap } } := by
  have hn : ¬ m.payload > w.state.max := not_lt.mpr hle
  simp [loopStep, hrecv, hn]

theorem loopStep_recv_gt (w : Worker) (i : Nat) (m : Message) (rest : List Message)
    (cap : Nat) (hrecv : w.recv[i]? = some { buf := m :: rest, cap := cap })
    (hgt : w.state.max < m.payload) :
    loopStep w i =
      if w.result.hasRoom then
        Outcome.done
          { w with
            recv := w.recv.set i { buf := rest, cap := cap }
            result := w.result.push (maxMessage w m.payload)
            state :=
              { value := w.state.value
                max := m.payload
                shouldSendTable := GoMap.setAll w.state.shouldSendTable true } }
      else
        Outcome.blocked
          { w with
            recv := w.recv.set i { buf := rest, cap := cap }
            state := { w.state with max := m.payload } } := by
  have hn : m.payload > w.state.max := hgt
  simp [loopStep, hrecv, hn, maxMessage]

theorem loopStep_default_idle (w : Worker) (i : Nat) (cap : Nat)
    (hrecv : w.recv[i]? = some { buf := [], cap := cap })
    (hflag : GoMap.get false w.state.shouldSendTable (i : Int) = false) :
    loopStep w i = Outcome.done w := by
  simp [loopStep, hrecv, hflag]

theorem loopStep_default_send (w : Worker) (i : Nat) (cap : Nat) (sc : Chan)
    (hrecv : w.recv[i]? = some { buf := [], cap := cap })
    (hflag : GoMap.get false w.state.shouldSendTable (i : Int) = true)
    (hsend : w.send[i]? = some sc) :
    loopStep w i =
      if sc.hasRoom then
        Outcome.done
          { w with
            send := w.send.set i (sc.push (maxMessage w w.state.max))
            state := { w.state with
              shouldSendTable := GoMap.set w.state.shouldSendTable (i : Int) false } }
      else Outcome.blocked w := by
  simp [loopStep, hrecv, hflag, hsend, maxMessage]

theorem loopStep_max_le (w : Worker) (i : Nat) (w' : Worker)
    (h : loopStep w i = Outcome.done w' ∨ loopStep w i = Outcome.blocked w') :
    w.state.max ≤ w'.state.max := by
  cases hr : w.recv[i]? with
  | none => simp [loopStep, hr] at h
  | some c =>
    obtain ⟨buf, cap⟩ := c
    cases buf with
    | nil =>
      cases hf : GoMap.get false w.state.shouldSendTable (i : Int) with
      | false =>
        rw [loopStep_default_idle w i cap hr hf] at h
        simp at h
        rw [← h]
      | true =>
        cases hs : w.send[i]? with
        | none => simp [loopStep, hr, hf, hs] at h
        | some sc =>
          rw [loopStep_default_send w i cap sc hr hf hs] at h
          cases hroom : sc.hasRoom with
          | false =>
            simp [hroom] at h
            rw [← h]
          | true =>
            simp [hroom] at h
            rw [← h]
    | cons m rest =>
      by_cases hgt : w.state.max < m.payload
      · rw [loopStep_recv_gt w i m rest cap hr hgt] at h
        cases hroom : w.result.hasRoom with
        | false =>
          simp [hroom] at h
          rw [← h]
          exact le_of_lt hgt
        | true =>
          simp [hroom] at h
          rw [← h]
          exact le_of_lt hgt
      · rw [loopStep_recv_le w i m rest cap hr (not_lt.mp hgt)] at h
        simp at h
        rw [← h]

theorem applyEvent_max_le (w w' : Worker) (ev : Event) (h : applyEvent w ev = some w') :
    w.state.max ≤ w'.state.max := by
  cases ev with
  | iter i =>
    simp only [applyEvent] at h
    cases hl : loopStep w i with
    | done w1 =>
      rw [hl] at h
      simp at h
      subst h
      exact loopStep_max_le w i w1 (Or.inl hl)
    | blocked w1 => rw [hl] at h; simp at h
    | panic => rw [hl] at h; simp at h
  | env s r res =>
    simp only [applyEvent, Option.some.injEq] at h
    rw [← h]

theorem runEvents_max_ge (evs : List Event) :
    ∀ (w x : Worker), x ∈ runEvents w evs → w.state.max ≤ x.state.max := by
  induction evs with
  | nil =>
    intro w x hx
    simp [runEvents] at hx
    rw [hx]
  | cons ev evs ih =>
    intro w x hx
    simp only [runEvents] at hx
    cases ha : applyEvent w ev with
    | none =>
      rw [ha] at hx
      simp at hx
      rw [hx]
    | some w1 =>
      rw [ha] at hx
      simp at hx
      rcases hx with hx | hx
      · rw [hx]
      · exact le_trans (applyEvent_max_le w w1 ev ha) (ih w1 x hx)

theorem runEvents_pairwise (evs : List Event) :
    ∀ w : Worker,
      List.Pairwise (fun a b : Worker => a.state.max ≤ b.state.max) (runEvents w evs) := by
  induction evs with
  | nil => intro w; simp [runEvents]
  | cons ev evs ih =>
    intro w
    simp only [runEvents]
    cases ha : applyEvent w ev with
    | none => simp
    | some w1 =>
      simp only [List.pairwise_cons]
      refine ⟨fun x hx => ?_, ih w1⟩
      exact le_trans (applyEvent_max_le w w1 ev ha) (runEvents_max_ge evs w1 x hx)

theorem scanFrom_max_le (is : List Nat) :
    ∀ (w w' : Worker),
      scanFrom w is = Outcome.done w' ∨ scanFrom w is = Outcome.blocked w' →
      w.state.max ≤ w'.state.max := by
  induction is with
  | nil =>
    intro w w' h
    simp [scanFrom] at h
    rw [h]
  | cons i is ih =>
    intro w w' h
    simp only [scanFrom] at h
    cases hl : loopStep w i with
    | done w1 =>
      rw [hl] at h
      exact le_trans (loopStep_max_le w i w1 (Or.inl hl)) (ih w1 w' h)
    | blocked w1 =>
      rw [hl] at h
      simp at h
      subst h
      exact loopStep_max_le w i w1 (Or.inr hl)
    | panic => rw [hl] at h; simp at h

theorem MaxWorkerProc_max_le (fuel : Nat) :
    ∀ (w w' : Worker),
      MaxWorkerProc fuel w = Outcome.done w' ∨ MaxWorkerProc fuel w = Outcome.blocked w' →
      w.state.max ≤ w'.state.max := by
  induction fuel with
  | zero =>
    intro w w' h
    simp [MaxWorkerProc] at h
    rw [h]
  | succ fuel ih =>
    intro w w' h
    simp only [MaxWorkerProc] at h
    cases hl : scanFrom w (List.range w.recv.length) with
    | done w1 =>
      rw [hl] at h
      exact le_trans (scanFrom_max_le _ w w1 (Or.inl hl)) (ih w1 w' h)
    | blocked w1 =>
      rw [hl] at h
      simp at h
      subst h
      exact scanFrom_max_le _ w w1 (Or.inr hl)
    | panic => rw [hl] at h; simp at h

/-- C1: monotonicity of `MaxWorkerProc`.  Whatever iteration of the loop a
worker runs (a receive on any inbound link `i`, or the branch without message
at any position `i`), its `max` afterwards is at least its `max` before, also
when the iteration is suspended in a send.  Hence the `max` values along every
sequence of iterations, interleaved with arbitrary actions of the other
goroutines on the channels, are non-decreasing, and so are they along the loop
of `MaxWorkerProc` itself. -/
theorem max_monotone (w : Worker) :
    (∀ (i : Nat) (w' : Worker),
        loopStep w i = Outcome.done w' ∨ loopStep w i = Outcome.blocked w' →
        w.state.max ≤ w'.state.max) ∧
    (∀ evs : List Event,
        List.Pairwise (fun a b : Worker => a.state.max ≤ b.state.max) (runEvents w evs)) ∧
    (∀ (fuel : Nat) (w' : Worker),
        MaxWorkerProc fuel w = Outcome.done w' ∨ MaxWorkerProc fuel w = Outcome.blocked w' →
        w.state.max ≤ w'.state.max) :=
  ⟨fun i w' h => loopStep_max_le w i w' h,
   fun evs => runEvents_pairwise evs w,
   fun fuel w' h => MaxWorkerProc_max_le fuel w w' h⟩

theorem max_monotone_witness :
    loopStep exampleWorker 0 = Outcome.done exampleWorkerRaised ∧
      exampleWorker.state.max ≤ exampleWorkerRaised.state.max :=
  ⟨by decide, (max_monotone exampleWorker).1 0 exampleWorkerRaised (Or.inl (by decide))⟩

/-- C2: the receive-and-raise iteration of `MaxWorkerProc`.  When the message
at the head of inbound link `i` carries a payload strictly greater than the
worker's `max`, every completed iteration at `i` leaves `max` equal to that
payload, `value` unchanged, every flag of `shouldSendTable` true (the key set of
the table is unchanged, so this includes the position `i` of the sender and,
in a table with a key for every position, every neighbour position), the
message consumed and one report with the node id and the new `max` appended to
the result channel.  The iteration completes whenever the result channel has
room; when it is full the worker is suspended in the report with `max` already
raised. -/
theorem receive_raise (w : Worker) (i : Nat) (m : Message) (rest : List Message) (cap : Nat)
    (hrecv : w.recv[i]? = some { buf := m :: rest, cap := cap })
    (hgt : w.state.max < m.payload) :
    (∀ w' : Worker, loopStep w i = Outcome.done w' →
        w'.state.max = m.payload ∧
        w'.state.value = w.state.value ∧
        (∀ k : Int, GoMap.contains w.state.shouldSendTable k = true →
          GoMap.get false w'.state.shouldSendTable k = true) ∧
        (∀ k : Int, GoMap.contains w'.state.shouldSendTable k =
          GoMap.contains w.state.shouldSendTable k) ∧
        ((∀ j : Nat, j < w.send.length →
            GoMap.contains w.state.shouldSendTable (j : Int) = true) →
          ∀ j : Nat, j < w.send.length →
            GoMap.get false w'.state.shouldSendTable (j : Int) = true) ∧
        w'.result = w.result.push
          { msgType := messageType.MAX_MESSAGE, from_ := w.n.Id, payload := m.payload } ∧
        w'.recv = w.recv.set i { buf := rest, cap := cap } ∧
        w'.send = w.send ∧ w'.n = w.n) ∧
    (w.result.hasRoom = true → ∃ w' : Worker, loopStep w i = Outcome.done w') ∧
    (w.result.hasRoom = false →
      loopStep w i =
        Outcome.blocked
          { w with
            recv := w.recv.set i { buf := rest, cap := cap }
            state := { w.state with max := m.payload } }) := by
  have hstep := loopStep_recv_gt w i m rest cap hrecv hgt
  refine ⟨?_, ?_, ?_⟩
  · intro w' hdone
    rw [hstep] at hdone
    cases hroom : w.result.hasRoom with
    | false => simp [hroom] at hdone
    | true =>
      simp only [hroom, if_true, Outcome.done.injEq] at hdone
      subst hdone
      have hall : ∀ k : Int, GoMap.contains w.state.shouldSendTable k = true →
          GoMap.get false (GoMap.setAll w.state.shouldSendTable true) k = true :=
        fun k hk => GoMap.get_setAll_of_contains false _ true k hk
      refine ⟨rfl, rfl, hall, ?_, ?_, rfl, rfl, rfl, rfl⟩
      · intro k
        exact GoMap.contains_setAll _ _ k
      · intro hkeys j hj
        exact hall _ (hkeys j hj)
  · intro hroom
    rw [hstep, hroom]
    exact ⟨_, rfl⟩
  · intro hroom
    rw [hstep, hroom]
    rfl

theorem receive_raise_witness :
    ∃ w' : Worker, loopStep exampleWorker 0 = Outcome.done w' ∧ w'.state.max = 9 := by
  have h := receive_raise exampleWorker 0
    { msgType := messageType.MAX_MESSAGE, from_ := 0, payload := 9 } [] 2
    (by decide) (by decide)
  obtain ⟨w', hw'⟩ := h.2.1 (by decide)
  exact ⟨w', hw', (h.1 w' hw').1⟩

theorem getElem?_set_same (l : List Chan) (i : Nat) (c c' : Chan) (h : l[i]? = some c) :
    (l.set i c')[i]? = some c' := by
  have hlt : i < l.length := by
    by_contra hge
    rw [List.getElem?_eq_none (not_lt.mp hge)] at h
    exact Option.noConfusion h
  simp [List.getElem?_set, hlt]

/-- C3: idempotence of re-delivery in `MaxWorkerProc`.  When the message at
the head of inbound link `i` carries a payload less than or equal to the
worker's `max`, the iteration at `i` completes and only consumes the message:
`value`, `max` and every flag are unchanged, nothing is put on the result
channel and nothing on any outbound link.  So when the same payload is
delivered twice in a row the second delivery changes nothing, whatever the
first one did. -/
theorem redelivery_idempotent (w : Worker) (i : Nat) (m : Message) (rest : List Message)
    (cap : Nat) (hrecv : w.recv[i]? = some { buf := m :: rest, cap := cap }) :
    (m.payload ≤ w.state.max →
      ∃ w' : Worker, loopStep w i = Outcome.done w' ∧ w'.state = w.state ∧
        w'.result = w.result ∧ w'.send = w.send ∧ w'.n = w.n ∧
        w'.recv = w.recv.set i { buf := rest, cap := cap }) ∧
    (∀ (m2 : Message) (rest2 : List Message) (w1 : Worker),
      rest = m2 :: rest2 → m2.payload = m.payload → loopStep w i = Outcome.done w1 →
      ∃ w2 : Worker, loopStep w1 i = Outcome.done w2 ∧ w2.state = w1.state ∧
        w2.result = w1.result ∧ w2.send = w1.send ∧ w2.n = w1.n ∧
        w2.recv = w1.recv.set i { buf := rest2, cap := cap }) := by
  refine ⟨?_, ?_⟩
  · intro hle
    exact ⟨_, loopStep_recv_le w i m rest cap hrecv hle, rfl, rfl, rfl, rfl, rfl⟩
  · intro m2 rest2 w1 hrest hpay hdone
    have key : w1.recv[i]? = some { buf := m2 :: rest2, cap := cap } ∧
        m2.payload ≤ w1.state.max := by
      by_cases hgt : w.state.max < m.payload
      · rw [loopStep_recv_gt w i m rest cap hrecv hgt] at hdone
        cases hroom : w.result.hasRoom with
        | false => simp [hroom] at hdone
        | true =>
          simp only [hroom, if_true, Outcome.done.injEq] at hdone
          subst hdone
          refine ⟨?_, le_of_eq hpay⟩
          show (w.recv.set i { buf := rest, cap := cap })[i]? = _
          rw [getElem?_set_same w.recv i _ _ hrecv, hrest]
      · rw [loopStep_recv_le w i m rest cap hrecv (not_lt.mp hgt)] at hdone
        simp only [Outcome.done.injEq] at hdone
        subst hdone
        refine ⟨?_, ?_⟩
        · show (w.recv.set i { buf := rest, cap := cap })[i]? = _
          rw [getElem?_set_same w.recv i _ _ hrecv, hrest]
        · show m2.payload ≤ w.state.max
          rw [hpay]
          exact not_lt.mp hgt
    exact ⟨_, loopStep_recv_le w1 i m2 rest2 cap key.1 key.2, rfl, rfl, rfl, rfl, rfl⟩

theorem redelivery_idempotent_witness :
    (∃ w' : Worker, loopStep exampleWorkerRedelivered 0 = Outcome.done w' ∧
      w'.state = exampleWorkerRedelivered.state ∧
      w'.result = exampleWorkerRedelivered.result ∧
      w'.send = exampleWorkerRedelivered.send ∧
      w'.n = exampleWorkerRedelivered.n ∧
      w'.recv = exampleWorkerRedelivered.recv.set 0 { buf := [], cap := 2 }) ∧
    (∃ w2 : Worker, loopStep exampleWorkerRedelivered 0 = Outcome.done w2 ∧
      w2.state = exampleWorkerRedelivered.state ∧
      w2.result = exampleWorkerRedelivered.result ∧
      w2.send = exampleWorkerRedelivered.send ∧
      w2.n = exampleWorkerRedelivered.n ∧
      w2.recv = exampleWorkerRedelivered.recv.set 0 { buf := [], cap := 2 }) :=
  ⟨(redelivery_idempotent exampleWorkerRedelivered 0
      { msgType := messageType.MAX_MESSAGE, from_ := 0, payload := 9 } [] 2 (by decide)).1
      (by decide),
   (redelivery_idempotent exampleWorkerTwice 0
      { msgType := messageType.MAX_MESSAGE, from_ := 0, payload := 9 }
      [{ msgType := messageType.MAX_MESSAGE, from_ := 0, payload := 9 }] 2 (by decide)).2
      { msgType := messageType.MAX_MESSAGE, from_ := 0, payload := 9 } []
      exampleWorkerRedelivered rfl rfl (by decide)⟩

/-- C4: the send iteration of `MaxWorkerProc`.  At a position `i` whose
inbound link holds no message: when flag `i` is false the iteration changes
nothing and sends nothing; when flag `i` is true every completed iteration has
appended exactly one message, with the node id as sender and the current `max`
as payload, to outbound link `i` and has made flag `i` false, while `max`,
`value`, every other flag, every other outbound link, the inbound links and
the result channel are unchanged.  The iteration completes whenever outbound
link `i` has room; when that link is full the worker is suspended in the send
with nothing changed. -/
theorem send_step (w : Worker) (i : Nat) (cap : Nat)
    (hrecv : w.recv[i]? = some { buf := [], cap := cap }) :
    (GoMap.get false w.state.shouldSendTable (i : Int) = false →
      loopStep w i = Outcome.done w) ∧
    (GoMap.get false w.state.shouldSendTable (i : Int) = true →
      ∀ sc : Chan, w.send[i]? = some sc →
        (∀ w' : Worker, loopStep w i = Outcome.done w' →
          w'.send[i]? = some
            { buf := sc.buf ++
                [{ msgType := messageType.MAX_MESSAGE, from_ := w.n.Id,
                   payload := w.state.max }],
              cap := sc.cap } ∧
          (∀ j : Nat, j ≠ i → w'.send[j]? = w.send[j]?) ∧
          w'.send.length = w.send.length ∧
          GoMap.get false w'.state.shouldSendTable (i : Int) = false ∧
          (∀ k : Int, k ≠ (i : Int) →
            GoMap.lookup w'.state.shouldSendTable k = GoMap.lookup w.state.shouldSendTable k) ∧
          w'.state.max = w.state.max ∧ w'.state.value = w.state.value ∧
          w'.recv = w.recv ∧ w'.result = w.result ∧ w'.n = w.n) ∧
        (sc.hasRoom = true → ∃ w' : Worker, loopStep w i = Outcome.done w') ∧
        (sc.hasRoom = false → loopStep w i = Outcome.blocked w)) := by
  refine ⟨fun hflag => loopStep_default_idle w i cap hrecv hflag, ?_⟩
  intro hflag sc hsend
  have hstep := loopStep_default_send w i cap sc hrecv hflag hsend
  refine ⟨?_, ?_, ?_⟩
  · intro w' hdone
    rw [hstep] at hdone
    cases hroom : sc.hasRoom with
    | false => simp [hroom] at hdone
    | true =>
      simp only [hroom, if_true, Outcome.done.injEq] at hdone
      subst hdone
      refine ⟨?_, ?_, ?_, ?_, ?_, rfl, rfl, rfl, rfl, rfl⟩
      · show (w.send.set i (sc.push (maxMessage w w.state.max)))[i]? = _
        rw [getElem?_set_same w.send i sc _ hsend]
        rfl
      · intro j hj
        show (w.send.set i (sc.push (maxMessage w w.state.max)))[j]? = _
        rw [List.getElem?_set_ne (Ne.symm hj)]
      · show (w.send.set i (sc.push (maxMessage w w.state.max))).length = _
        exact List.length_set _ _ _
      · exact GoMap.get_set_self false _ _ false
      · intro k hk
        exact GoMap.lookup_set_ne _ _ k false hk
  · intro hroom
    rw [hstep, hroom]
    exact ⟨_, rfl⟩
  · intro hroom
    rw [hstep, hroom]
    rfl

theorem send_step_witness :
    (∃ w' : Worker, loopStep exampleWorkerRaised 1 = Outcome.done w' ∧
      w'.send[1]? = some
        { buf := [{ msgType := messageType.MAX_MESSAGE, from_ := 1, payload := 9 }], cap := 2 } ∧
      GoMap.get false w'.state.shouldSendTable 1 = false) ∧
    loopStep exampleWorkerIdle 1 = Outcome.done exampleWorkerIdle := by
  have h := (send_step exampleWorkerRaised 1 2 (by decide)).2 (by decide)
    { buf := [], cap := 2 } (by decide)
  obtain ⟨w', hw'⟩ := h.2.1 (by decide)
  have hp := h.1 w' hw'
  exact ⟨⟨w', hw', hp.1, hp.2.2.2.1⟩,
    (send_step exampleWorkerIdle 1 2 (by decide)).1 (by decide)⟩

/-! ## The monitor -/

theorem foldl_and_eq {α : Type} (p : α → Bool) (l : List α) :
    ∀ b : Bool, l.foldl (fun c e => c && p e) b = (b && l.all p) := by
  induction l with
  | nil => intro b; simp
  | cons a t ih =>
    intro b
    simp only [List.foldl_cons, List.all_cons, ih]
    cases b <;> simp

theorem complete_iff (curMaxes : GoMap Int) :
    complete curMaxes = true ↔ ∀ e ∈ curMaxes, e.2 = GoMap.get 0 curMaxes 0 := by
  unfold complete
  rw [foldl_and_eq (fun e : Int × Int => decide (e.2 = GoMap.get 0 curMaxes 0))]
  simp

theorem monitorVisit_empty (s : MonitorState) (id : Int) (cap : Nat)
    (hch : GoMap.lookup s.resultChans id = some { buf := [], cap := cap }) :
    monitorVisit s id =
      if complete s.curMaxes then MonitorOutcome.announce (GoMap.get 0 s.curMaxes 0)
      else MonitorOutcome.polling s := by
  simp [monitorVisit, hch]

theorem monitorVisit_pending (s : MonitorState) (id : Int) (m : Message)
    (rest : List Message) (cap : Nat)
    (hch : GoMap.lookup s.resultChans id = some { buf := m :: rest, cap := cap }) :
    monitorVisit s id =
      MonitorOutcome.polling
        { curMaxes := GoMap.set s.curMaxes id m.payload
          resultChans := GoMap.set s.resultChans id { buf := rest, cap := cap } } := by
  simp [monitorVisit, hch]

theorem monitorVisit_frame (s s' : MonitorState) (id : Int)
    (h : monitorVisit s id = MonitorOutcome.polling s') (k : Int) (hk : k ≠ id) :
    GoMap.lookup s'.curMaxes k = GoMap.lookup s.curMaxes k ∧
      GoMap.lookup s'.resultChans k = GoMap.lookup s.resultChans k := by
  cases hch : GoMap.lookup s.resultChans id with
  | none =>
    simp [monitorVisit, hch] at h
    subst h
    exact ⟨rfl, rfl⟩
  | some ch =>
    obtain ⟨buf, cap⟩ := ch
    cases buf with
    | nil =>
      rw [monitorVisit_empty s id cap hch] at h
      by_cases hc : complete s.curMaxes = true
      · simp [hc] at h
      · simp [hc] at h
        subst h
        exact ⟨rfl, rfl⟩
    | cons m rest =>
      rw [monitorVisit_pending s id m rest cap hch] at h
      simp only [MonitorOutcome.polling.injEq] at h
      subst h
      exact ⟨GoMap.lookup_set_ne _ _ k _ hk, GoMap.lookup_set_ne _ _ k _ hk⟩

theorem monitorPass_frame (ids : List Int) :
    ∀ (s s' : MonitorState) (k : Int), k ∉ ids →
      monitorPass s ids = MonitorOutcome.polling s' →
      GoMap.lookup s'.curMaxes k = GoMap.lookup s.curMaxes k ∧
        GoMap.lookup s'.resultChans k = GoMap.lookup s.resultChans k := by
  induction ids with
  | nil =>
    intro s s' k _ h
    simp [monitorPass] at h
    subst h
    exact ⟨rfl, rfl⟩
  | cons id ids ih =>
    intro s s' k hk h
    simp only [monitorPass] at h
    have hne : k ≠ id := fun e => hk (by simp [e])
    have hni : k ∉ ids := fun e => hk (by simp [e])
    cases hv : monitorVisit s id with
    | announce v => rw [hv] at h; simp at h
    | polling s1 =>
      rw [hv] at h
      have h1 := monitorVisit_frame s s1 id hv k hne
      have h2 := ih s1 s' k hni h
      exact ⟨h2.1.trans h1.1, h2.2.trans h1.2⟩

/-- C5: no false convergence fails on the code.  At its first poll, with
nothing reported and an empty table, the monitor declares convergence at the
first node it visits and announces 0; and after node 0 alone has reported 5 it
declares convergence with maximum 5 while node 1 has no entry in `curMaxes`. -/
theorem monitor_declares_with_missing_nodes :
    (monitorPass monitorNothingReported [0, 1] = MonitorOutcome.announce 0 ∧
      GoMap.contains monitorNothingReported.curMaxes 0 = false ∧
      GoMap.contains monitorNothingReported.curMaxes 1 = false) ∧
    (monitorVisit monitorOneReported 0 =
        MonitorOutcome.polling
          { curMaxes := [(0, 5)]
            resultChans := [(0, { buf := [], cap := 1000 }), (1, { buf := [], cap := 1000 })] } ∧
      monitorPass monitorOneReported [0, 1] = MonitorOutcome.announce 5 ∧
      GoMap.contains ([(0, 5)] : GoMap Int) 1 = false) := by
  decide

/-- C6, as stated, fails: in the table where node 1 alone has reported, all
recorded values are equal (to 5), yet the check compares them with
`curMaxes[0]`, which is 0 for the missing key, and the monitor goes on
polling. -/
theorem agreement_check_counterexample :
    (∀ e ∈ monitorNodeZeroMissing.curMaxes, e.2 = 5) ∧
      monitorVisit monitorNodeZeroMissing 0 = MonitorOutcome.polling monitorNodeZeroMissing ∧
      monitorVisit monitorNodeZeroMissing 1 = MonitorOutcome.polling monitorNodeZeroMissing := by
  decide

/-- C6, amended: for every table `curMaxes` that has an entry for node 0 and
in which all recorded values are equal, the check of the monitor (run when the
result channel of the visited node is empty) declares convergence and
announces that common value. -/
theorem agreement_check (s : MonitorState) (id : Int) (cap : Nat) (v : Int)
    (hch : GoMap.lookup s.resultChans id = some { buf := [], cap := cap })
    (hzero : GoMap.contains s.curMaxes 0 = true)
    (hall : ∀ e ∈ s.curMaxes, e.2 = v) :
    complete s.curMaxes = true ∧ monitorVisit s id = MonitorOutcome.announce v := by
  have hget : GoMap.get 0 s.curMaxes 0 = v := by
    unfold GoMap.contains at hzero
    obtain ⟨x, hx⟩ := Option.isSome_iff_exists.mp hzero
    have hmem : ∀ (m : GoMap Int) (k y : Int), GoMap.lookup m k = some y → (k, y) ∈ m := by
      intro m
      induction m with
      | nil => intro k y h; simp [GoMap.lookup] at h
      | cons e t ih =>
        intro k y h
        obtain ⟨k0, v0⟩ := e
        by_cases hk : k0 = k
        · simp [GoMap.lookup, hk] at h
          simp [hk, h]
        · simp only [GoMap.lookup, hk, if_false] at h
          exact List.mem_cons_of_mem _ (ih k y h)
    have hxv : x = v := hall (0, x) (hmem _ 0 x hx)
    simp [GoMap.get, hx, hxv]
  have hc : complete s.curMaxes = true := by
    rw [complete_iff]
    intro e he
    rw [hget]
    exact hall e he
  refine ⟨hc, ?_⟩
  rw [monitorVisit_empty s id cap hch, hc, hget]
  rfl

theorem agreement_check_witness :
    complete monitorAgreed.curMaxes = true ∧
      monitorVisit monitorAgreed 1 = MonitorOutcome.announce 5 :=
  agreement_check monitorAgreed 1 1000 5 (by decide) (by decide) (by decide)

/-- C7, as stated, fails: with the reports 3 and 7 pending for node 0, the
visit of node 0 (and the whole pass) takes the report 3 only; afterwards the
channel still holds the report 7 and `curMaxes[0]` is 3, not the payload 7 of
the last pending report. -/
theorem monitor_drain_counterexample :
    monitorVisit monitorTwoPending 0 = MonitorOutcome.polling monitorTwoPendingAfter ∧
      monitorPass monitorTwoPending [0] = MonitorOutcome.polling monitorTwoPendingAfter ∧
      GoMap.lookup monitorTwoPendingAfter.resultChans 0 =
        some { buf := [report 0 7], cap := 1000 } ∧
      GoMap.get 0 monitorTwoPendingAfter.curMaxes 0 = 3 ∧
      (report 0 7).payload = 7 := by
  decide

/-- C7, amended: for every node with reports pending on its result channel at
the start of a polling pass, the visit of that node takes exactly the oldest
pending report and records its payload in `curMaxes[id]`; after a pass that
has visited the node (and has not ended in the announcement) the channel holds
the remaining reports in their order and `curMaxes[id]` is the payload of the
report taken.  With exactly one report pending the channel is then empty and
`curMaxes[id]` is the payload of that report. -/
theorem monitor_takes_oldest (order : List Int) :
    ∀ (s s' : MonitorState) (id : Int) (m : Message) (rest : List Message) (cap : Nat),
      GoMap.lookup s.resultChans id = some { buf := m :: rest, cap := cap } →
      order.Nodup → id ∈ order →
      monitorPass s order = MonitorOutcome.polling s' →
      monitorVisit s id =
          MonitorOutcome.polling
            { curMaxes := GoMap.set s.curMaxes id m.payload
              resultChans := GoMap.set s.resultChans id { buf := rest, cap := cap } } ∧
        GoMap.lookup s'.resultChans id = some { buf := rest, cap := cap } ∧
        GoMap.get 0 s'.curMaxes id = m.payload := by
  induction order with
  | nil => intro s s' id m rest cap _ _ hmem _; simp at hmem
  | cons hd tl ih =>
    intro s s' id m rest cap hch hnodup hmem hpass
    refine ⟨monitorVisit_pending s id m rest cap hch, ?_⟩
    have hnd := List.nodup_cons.mp hnodup
    simp only [monitorPass] at hpass
    by_cases hid : hd = id
    · subst hid
      rw [monitorVisit_pending s hd m rest cap hch] at hpass
      have hfr := monitorPass_frame tl _ s' hd hnd.1 hpass
      refine ⟨?_, ?_⟩
      · rw [hfr.2]
        exact GoMap.lookup_set_self _ _ _
      · unfold GoMap.get
        rw [hfr.1]
        simp [GoMap.lookup_set_self]
    · have hmem' : id ∈ tl := by
        rcases List.mem_cons.mp hmem with h | h
        · exact absurd h.symm hid
        · exact h
      cases hv : monitorVisit s hd with
      | announce v => rw [hv] at hpass; simp at hpass
      | polling s1 =>
        rw [hv] at hpass
        have hfr := monitorVisit_frame s s1 hd hv id (fun e => hid e.symm)
        have hch1 : GoMap.lookup s1.resultChans id = some { buf := m :: rest, cap := cap } := by
          rw [hfr.2]; exact hch
        exact (ih s1 s' id m rest cap hch1 hnd.2 hmem' hpass).2

theorem monitor_takes_oldest_witness :
    monitorVisit monitorTwoPending 0 =
        MonitorOutcome.polling
          { curMaxes := GoMap.set monitorTwoPending.curMaxes 0 (report 0 3).payload
            resultChans :=
              GoMap.set monitorTwoPending.resultChans 0 { buf := [report 0 7], cap := 1000 } } ∧
      GoMap.lookup monitorTwoPendingAfter.resultChans 0 =
        some { buf := [report 0 7], cap := 1000 } ∧
      GoMap.get 0 monitorTwoPendingAfter.curMaxes 0 = (report 0 3).payload :=
  monitor_takes_oldest [0] monitorTwoPending monitorTwoPendingAfter
    0 (report 0 3) [report 0 7] 1000 (by decide) (by decide) (by decide) (by decide)

/-! ## The world -/

theorem mem_neighbors_foldl (id b : Int) (es : List Edge) :
    ∀ acc : List Int,
      b ∈ es.foldl
          (fun neighbors e =>
            if e.From = id then neighbors ++ [e.To]
            else if e.To = id then neighbors ++ [e.From]
            else neighbors) acc ↔
        b ∈ acc ∨ ∃ e ∈ es, (e.From = id ∧ e.To = b) ∨ (e.From = b ∧ e.To = id) := by
  induction es with
  | nil => intro acc; simp
  | cons e es ih =>
    intro acc
    rw [List.foldl_cons, ih]
    have hsplit : (∃ x ∈ e :: es, (x.From = id ∧ x.To = b) ∨ (x.From = b ∧ x.To = id)) ↔
        ((e.From = id ∧ e.To = b) ∨ (e.From = b ∧ e.To = id)) ∨
          ∃ x ∈ es, (x.From = id ∧ x.To = b) ∨ (x.From = b ∧ x.To = id) := by
      simp only [List.mem_cons, exists_eq_or_imp]
    rw [hsplit]
    by_cases h1 : e.From = id
    · rw [if_pos h1]
      have hb : b ∈ acc ++ [e.To] ↔ b ∈ acc ∨ b = e.To := by simp
      rw [hb]
      constructor
      · rintro ((h | h) | h)
        · exact Or.inl h
        · exact Or.inr (Or.inl (Or.inl ⟨h1, h.symm⟩))
        · exact Or.inr (Or.inr h)
      · rintro (h | (h | h) | h)
        · exact Or.inl (Or.inl h)
        · exact Or.inl (Or.inr h.2.symm)
        · exact Or.inl (Or.inr (by rw [h.2, ← h1, h.1]))
        · exact Or.inr h
    · rw [if_neg h1]
      by_cases h2 : e.To = id
      · rw [if_pos h2]
        have hb : b ∈ acc ++ [e.From] ↔ b ∈ acc ∨ b = e.From := by simp
        rw [hb]
        constructor
        · rintro ((h | h) | h)
          · exact Or.inl h
          · exact Or.inr (Or.inl (Or.inr ⟨h.symm, h2⟩))
          · exact Or.inr (Or.inr h)
        · rintro (h | (h | h) | h)
          · exact Or.inl (Or.inl h)
          · exact absurd h.1 h1
          · exact Or.inl (Or.inr h.1.symm)
          · exact Or.inr h
      · rw [if_neg h2]
        constructor
        · rintro (h | h)
          · exact Or.inl h
          · exact Or.inr (Or.inr h)
        · rintro (h | (h | h) | h)
          · exact Or.inl h
          · exact absurd h.1 h1
          · exact absurd h.2 h2
          · exact Or.inr h

theorem hasEdgeIn_iff (es : List Edge) (i j : Int) :
    hasEdgeIn es i j = true ↔
      ∃ e ∈ es, (e.From = i ∧ e.To = j) ∨ (e.From = j ∧ e.To = i) := by
  induction es with
  | nil => simp [hasEdgeIn]
  | cons e es ih =>
    simp only [hasEdgeIn, List.mem_cons, exists_eq_or_imp]
    by_cases h1 : e.From = i ∧ e.To = j
    · simp [h1]
    · by_cases h2 : e.From = j ∧ e.To = i
      · simp [h2]
      · simp only [h1, h2, if_false, false_or, ih]

theorem mem_Neighbors_iff (w : World) (a b : Int) :
    b ∈ w.Neighbors a ↔
      ∃ e ∈ w.Edges, (e.From = a ∧ e.To = b) ∨ (e.From = b ∧ e.To = a) := by
  unfold World.Neighbors
  rw [mem_neighbors_foldl]
  simp

/-- C10: the neighbour query.  For every world and all node ids `a` and `b`,
`b` occurs in `Neighbors(a)` exactly when the edge list contains an edge
`(a, b)` or `(b, a)`, that is exactly when `HasEdge(a, b)`; so adjacency is
symmetric: `b` is in `Neighbors(a)` iff `a` is in `Neighbors(b)`, and
`HasEdge(a, b) = HasEdge(b, a)`. -/
theorem neighbors_iff_hasEdge (w : World) (a b : Int) :
    (b ∈ w.Neighbors a ↔
      ∃ e ∈ w.Edges, (e.From = a ∧ e.To = b) ∨ (e.From = b ∧ e.To = a)) ∧
    (b ∈ w.Neighbors a ↔ w.HasEdge a b = true) ∧
    (b ∈ w.Neighbors a ↔ a ∈ w.Neighbors b) ∧
    w.HasEdge a b = w.HasEdge b a := by
  have hsym : (∃ e ∈ w.Edges, (e.From = a ∧ e.To = b) ∨ (e.From = b ∧ e.To = a)) ↔
      ∃ e ∈ w.Edges, (e.From = b ∧ e.To = a) ∨ (e.From = a ∧ e.To = b) := by
    constructor <;> rintro ⟨e, he, h⟩ <;> exact ⟨e, he, h.symm⟩
  refine ⟨mem_Neighbors_iff w a b, ?_, ?_, ?_⟩
  · rw [mem_Neighbors_iff]
    unfold World.HasEdge
    rw [hasEdgeIn_iff]
  · rw [mem_Neighbors_iff, mem_Neighbors_iff, hsym]
  · have h1 := hasEdgeIn_iff w.Edges a b
    have h2 := hasEdgeIn_iff w.Edges b a
    unfold World.HasEdge
    cases hab : hasEdgeIn w.Edges a b with
    | true =>
      exact ((h2.mpr (hsym.mp (h1.mp hab))).symm)
    | false =>
      cases hba : hasEdgeIn w.Edges b a with
      | false => rfl
      | true =>
        have := h1.mpr (hsym.mpr (h2.mp hba))
        rw [hab] at this
        exact this

/-! ## `generateWorld` -/

theorem foldl_invariant {σ α : Type} (P : σ → Prop) (f : σ → α → σ) (l : List α) :
    ∀ init : σ, P init → (∀ s x, x ∈ l → P s → P (f s x)) → P (l.foldl f init) := by
  induction l with
  | nil => intro init h _; exact h
  | cons a t ih =>
    intro init h hstep
    rw [List.foldl_cons]
    refine ih (f init a) (hstep init a (by simp) h) ?_
    intro s x hx hs
    exact hstep s x (List.mem_cons_of_mem _ hx) hs

theorem edgeStep_nodes (d nodes : Int) (weighted : Bool) (i j : Nat) (s : World × Rand) :
    (edgeStep d nodes weighted i j s).1.Nodes = s.1.Nodes := by
  unfold edgeStep
  by_cases hij : i ≠ j
  · rw [if_pos hij]
    cases leNeighborP s.2.Float32.1 d nodes with
    | false => rfl
    | true =>
      cases hh : s.1.HasEdge i j with
      | false => simp [hh]
      | true => simp [hh]
  · rw [if_neg hij]

theorem edgeStep_edges (d nodes : Int) (weighted : Bool) (i j : Nat) (s : World × Rand) :
    (edgeStep d nodes weighted i j s).1.Edges = s.1.Edges ∨
      (i ≠ j ∧ s.1.HasEdge i j = false ∧
        ∃ weight : Int,
          (edgeStep d nodes weighted i j s).1.Edges =
            s.1.Edges ++ [NewEdge i j weight false]) := by
  unfold edgeStep
  by_cases hij : i ≠ j
  · rw [if_pos hij]
    cases leNeighborP s.2.Float32.1 d nodes with
    | false => exact Or.inl rfl
    | true =>
      cases hh : s.1.HasEdge i j with
      | false =>
        refine Or.inr ⟨hij, rfl, ?_⟩
        exact ⟨if weighted then ((s.2.Float32.2.Intn 100).1 : Int) else 1, by simp⟩
      | true => simp
  · rw [if_neg hij]
    exact Or.inl rfl

theorem simpleEdges_edgeStep (d nodes : Int) (weighted : Bool) (i j : Nat)
    (s : World × Rand) (h : SimpleEdges s.1.Edges) :
    SimpleEdges (edgeStep d nodes weighted i j s).1.Edges := by
  rcases edgeStep_edges d nodes weighted i j s with he | ⟨hij, hno, weight, he⟩
  · rw [he]; exact h
  · rw [he]
    have hnone : ¬ ∃ e ∈ s.1.Edges,
        (e.From = (i : Int) ∧ e.To = (j : Int)) ∨ (e.From = (j : Int) ∧ e.To = (i : Int)) := by
      intro hex
      have := (hasEdgeIn_iff s.1.Edges i j).mpr hex
      unfold World.HasEdge at hno
      rw [hno] at this
      exact Bool.noConfusion this
    refine ⟨?_, ?_⟩
    · intro e he'
      rcases List.mem_append.mp he' with h1 | h1
      · exact h.1 e h1
      · simp only [List.mem_singleton] at h1
        subst h1
        simp only [NewEdge]
        intro hc
        exact hij (Int.ofNat.inj hc)
    · rw [List.pairwise_append]
      refine ⟨h.2, List.pairwise_singleton _ _, ?_⟩
      intro a ha b hb
      simp only [List.mem_singleton] at hb
      subst hb
      intro hsame
      exact hnone ⟨a, ha, hsame⟩

theorem simpleEdges_nodeStep (d nodes : Int) (weighted : Bool) (s : World × Rand) (i : Nat)
    (h : SimpleEdges s.1.Edges) : SimpleEdges (nodeStep d nodes weighted s i).1.Edges := by
  unfold nodeStep
  exact foldl_invariant (fun s : World × Rand => SimpleEdges s.1.Edges) _ _ _ h
    (fun s j _ hs => simpleEdges_edgeStep d nodes weighted i j s hs)

theorem simpleEdges_generateWorld (nodes d : Int) (weighted : Bool) (rnd : Rand) :
    SimpleEdges (generateWorld nodes d weighted rnd).1.Edges := by
  unfold generateWorld
  refine foldl_invariant (fun s : World × Rand => SimpleEdges s.1.Edges) _ _ _ ?_
    (fun s i _ hs => simpleEdges_nodeStep d nodes weighted s i hs)
  exact ⟨fun e he => by simp [BlankWorld] at he, by simp [BlankWorld]⟩

/-- C8: the edge set of `generateWorld`.  For every `nodes`, `d`, `weighted`
and every outcome of the random source, the returned world has no self-loop
(`From != To` for every edge) and no two edges joining the same unordered pair
of nodes: for edges at distinct positions of the edge list neither the pairs
`(From, To)` coincide nor is one the reverse of the other. -/
theorem generateWorld_simple (nodes d : Int) (weighted : Bool) (rnd : Rand) :
    (∀ e ∈ (generateWorld nodes d weighted rnd).1.Edges, e.From ≠ e.To) ∧
    (∀ (a b : Nat) (ea eb : Edge),
      (generateWorld nodes d weighted rnd).1.Edges[a]? = some ea →
      (generateWorld nodes d weighted rnd).1.Edges[b]? = some eb →
      a ≠ b →
      ¬ (ea.From = eb.From ∧ ea.To = eb.To) ∧ ¬ (ea.From = eb.To ∧ ea.To = eb.From)) := by
  have hs := simpleEdges_generateWorld nodes d weighted rnd
  refine ⟨hs.1, ?_⟩
  intro a b ea eb ha hb hab
  have hpw := hs.2
  rw [List.pairwise_iff_getElem] at hpw
  obtain ⟨ha1, ha2⟩ := List.getElem?_eq_some.mp ha
  obtain ⟨hb1, hb2⟩ := List.getElem?_eq_some.mp hb
  rcases Nat.lt_or_gt_of_ne hab with hlt | hgt
  · have := hpw a b ha1 hb1 hlt
    rw [ha2, hb2] at this
    exact ⟨fun h => this (Or.inl h), fun h => this (Or.inr h)⟩
  · have := hpw b a hb1 ha1 hgt
    rw [ha2, hb2] at this
    exact ⟨fun h => this (Or.inl ⟨h.1.symm, h.2.symm⟩),
      fun h => this (Or.inr ⟨h.2.symm, h.1.symm⟩)⟩

theorem generateWorld_simple_witness :
    NewEdge 0 1 1 false ∈ (generateWorld 3 2 false zeroRand).1.Edges ∧
      (NewEdge 0 1 1 false).From ≠ (NewEdge 0 1 1 false).To :=
  ⟨by decide, (generateWorld_simple 3 2 false zeroRand).1 (NewEdge 0 1 1 false) (by decide)⟩

theorem endpointsBelow_edgeStep (n : Nat) (d nodes : Int) (weighted : Bool) (i j : Nat)
    (hi : i < n) (hj : j < n) (s : World × Rand) (h : EndpointsBelow n s.1.Edges) :
    EndpointsBelow n (edgeStep d nodes weighted i j s).1.Edges := by
  rcases edgeStep_edges d nodes weighted i j s with he | ⟨_, _, weight, he⟩
  · rw [he]; exact h
  · rw [he]
    intro e he'
    rcases List.mem_append.mp he' with h1 | h1
    · exact h e h1
    · simp only [List.mem_singleton] at h1
      subst h1
      exact ⟨i, j, hi, hj, rfl, rfl⟩

theorem nodeStep_nodes (d nodes : Int) (weighted : Bool) (s : World × Rand) (i : Nat) :
    (nodeStep d nodes weighted s i).1.Nodes = s.1.Nodes ++ [{ Id := (i : Int) }] := by
  unfold nodeStep
  exact foldl_invariant
    (fun t : World × Rand => t.1.Nodes = s.1.Nodes ++ [{ Id := (i : Int) }])
    (fun t j => edgeStep d nodes weighted i j t) (List.range nodes.toNat)
    ({ s.1 with Nodes := s.1.Nodes ++ [{ Id := (i : Int) }] }, s.2) rfl
    (fun t j _ ht => by
      show (edgeStep d nodes weighted i j t).1.Nodes = _
      rw [edgeStep_nodes]; exact ht)

theorem endpointsBelow_nodeStep (d nodes : Int) (weighted : Bool) (s : World × Rand) (i : Nat)
    (hi : i < nodes.toNat) (h : EndpointsBelow nodes.toNat s.1.Edges) :
    EndpointsBelow nodes.toNat (nodeStep d nodes weighted s i).1.Edges := by
  unfold nodeStep
  exact foldl_invariant (fun t : World × Rand => EndpointsBelow nodes.toNat t.1.Edges) _ _ _ h
    (fun t j hj ht =>
      endpointsBelow_edgeStep nodes.toNat d nodes weighted i j hi (List.mem_range.mp hj) t ht)

theorem foldl_nodeStep_nodes (d nodes : Int) (weighted : Bool) (l : List Nat) :
    ∀ init : World × Rand,
      (l.foldl (nodeStep d nodes weighted) init).1.Nodes =
        init.1.Nodes ++ l.map (fun i : Nat => ({ Id := (i : Int) } : Node)) := by
  induction l with
  | nil => intro init; simp
  | cons a t ih =>
    intro init
    rw [List.foldl_cons, ih, nodeStep_nodes]
    simp

theorem generateWorld_nodes (nodes d : Int) (weighted : Bool) (rnd : Rand) :
    (generateWorld nodes d weighted rnd).1.Nodes =
      (List.range nodes.toNat).map (fun i : Nat => ({ Id := (i : Int) } : Node)) := by
  unfold generateWorld
  rw [foldl_nodeStep_nodes]
  simp [BlankWorld]

theorem generateWorld_endpoints (nodes d : Int) (weighted : Bool) (rnd : Rand) :
    EndpointsBelow nodes.toNat (generateWorld nodes d weighted rnd).1.Edges := by
  unfold generateWorld
  refine foldl_invariant (fun t : World × Rand => EndpointsBelow nodes.toNat t.1.Edges) _ _ _ ?_
    (fun t i hi ht => endpointsBelow_nodeStep d nodes weighted t i (List.mem_range.mp hi) ht)
  intro e he
  simp [BlankWorld] at he

/-- C9: well-formedness of `generateWorld`.  For every `nodes`, `d`,
`weighted` and every outcome of the random source, the node list of the
returned world is exactly the ids `0, 1, ..., nodes-1` in that order; so for
`nodes >= 0` it has exactly `nodes` nodes, the ids are unique, and both
endpoints of every edge are ids of nodes of that list. -/
theorem generateWorld_wellFormed (nodes d : Int) (weighted : Bool) (rnd : Rand) :
    (generateWorld nodes d weighted rnd).1.Nodes =
        (List.range nodes.toNat).map (fun i : Nat => ({ Id := (i : Int) } : Node)) ∧
    (0 ≤ nodes → ((generateWorld nodes d weighted rnd).1.Nodes.length : Int) = nodes) ∧
    ((generateWorld nodes d weighted rnd).1.Nodes.map Node.Id).Nodup ∧
    (∀ e ∈ (generateWorld nodes d weighted rnd).1.Edges,
      ({ Id := e.From } : Node) ∈ (generateWorld nodes d weighted rnd).1.Nodes ∧
        ({ Id := e.To } : Node) ∈ (generateWorld nodes d weighted rnd).1.Nodes) := by
  have hn := generateWorld_nodes nodes d weighted rnd
  refine ⟨hn, ?_, ?_, ?_⟩
  · intro h0
    rw [hn]
    simp [Int.toNat_of_nonneg h0]
  · rw [hn, List.map_map]
    have hinj : Function.Injective
        (Node.Id ∘ fun i : Nat => ({ Id := (i : Int) } : Node)) := by
      intro a b hab
      exact Int.ofNat.inj hab
    exact List.Nodup.map hinj (List.nodup_range _)
  · intro e he
    obtain ⟨a, b, ha, hb, hfrom, hto⟩ := generateWorld_endpoints nodes d weighted rnd e he
    rw [hn, hfrom, hto]
    exact ⟨List.mem_map.mpr ⟨a, List.mem_range.mpr ha, rfl⟩,
      List.mem_map.mpr ⟨b, List.mem_range.mpr hb, rfl⟩⟩

theorem generateWorld_wellFormed_witness :
    ((generateWorld 3 2 false zeroRand).1.Nodes.length : Int) = 3 ∧
      ({ Id := (NewEdge 1 2 1 false).From } : Node) ∈ (generateWorld 3 2 false zeroRand).1.Nodes ∧
      ({ Id := (NewEdge 1 2 1 false).To } : Node) ∈ (generateWorld 3 2 false zeroRand).1.Nodes :=
  ⟨(generateWorld_wellFormed 3 2 false zeroRand).2.1 (by decide),
   (generateWorld_wellFormed 3 2 false zeroRand).2.2.2 (NewEdge 1 2 1 false) (by decide)⟩

/-! ## Reports of a worker -/

/-- What a completed iteration does to `max`, the node and the result
channel: either `max` is unchanged and nothing is reported, or `max` has grown
to the payload of the message received and exactly that is reported. -/
theorem loopStep_report (w : Worker) (i : Nat) (w' : Worker)
    (h : loopStep w i = Outcome.done w') :
    w'.n = w.n ∧
    ((w'.state.max = w.state.max ∧ emitted w w' = []) ∨
      (w.state.max < w'.state.max ∧
        emitted w w' =
          [{ msgType := messageType.MAX_MESSAGE, from_ := w.n.Id, payload := w'.state.max }] ∧
        ∃ m ∈ received w i, m.payload = w'.state.max)) := by
  cases hr : w.recv[i]? with
  | none => simp [loopStep, hr] at h
  | some c =>
    obtain ⟨buf, cap⟩ := c
    cases buf with
    | nil =>
      cases hf : GoMap.get false w.state.shouldSendTable (i : Int) with
      | false =>
        rw [loopStep_default_idle w i cap hr hf] at h
        simp only [Outcome.done.injEq] at h
        subst h
        exact ⟨rfl, Or.inl ⟨rfl, by simp [emitted]⟩⟩
      | true =>
        cases hs : w.send[i]? with
        | none => simp [loopStep, hr, hf, hs] at h
        | some sc =>
          rw [loopStep_default_send w i cap sc hr hf hs] at h
          cases hroom : sc.hasRoom with
          | false => simp [hroom] at h
          | true =>
            simp only [hroom, if_true, Outcome.done.injEq] at h
            subst h
            exact ⟨rfl, Or.inl ⟨rfl, by simp [emitted]⟩⟩
    | cons m rest =>
      by_cases hgt : w.state.max < m.payload
      · rw [loopStep_recv_gt w i m rest cap hr hgt] at h
        cases hroom : w.result.hasRoom with
        | false => simp [hroom] at h
        | true =>
          simp only [hroom, if_true, Outcome.done.injEq] at h
          subst h
          refine ⟨rfl, Or.inr ⟨hgt, ?_, ?_⟩⟩
          · simp [emitted, Chan.push, maxMessage]
          · exact ⟨m, by simp [received, hr], rfl⟩
      · rw [loopStep_recv_le w i m rest cap hr (not_lt.mp hgt)] at h
        simp only [Outcome.done.injEq] at h
        subst h
        exact ⟨rfl, Or.inl ⟨rfl, by simp [emitted]⟩⟩

theorem reportsAlong_spec (evs : List Event) :
    ∀ w : Worker,
      (∀ r ∈ reportsAlong w evs,
        r.from_ = w.n.Id ∧ w.state.max < r.payload ∧
          ∃ m ∈ receivedAlong w evs, m.payload = r.payload) ∧
      List.Pairwise (fun a b : Message => a.payload < b.payload) (reportsAlong w evs) := by
  induction evs with
  | nil => intro w; simp [reportsAlong]
  | cons ev evs ih =>
    intro w
    cases ev with
    | env s r res =>
      simp only [reportsAlong, receivedAlong]
      exact ih { w with send := s, recv := r, result := res }
    | iter i =>
      simp only [reportsAlong, receivedAlong]
      cases hl : loopStep w i with
      | blocked w1 => simp
      | panic => simp
      | done w1 =>
        obtain ⟨hn, hcase⟩ := loopStep_report w i w1 hl
        obtain ⟨ih1, ih2⟩ := ih w1
        have hmono : w.state.max ≤ w1.state.max := loopStep_max_le w i w1 (Or.inl hl)
        have htail : ∀ r ∈ reportsAlong w1 evs,
            r.from_ = w.n.Id ∧ w.state.max < r.payload ∧
              ∃ m ∈ received w i ++ receivedAlong w1 evs, m.payload = r.payload := by
          intro r hr
          obtain ⟨h1, h2, m, hm, hmp⟩ := ih1 r hr
          exact ⟨by rw [h1, hn], lt_of_le_of_lt hmono h2, m,
            List.mem_append.mpr (Or.inr hm), hmp⟩
        dsimp only
        rcases hcase with ⟨_, hnone⟩ | ⟨hlt, hone, m, hm, hmp⟩
        · rw [hnone]
          simp only [List.nil_append]
          exact ⟨htail, ih2⟩
        · rw [hone]
          refine ⟨?_, ?_⟩
          · intro r hr
            rcases List.mem_append.mp hr with h | h
            · simp only [List.mem_singleton] at h
              subst h
              exact ⟨rfl, hlt, m, List.mem_append.mpr (Or.inl hm), hmp⟩
            · exact htail r h
          · rw [List.pairwise_append]
            refine ⟨List.pairwise_singleton _ _, ih2, ?_⟩
            intro a ha b hb
            simp only [List.mem_singleton] at ha
            subst ha
            exact (ih1 b hb).2.1

/-- C13: reports only on increase.  A completed iteration of `MaxWorkerProc`
puts a report on the result channel exactly when it strictly increases `max`,
and that report carries the node id and the new `max`.  Hence, along every
sequence of iterations interleaved with arbitrary actions of the other
goroutines on the channels, the payloads a worker reports are strictly
increasing, each is strictly greater than the `max` the worker started with
(its seed) and equal to the payload of a message it received; a worker whose
seed is greater than or equal to every payload it receives reports nothing. -/
theorem reports_only_on_increase (w : Worker) :
    (∀ (i : Nat) (w' : Worker), loopStep w i = Outcome.done w' →
      (emitted w w' ≠ [] ↔ w.state.max < w'.state.max) ∧
      (w.state.max < w'.state.max →
        emitted w w' =
          [{ msgType := messageType.MAX_MESSAGE, from_ := w.n.Id,
             payload := w'.state.max }])) ∧
    (∀ evs : List Event,
      List.Pairwise (fun a b : Message => a.payload < b.payload) (reportsAlong w evs) ∧
      (∀ r ∈ reportsAlong w evs, r.from_ = w.n.Id ∧ w.state.max < r.payload) ∧
      ((∀ m ∈ receivedAlong w evs, m.payload ≤ w.state.max) → reportsAlong w evs = [])) := by
  refine ⟨?_, ?_⟩
  · intro i w' h
    rcases (loopStep_report w i w' h).2 with ⟨heq, hnone⟩ | ⟨hlt, hone, _⟩
    · refine ⟨?_, ?_⟩
      · rw [hnone, heq]
        simp
      · intro hlt
        rw [heq] at hlt
        exact absurd hlt (lt_irrefl _)
    · refine ⟨?_, fun _ => hone⟩
      rw [hone]
      simp [hlt]
  · intro evs
    obtain ⟨h1, h2⟩ := reportsAlong_spec evs w
    refine ⟨h2, fun r hr => ⟨(h1 r hr).1, (h1 r hr).2.1⟩, ?_⟩
    intro hall
    cases hrep : reportsAlong w evs with
    | nil => rfl
    | cons r rs =>
      obtain ⟨_, hlt, m, hm, hmp⟩ := h1 r (by rw [hrep]; simp)
      have := hall m hm
      rw [hmp] at this
      exact absurd hlt (not_lt.mpr this)

theorem reports_only_on_increase_witness :
    (emitted exampleWorker exampleWorkerRaised ≠ [] ↔
        exampleWorker.state.max < exampleWorkerRaised.state.max) ∧
      reportsAlong exampleWorkerIdle [Event.iter 0, Event.iter 1] = [] :=
  ⟨((reports_only_on_increase exampleWorker).1 0 exampleWorkerRaised (by decide)).1,
   ((reports_only_on_increase exampleWorkerIdle).2 [Event.iter 0, Event.iter 1]).2.2
     (by decide)⟩

/-! ## The degenerate worlds, the initial states and the announcement -/

/-- C15: degenerate node counts in `generateWorld`.  For every `nodes <= 1`,
every `d`, `weighted` and every outcome of the random source, `generateWorld`
returns a world (the division by `nodes - 1` is a floating point division and
does not fail) whose edge list is empty and which has `max(nodes, 0)` nodes. -/
theorem generateWorld_degenerate (nodes d : Int) (weighted : Bool) (rnd : Rand)
    (h : nodes ≤ 1) :
    (generateWorld nodes d weighted rnd).1.Edges = [] ∧
      ((generateWorld nodes d weighted rnd).1.Nodes.length : Int) = Max.max nodes 0 := by
  have hcase : nodes.toNat = 0 ∨ nodes.toNat = 1 := by omega
  refine ⟨?_, ?_⟩
  · rcases hcase with h0 | h1
    · simp [generateWorld, h0, BlankWorld]
    · simp [generateWorld, nodeStep, edgeStep, h1, List.range_succ, BlankWorld]
  · rw [generateWorld_nodes]
    simp only [List.length_map, List.length_range]
    omega

theorem generateWorld_degenerate_witness :
    (generateWorld 1 3 true zeroRand).1.Edges = [] ∧
      ((generateWorld 1 3 true zeroRand).1.Nodes.length : Int) = Max.max 1 0 :=
  generateWorld_degenerate 1 3 true zeroRand (by decide)

theorem lookup_initialShouldSendTable (n : Nat) (k : Int) :
    GoMap.lookup (initialShouldSendTable n) k =
      if 0 ≤ k ∧ k < (n : Int) then some true else none := by
  unfold initialShouldSendTable
  induction n with
  | zero =>
    have : ¬ (0 ≤ k ∧ k < ((0 : Nat) : Int)) := by omega
    rw [if_neg this]
    rfl
  | succ n ih =>
    rw [List.range_succ, List.foldl_append, List.foldl_cons, List.foldl_nil]
    by_cases hk : k = (n : Int)
    · subst hk
      rw [GoMap.lookup_set_self]
      have : (0 : Int) ≤ (n : Int) ∧ (n : Int) < ((n + 1 : Nat) : Int) := by omega
      rw [if_pos this]
    · rw [GoMap.lookup_set_ne _ _ k _ hk, ih]
      by_cases h1 : 0 ≤ k ∧ k < (n : Int)
      · have h2 : 0 ≤ k ∧ k < ((n + 1 : Nat) : Int) := by omega
        rw [if_pos h1, if_pos h2]
      · have h2 : ¬ (0 ≤ k ∧ k < ((n + 1 : Nat) : Int)) := by omega
        rw [if_neg h1, if_neg h2]

/-- C16: the initial worker state.  For every world, node `n` and bound
`max > 0` and every outcome of the random source, `generateInitialMaxState`
returns a state with `0 <= value < max`, with `max` field equal to `value`, and
with a `shouldSendTable` whose keys are exactly the positions
`0 .. len(Neighbors(n.Id)) - 1`, each mapped to true. -/
theorem generateInitialMaxState_spec (w : World) (n : Node) (max : Int) (rnd : Rand)
    (hmax : 0 < max) :
    ∃ (st : MaxState) (rnd' : Rand),
      generateInitialMaxState w n max rnd = some (st, rnd') ∧
      0 ≤ st.value ∧ st.value < max ∧ st.max = st.value ∧
      ∀ k : Int, GoMap.lookup st.shouldSendTable k =
        if 0 ≤ k ∧ k < ((w.Neighbors n.Id).length : Int) then some true else none := by
  have hn : ¬ max ≤ 0 := not_le.mpr hmax
  refine ⟨{ value := ((rnd.Intn max.toNat).1 : Int), max := ((rnd.Intn max.toNat).1 : Int),
            shouldSendTable := initialShouldSendTable (w.Neighbors n.Id).length },
    (rnd.Intn max.toNat).2, by simp only [generateInitialMaxState, if_neg hn], ?_, ?_, rfl, ?_⟩
  · exact Int.ofNat_nonneg _
  · show ((rnd.draws rnd.pos % max.toNat : Nat) : Int) < max
    have hpos : 0 < max.toNat := by omega
    have := Nat.mod_lt (rnd.draws rnd.pos) hpos
    omega
  · intro k
    exact lookup_initialShouldSendTable _ k

theorem generateInitialMaxState_spec_witness :
    ∃ (st : MaxState) (rnd' : Rand),
      generateInitialMaxState pathWorld { Id := 1 } 1000 seedRand = some (st, rnd') ∧
      0 ≤ st.value ∧ st.value < 1000 ∧ st.max = st.value ∧
      ∀ k : Int, GoMap.lookup st.shouldSendTable k =
        if 0 ≤ k ∧ k < ((pathWorld.Neighbors ({ Id := 1 } : Node).Id).length : Int)
        then some true else none :=
  generateInitialMaxState_spec pathWorld { Id := 1 } 1000 seedRand (by decide)

theorem GoMap.mem_of_lookup {V : Type} (m : GoMap V) :
    ∀ (k : Int) (y : V), GoMap.lookup m k = some y → (k, y) ∈ m := by
  induction m with
  | nil => intro k y h; simp [GoMap.lookup] at h
  | cons e t ih =>
    intro k y h
    obtain ⟨k0, v0⟩ := e
    by_cases hk : k0 = k
    · simp [GoMap.lookup, hk] at h
      simp [hk, h]
    · simp only [GoMap.lookup, hk, if_false] at h
      exact List.mem_cons_of_mem _ (ih k y h)

/-- C18: the announced value is the agreed value.  Whenever the check of the
monitor declares convergence, the announced value is `curMaxes[0]` and every
value recorded in `curMaxes` at that moment equals it, so no two recorded
values differ. -/
theorem announced_is_agreed (s : MonitorState) (id : Int) (v : Int)
    (h : monitorVisit s id = MonitorOutcome.announce v) :
    v = GoMap.get 0 s.curMaxes 0 ∧
    (∀ e ∈ s.curMaxes, e.2 = v) ∧
    (∀ (k x : Int), GoMap.lookup s.curMaxes k = some x → x = v) ∧
    (∀ e ∈ s.curMaxes, ∀ e' ∈ s.curMaxes, e.2 = e'.2) := by
  have key : v = GoMap.get 0 s.curMaxes 0 ∧ complete s.curMaxes = true := by
    cases hch : GoMap.lookup s.resultChans id with
    | none => simp [monitorVisit, hch] at h
    | some ch =>
      obtain ⟨buf, cap⟩ := ch
      cases buf with
      | cons m rest =>
        rw [monitorVisit_pending s id m rest cap hch] at h
        simp at h
      | nil =>
        rw [monitorVisit_empty s id cap hch] at h
        by_cases hc : complete s.curMaxes = true
        · simp only [hc, if_true, MonitorOutcome.announce.injEq] at h
          exact ⟨h.symm, hc⟩
        · simp [hc] at h
  obtain ⟨hv, hc⟩ := key
  have hall : ∀ e ∈ s.curMaxes, e.2 = v := by
    intro e he
    rw [hv]
    exact (complete_iff s.curMaxes).mp hc e he
  refine ⟨hv, hall, ?_, ?_⟩
  · intro k x hx
    exact hall (k, x) (GoMap.mem_of_lookup _ k x hx)
  · intro e he e' he'
    rw [hall e he, hall e' he']

theorem announced_is_agreed_witness :
    (5 : Int) = GoMap.get 0 monitorAgreed.curMaxes 0 ∧
    (∀ e ∈ monitorAgreed.curMaxes, e.2 = 5) ∧
    (∀ (k x : Int), GoMap.lookup monitorAgreed.curMaxes k = some x → x = 5) ∧
    (∀ e ∈ monitorAgreed.curMaxes, ∀ e' ∈ monitorAgreed.curMaxes, e.2 = e'.2) :=
  announced_is_agreed monitorAgreed 0 5 (by decide)

/-! ## The samples of `generateWorld` -/

theorem foldl_fst {σ τ α : Type} (f : σ → α → σ) (g : σ × τ → α → σ × τ)
    (hg : ∀ t x, (g t x).1 = f t.1 x) (l : List α) :
    ∀ t : σ × τ, (l.foldl g t).1 = l.foldl f t.1 := by
  induction l with
  | nil => intro t; rfl
  | cons a l ih =>
    intro t
    rw [List.foldl_cons, List.foldl_cons, ih, hg]

theorem nodeStepLog_fst (d nodes : Int) (weighted : Bool) (t : (World × Rand) × SampleLog)
    (i : Nat) : (nodeStepLog d nodes weighted t i).1 = nodeStep d nodes weighted t.1 i := by
  unfold nodeStepLog nodeStep
  rw [foldl_fst (fun s j => edgeStep d nodes weighted i j s)
    (fun t j => edgeStepLog d nodes weighted i j t) (fun _ _ => rfl)]

theorem generateWorldLog_fst (nodes d : Int) (weighted : Bool) (rnd : Rand) :
    (generateWorldLog nodes d weighted rnd).1 = generateWorld nodes d weighted rnd := by
  unfold generateWorldLog generateWorld
  rw [foldl_fst (nodeStep d nodes weighted) (nodeStepLog d nodes weighted)
    (fun t i => nodeStepLog_fst d nodes weighted t i)]

theorem hasEdgeIn_append (es es' : List Edge) (a b : Int) :
    hasEdgeIn (es ++ es') a b = true ↔ hasEdgeIn es a b = true ∨ hasEdgeIn es' a b = true := by
  simp only [hasEdgeIn_iff, List.mem_append]
  constructor
  · rintro ⟨e, he | he, h⟩
    · exact Or.inl ⟨e, he, h⟩
    · exact Or.inr ⟨e, he, h⟩
  · rintro (⟨e, he, h⟩ | ⟨e, he, h⟩)
    · exact ⟨e, Or.inl he, h⟩
    · exact ⟨e, Or.inr he, h⟩

theorem hasEdgeIn_symm (es : List Edge) (a b : Int) :
    hasEdgeIn es a b = true ↔ hasEdgeIn es b a = true := by
  rw [hasEdgeIn_iff, hasEdgeIn_iff]
  constructor <;> rintro ⟨e, he, h⟩ <;> exact ⟨e, he, h.symm⟩

theorem edgeStep_hasEdge (d nodes : Int) (weighted : Bool) (i j : Nat) (s : World × Rand)
    (a b : Int) :
    (edgeStep d nodes weighted i j s).1.HasEdge a b = true ↔
      s.1.HasEdge a b = true ∨
        (i ≠ j ∧ leNeighborP s.2.Float32.1 d nodes = true ∧
          ((a = (i : Int) ∧ b = (j : Int)) ∨ (a = (j : Int) ∧ b = (i : Int)))) := by
  unfold edgeStep World.HasEdge
  by_cases hij : i ≠ j
  · rw [if_pos hij]
    cases hs : leNeighborP s.2.Float32.1 d nodes with
    | false => simp
    | true =>
      cases hh : hasEdgeIn s.1.Edges (i : Int) (j : Int) with
      | true =>
        have hh' : s.1.HasEdge (i : Int) (j : Int) = true := hh
        simp only [hh', Bool.not_true, if_true]
        constructor
        · intro h; exact Or.inl h
        · rintro (h | ⟨_, _, ⟨rfl, rfl⟩ | ⟨rfl, rfl⟩⟩)
          · exact h
          · exact hh
          · exact (hasEdgeIn_symm _ _ _).mp hh
      | false =>
        have hh' : s.1.HasEdge (i : Int) (j : Int) = false := hh
        simp only [hh', Bool.not_false, if_true]
        rw [hasEdgeIn_append]
        constructor
        · rintro (h | h)
          · exact Or.inl h
          · refine Or.inr ⟨hij, trivial, ?_⟩
            simp only [hasEdgeIn, NewEdge] at h
            by_cases h1 : (i : Int) = a ∧ (j : Int) = b
            · exact Or.inl ⟨h1.1.symm, h1.2.symm⟩
            · by_cases h2 : (i : Int) = b ∧ (j : Int) = a
              · exact Or.inr ⟨h2.2.symm, h2.1.symm⟩
              · simp [h1, h2] at h
        · rintro (h | ⟨_, _, ⟨rfl, rfl⟩ | ⟨rfl, rfl⟩⟩)
          · exact Or.inl h
          · exact Or.inr (by simp [hasEdgeIn, NewEdge])
          · exact Or.inr (by simp [hasEdgeIn, NewEdge])
  · rw [if_neg hij]
    constructor
    · intro h; exact Or.inl h
    · rintro (h | ⟨h, _⟩)
      · exact h
      · exact absurd h hij

theorem logInv_edgeStepLog (d nodes : Int) (weighted : Bool) (i j : Nat)
    (t : (World × Rand) × SampleLog) (h : LogInv t) :
    LogInv (edgeStepLog d nodes weighted i j t) := by
  intro a b
  unfold edgeStepLog
  simp only []
  rw [edgeStep_hasEdge, h a b]
  by_cases hij : i ≠ j
  · rw [if_pos hij]
    simp only [List.mem_append, List.mem_singleton, Prod.mk.injEq]
    constructor
    · rintro ((h1 | h1) | ⟨_, hs, ⟨ha, hb⟩ | ⟨ha, hb⟩⟩)
      · exact Or.inl (Or.inl h1)
      · exact Or.inr (Or.inl h1)
      · exact Or.inl (Or.inr ⟨Int.ofNat.inj ha, Int.ofNat.inj hb, hs.symm⟩)
      · exact Or.inr (Or.inr ⟨Int.ofNat.inj hb, Int.ofNat.inj ha, hs.symm⟩)
    · rintro ((h1 | ⟨ha, hb, hs⟩) | (h1 | ⟨hb, ha, hs⟩))
      · exact Or.inl (Or.inl h1)
      · subst ha; subst hb
        exact Or.inr ⟨hij, hs.symm, Or.inl ⟨rfl, rfl⟩⟩
      · exact Or.inl (Or.inr h1)
      · subst ha; subst hb
        exact Or.inr ⟨hij, hs.symm, Or.inr ⟨rfl, rfl⟩⟩
  · rw [if_neg hij]
    constructor
    · rintro (h1 | ⟨h1, _⟩)
      · exact h1
      · exact absurd h1 hij
    · intro h1; exact Or.inl h1

theorem logInv_nodeStepLog (d nodes : Int) (weighted : Bool) (t : (World × Rand) × SampleLog)
    (i : Nat) (h : LogInv t) : LogInv (nodeStepLog d nodes weighted t i) := by
  unfold nodeStepLog
  exact foldl_invariant LogInv (fun t j => edgeStepLog d nodes weighted i j t) _ _ h
    (fun t j _ ht => logInv_edgeStepLog d nodes weighted i j t ht)

theorem logInv_generateWorldLog (nodes d : Int) (weighted : Bool) (rnd : Rand) :
    LogInv (generateWorldLog nodes d weighted rnd) := by
  unfold generateWorldLog
  refine foldl_invariant LogInv (nodeStepLog d nodes weighted) _ _ ?_
    (fun t i _ ht => logInv_nodeStepLog d nodes weighted t i ht)
  intro a b
  simp [BlankWorld, World.HasEdge, hasEdgeIn]

theorem logPairs_inner (d nodes : Int) (weighted : Bool) (i : Nat) (l : List Nat) :
    ∀ t : (World × Rand) × SampleLog,
      ((l.foldl (fun t j => edgeStepLog d nodes weighted i j t) t).2.map
          fun x => (x.1, x.2.1)) =
        (t.2.map fun x => (x.1, x.2.1)) ++
          (l.filter fun j : Nat => decide (i ≠ j)).map fun j : Nat => (i, j) := by
  induction l with
  | nil => intro t; simp
  | cons j l ih =>
    intro t
    rw [List.foldl_cons, ih]
    unfold edgeStepLog
    by_cases hij : i ≠ j
    · simp [hij, List.filter_cons]
    · simp [hij, List.filter_cons]

theorem logPairs_outer (d nodes : Int) (weighted : Bool) (l : List Nat) :
    ∀ t : (World × Rand) × SampleLog,
      ((l.foldl (nodeStepLog d nodes weighted) t).2.map fun x => (x.1, x.2.1)) =
        (t.2.map fun x => (x.1, x.2.1)) ++
          (l.map fun i : Nat =>
            ((List.range nodes.toNat).filter fun j : Nat => decide (i ≠ j)).map
              fun j : Nat => (i, j)).flatten := by
  induction l with
  | nil => intro t; simp
  | cons i l ih =>
    intro t
    rw [List.foldl_cons, ih]
    unfold nodeStepLog
    rw [logPairs_inner]
    simp

theorem mem_orderedPairs (n a b : Nat) :
    (a, b) ∈ orderedPairs n ↔ a < n ∧ b < n ∧ a ≠ b := by
  unfold orderedPairs
  rw [List.mem_flatten]
  constructor
  · rintro ⟨l, hl, hp⟩
    obtain ⟨i, hi, rfl⟩ := List.mem_map.mp hl
    obtain ⟨j, hj, hp⟩ := List.mem_map.mp hp
    obtain ⟨rfl, rfl⟩ := Prod.mk.inj hp
    rw [List.mem_filter] at hj
    exact ⟨List.mem_range.mp hi, List.mem_range.mp hj.1, of_decide_eq_true hj.2⟩
  · rintro ⟨ha, hb, hab⟩
    refine ⟨_, List.mem_map.mpr ⟨a, List.mem_range.mpr ha, rfl⟩, ?_⟩
    exact List.mem_map.mpr
      ⟨b, List.mem_filter.mpr ⟨List.mem_range.mpr hb, decide_eq_true hab⟩, rfl⟩

theorem nodup_orderedPairs (n : Nat) : (orderedPairs n).Nodup := by
  unfold orderedPairs
  rw [List.nodup_flatten]
  constructor
  · intro l hl
    obtain ⟨i, _, rfl⟩ := List.mem_map.mp hl
    exact List.Nodup.map (fun x y h => (Prod.mk.inj h).2) ((List.nodup_range n).filter _)
  · rw [List.pairwise_map]
    refine List.Pairwise.imp ?_ (List.nodup_range n)
    intro i i' hne p hp hp'
    obtain ⟨j, _, rfl⟩ := List.mem_map.mp hp
    obtain ⟨j', _, h'⟩ := List.mem_map.mp hp'
    exact hne (Prod.mk.inj h').1.symm

/-- C14, as stated, fails: in a world of three nodes with `d = 1` (`neighborP`
one half) the pair of nodes 0 and 1 is sampled twice, in the iterations
`(0, 1)` and `(1, 0)`.  With the first source the sample of `(0, 1)` fails, that
of `(1, 0)` succeeds and the world has an edge between 0 and 1; with the
second source the sample of `(0, 1)` succeeds, that of `(1, 0)` fails and the
world has that edge as well.  So neither single sample decides the edge. -/
theorem single_sample_counterexample :
    (generateWorldLog 3 1 false thirdSampleRand).2 =
        [(0, 1, false), (0, 2, false), (1, 0, true), (1, 2, false), (2, 0, false),
          (2, 1, false)] ∧
      (generateWorld 3 1 false thirdSampleRand).1.Edges = [NewEdge 1 0 1 false] ∧
      (generateWorld 3 1 false thirdSampleRand).1.HasEdge 0 1 = true ∧
      (generateWorldLog 3 1 false firstSampleRand).2 =
        [(0, 1, true), (0, 2, false), (1, 0, false), (1, 2, false), (2, 0, false),
          (2, 1, false)] ∧
      (generateWorld 3 1 false firstSampleRand).1.Edges = [NewEdge 0 1 1 false] ∧
      (generateWorld 3 1 false firstSampleRand).1.HasEdge 0 1 = true := by
  decide

/-- C14, amended: for every `nodes`, `d` and every outcome of the random
source, the existence samples of `generateWorld` are drawn for the ordered
pairs `(i, j)` with `i != j`, one sample each (the record of samples lists
every such pair once), so every unordered pair of distinct node ids is sampled
exactly twice, once as `(i, j)` and once as `(j, i)`; and the returned world
contains an edge between `i` and `j` if and only if at least one of these two
samples succeeds. -/
theorem generateWorld_two_samples (nodes d : Int) (weighted : Bool) (rnd : Rand) :
    (generateWorldLog nodes d weighted rnd).1 = generateWorld nodes d weighted rnd ∧
    ((generateWorldLog nodes d weighted rnd).2.map fun x => (x.1, x.2.1)) =
      orderedPairs nodes.toNat ∧
    ((generateWorldLog nodes d weighted rnd).2.map fun x => (x.1, x.2.1)).Nodup ∧
    (∀ i j : Nat, i < nodes.toNat → j < nodes.toNat → i ≠ j →
      ((i, j) ∈ (generateWorldLog nodes d weighted rnd).2.map fun x => (x.1, x.2.1)) ∧
      ((j, i) ∈ (generateWorldLog nodes d weighted rnd).2.map fun x => (x.1, x.2.1)) ∧
      ((generateWorld nodes d weighted rnd).1.HasEdge (i : Int) (j : Int) = true ↔
        ((i, j, true) ∈ (generateWorldLog nodes d weighted rnd).2 ∨
          (j, i, true) ∈ (generateWorldLog nodes d weighted rnd).2))) := by
  have hpairs : ((generateWorldLog nodes d weighted rnd).2.map fun x => (x.1, x.2.1)) =
      orderedPairs nodes.toNat := by
    unfold generateWorldLog orderedPairs
    rw [logPairs_outer]
    simp
  refine ⟨generateWorldLog_fst nodes d weighted rnd, hpairs, ?_, ?_⟩
  · rw [hpairs]
    exact nodup_orderedPairs _
  · intro i j hi hj hij
    refine ⟨?_, ?_, ?_⟩
    · rw [hpairs]
      exact (mem_orderedPairs _ i j).mpr ⟨hi, hj, hij⟩
    · rw [hpairs]
      exact (mem_orderedPairs _ j i).mpr ⟨hj, hi, fun h => hij h.symm⟩
    · rw [← generateWorldLog_fst]
      exact logInv_generateWorldLog nodes d weighted rnd i j

theorem generateWorld_two_samples_witness :
    ((0, 1) ∈ (generateWorldLog 3 1 false thirdSampleRand).2.map fun x => (x.1, x.2.1)) ∧
    ((1, 0) ∈ (generateWorldLog 3 1 false thirdSampleRand).2.map fun x => (x.1, x.2.1)) ∧
    ((generateWorld 3 1 false thirdSampleRand).1.HasEdge ((0 : Nat) : Int) ((1 : Nat) : Int) = true ↔
      ((0, 1, true) ∈ (generateWorldLog 3 1 false thirdSampleRand).2 ∨
        (1, 0, true) ∈ (generateWorldLog 3 1 false thirdSampleRand).2)) :=
  (generateWorld_two_samples 3 1 false thirdSampleRand).2.2.2 0 1 (by decide) (by decide)
    (by decide)

/-! ## `initializeChannels` -/

theorem get_appendAt (table : GoMap (List Nat)) (k c : Int) (x : Nat) :
    GoMap.get [] (appendAt table k x) c =
      GoMap.get [] table c ++ (if k = c then [x] else []) := by
  unfold appendAt
  by_cases h : k = c
  · subst h
    rw [GoMap.get_set_self, if_pos rfl]
  · rw [GoMap.get_set_ne _ _ _ _ _ (fun e => h e.symm), if_neg h, List.append_nil]

theorem registerEdge_send (st : Channels) (e : Edge) (c : Int) :
    GoMap.get [] (registerEdge st e).sendTable c =
      GoMap.get [] st.sendTable c ++
        ((if e.To = c then [st.chans.length + 1] else []) ++
          (if e.From = c then [st.chans.length] else [])) := by
  simp only [registerEdge, get_appendAt, List.append_assoc]

theorem registerEdge_recv (st : Channels) (e : Edge) (c : Int) :
    GoMap.get [] (registerEdge st e).receiveTable c =
      GoMap.get [] st.receiveTable c ++
        ((if e.To = c then [st.chans.length] else []) ++
          (if e.From = c then [st.chans.length + 1] else [])) := by
  simp only [registerEdge, get_appendAt, List.append_assoc]

theorem foldl_registerEdge (c : Int) (es : List Edge) :
    ∀ st : Channels,
      GoMap.get [] (es.foldl registerEdge st).sendTable c =
          GoMap.get [] st.sendTable c ++ sendRefs c st.chans.length es ∧
      GoMap.get [] (es.foldl registerEdge st).receiveTable c =
          GoMap.get [] st.receiveTable c ++ recvRefs c st.chans.length es ∧
      (es.foldl registerEdge st).chans =
          st.chans ++ List.replicate (2 * es.length) { buf := [], cap := NODES } := by
  induction es with
  | nil => intro st; simp [sendRefs, recvRefs]
  | cons e es ih =>
    intro st
    rw [List.foldl_cons]
    obtain ⟨h1, h2, h3⟩ := ih (registerEdge st e)
    have hlen : (registerEdge st e).chans.length = st.chans.length + 2 := by
      simp [registerEdge]
    refine ⟨?_, ?_, ?_⟩
    · rw [h1, registerEdge_send, hlen]
      simp only [sendRefs, List.append_assoc]
    · rw [h2, registerEdge_recv, hlen]
      simp only [recvRefs, List.append_assoc]
    · rw [h3]
      have : 2 * (e :: es).length = 2 + 2 * es.length := by
        simp only [List.length_cons]; omega
      rw [this, List.replicate_add]
      simp [registerEdge, List.replicate]

theorem initializeChannels_tables (w : World) (c : Int) :
    GoMap.get [] (initializeChannels w).sendTable c = sendRefs c 0 w.Edges ∧
    GoMap.get [] (initializeChannels w).receiveTable c = recvRefs c 0 w.Edges ∧
    (initializeChannels w).chans =
      List.replicate (2 * w.Edges.length) { buf := [], cap := NODES } := by
  obtain ⟨h1, h2, h3⟩ := foldl_registerEdge c w.Edges
    { sendTable := [], receiveTable := [], chans := [] }
  unfold initializeChannels
  refine ⟨?_, ?_, ?_⟩
  · rw [h1]; simp [GoMap.get, GoMap.lookup]
  · rw [h2]; simp [GoMap.get, GoMap.lookup]
  · rw [h3]; simp

theorem sendRefs_bounds (c : Int) (es : List Edge) :
    ∀ (off l : Nat), l ∈ sendRefs c off es → off ≤ l ∧ l < off + 2 * es.length := by
  induction es with
  | nil => intro off l h; simp [sendRefs] at h
  | cons e es ih =>
    intro off l h
    simp only [sendRefs, List.mem_append] at h
    simp only [List.length_cons]
    rcases h with (h | h) | h
    · by_cases hc : e.To = c
      · simp [hc] at h; omega
      · simp [hc] at h
    · by_cases hc : e.From = c
      · simp [hc] at h; omega
      · simp [hc] at h
    · have := ih (off + 2) l h
      omega

theorem recvRefs_bounds (c : Int) (es : List Edge) :
    ∀ (off l : Nat), l ∈ recvRefs c off es → off ≤ l ∧ l < off + 2 * es.length := by
  induction es with
  | nil => intro off l h; simp [recvRefs] at h
  | cons e es ih =>
    intro off l h
    simp only [recvRefs, List.mem_append] at h
    simp only [List.length_cons]
    rcases h with (h | h) | h
    · by_cases hc : e.To = c
      · simp [hc] at h; omega
      · simp [hc] at h
    · by_cases hc : e.From = c
      · simp [hc] at h; omega
      · simp [hc] at h
    · have := ih (off + 2) l h
      omega

theorem count_sendRefs (c : Int) (es : List Edge) :
    ∀ (off j : Nat) (e : Edge), es[j]? = some e →
      (sendRefs c off es).count (off + 2 * j) = (if e.From = c then 1 else 0) ∧
      (sendRefs c off es).count (off + 2 * j + 1) = (if e.To = c then 1 else 0) := by
  induction es with
  | nil => intro off j e h; simp at h
  | cons e0 es ih =>
    intro off j e h
    cases j with
    | zero =>
      simp only [List.getElem?_cons_zero, Option.some.injEq] at h
      subst h
      have ht0 : (sendRefs c (off + 2) es).count off = 0 :=
        List.count_eq_zero_of_not_mem (fun hm => by
          have := sendRefs_bounds c es (off + 2) off hm; omega)
      have ht1 : (sendRefs c (off + 2) es).count (off + 1) = 0 :=
        List.count_eq_zero_of_not_mem (fun hm => by
          have := sendRefs_bounds c es (off + 2) (off + 1) hm; omega)
      simp only [sendRefs, List.count_append, Nat.mul_zero, Nat.add_zero, ht0, ht1]
      by_cases h1 : e0.To = c <;> by_cases h2 : e0.From = c <;>
        simp [h1, h2]
    | succ j =>
      simp only [List.getElem?_cons_succ] at h
      obtain ⟨ih1, ih2⟩ := ih (off + 2) j e h
      have e1 : off + 2 * (j + 1) = off + 2 + 2 * j := by omega
      have e2 : off + 2 * (j + 1) + 1 = off + 2 + 2 * j + 1 := by omega
      rw [e2, e1]
      have c1 : List.count (off + 2 + 2 * j) [off] = 0 :=
        List.count_eq_zero_of_not_mem (by simp only [List.mem_singleton]; omega)
      have c2 : List.count (off + 2 + 2 * j) [off + 1] = 0 :=
        List.count_eq_zero_of_not_mem (by simp only [List.mem_singleton]; omega)
      have c3 : List.count (off + 2 + 2 * j + 1) [off] = 0 :=
        List.count_eq_zero_of_not_mem (by simp only [List.mem_singleton]; omega)
      have c4 : List.count (off + 2 + 2 * j + 1) [off + 1] = 0 :=
        List.count_eq_zero_of_not_mem (by simp only [List.mem_singleton]; omega)
      simp only [sendRefs, List.count_append, ih1, ih2]
      by_cases h1 : e0.To = c <;> by_cases h2 : e0.From = c <;>
        simp only [h1, h2, if_true, if_false, c1, c2, c3, c4, List.count_nil, Nat.zero_add,
          and_self]

theorem count_recvRefs (c : Int) (es : List Edge) :
    ∀ (off j : Nat) (e : Edge), es[j]? = some e →
      (recvRefs c off es).count (off + 2 * j) = (if e.To = c then 1 else 0) ∧
      (recvRefs c off es).count (off + 2 * j + 1) = (if e.From = c then 1 else 0) := by
  induction es with
  | nil => intro off j e h; simp at h
  | cons e0 es ih =>
    intro off j e h
    cases j with
    | zero =>
      simp only [List.getElem?_cons_zero, Option.some.injEq] at h
      subst h
      have ht0 : (recvRefs c (off + 2) es).count off = 0 :=
        List.count_eq_zero_of_not_mem (fun hm => by
          have := recvRefs_bounds c es (off + 2) off hm; omega)
      have ht1 : (recvRefs c (off + 2) es).count (off + 1) = 0 :=
        List.count_eq_zero_of_not_mem (fun hm => by
          have := recvRefs_bounds c es (off + 2) (off + 1) hm; omega)
      simp only [recvRefs, List.count_append, Nat.mul_zero, Nat.add_zero, ht0, ht1]
      by_cases h1 : e0.To = c <;> by_cases h2 : e0.From = c <;>
        simp [h1, h2]
    | succ j =>
      simp only [List.getElem?_cons_succ] at h
      obtain ⟨ih1, ih2⟩ := ih (off + 2) j e h
      have e1 : off + 2 * (j + 1) = off + 2 + 2 * j := by omega
      have e2 : off + 2 * (j + 1) + 1 = off + 2 + 2 * j + 1 := by omega
      rw [e2, e1]
      have c1 : List.count (off + 2 + 2 * j) [off] = 0 :=
        List.count_eq_zero_of_not_mem (by simp only [List.mem_singleton]; omega)
      have c2 : List.count (off + 2 + 2 * j) [off + 1] = 0 :=
        List.count_eq_zero_of_not_mem (by simp only [List.mem_singleton]; omega)
      have c3 : List.count (off + 2 + 2 * j + 1) [off] = 0 :=
        List.count_eq_zero_of_not_mem (by simp only [List.mem_singleton]; omega)
      have c4 : List.count (off + 2 + 2 * j + 1) [off + 1] = 0 :=
        List.count_eq_zero_of_not_mem (by simp only [List.mem_singleton]; omega)
      simp only [recvRefs, List.count_append, ih1, ih2]
      by_cases h1 : e0.To = c <;> by_cases h2 : e0.From = c <;>
        simp only [h1, h2, if_true, if_false, c1, c2, c3, c4, List.count_nil, Nat.zero_add,
          and_self]

/-- C11: link registration in `initializeChannels`.  For every world the
channels created are twice as many as the edges, all empty with capacity
`NODES`, and every reference in the tables is one of them.  The edge at
position `j`, from `a` to `b`, gives rise to the two channels `linkFromTo j`
and `linkToFrom j`, distinct from each other and from the channels of every
other edge; `linkFromTo j` occurs exactly once in the send-table of `a`,
exactly once in the receive-table of `b` and in no other table entry, and
`linkToFrom j` occurs exactly once in the send-table of `b`, exactly once in
the receive-table of `a` and in no other table entry. -/
theorem initializeChannels_links (w : World) :
    (initializeChannels w).chans.length = 2 * w.Edges.length ∧
    (∀ ch ∈ (initializeChannels w).chans, ch = { buf := [], cap := NODES }) ∧
    (∀ (c : Int) (l : Nat),
      l ∈ GoMap.get [] (initializeChannels w).sendTable c ∨
        l ∈ GoMap.get [] (initializeChannels w).receiveTable c →
      l < (initializeChannels w).chans.length) ∧
    (∀ j j' : Nat, linkFromTo j ≠ linkToFrom j' ∧
      (j ≠ j' → linkFromTo j ≠ linkFromTo j' ∧ linkToFrom j ≠ linkToFrom j')) ∧
    (∀ (j : Nat) (e : Edge), w.Edges[j]? = some e →
      linkFromTo j < (initializeChannels w).chans.length ∧
      linkToFrom j < (initializeChannels w).chans.length ∧
      ∀ c : Int,
        (GoMap.get [] (initializeChannels w).sendTable c).count (linkFromTo j) =
          (if e.From = c then 1 else 0) ∧
        (GoMap.get [] (initializeChannels w).receiveTable c).count (linkFromTo j) =
          (if e.To = c then 1 else 0) ∧
        (GoMap.get [] (initializeChannels w).sendTable c).count (linkToFrom j) =
          (if e.To = c then 1 else 0) ∧
        (GoMap.get [] (initializeChannels w).receiveTable c).count (linkToFrom j) =
          (if e.From = c then 1 else 0)) := by
  have hlen : (initializeChannels w).chans.length = 2 * w.Edges.length := by
    rw [(initializeChannels_tables w 0).2.2]
    simp
  refine ⟨hlen, ?_, ?_, ?_, ?_⟩
  · intro ch hch
    rw [(initializeChannels_tables w 0).2.2] at hch
    exact (List.mem_replicate.mp hch).2
  · intro c l hl
    rw [hlen]
    rcases hl with hl | hl
    · rw [(initializeChannels_tables w c).1] at hl
      have := sendRefs_bounds c w.Edges 0 l hl
      omega
    · rw [(initializeChannels_tables w c).2.1] at hl
      have := recvRefs_bounds c w.Edges 0 l hl
      omega
  · intro j j'
    unfold linkFromTo linkToFrom
    refine ⟨by omega, fun h => ⟨by omega, by omega⟩⟩
  · intro j e he
    have hj : j < w.Edges.length := (List.getElem?_eq_some.mp he).1
    unfold linkFromTo linkToFrom
    refine ⟨by omega, by omega, ?_⟩
    intro c
    rw [(initializeChannels_tables w c).1, (initializeChannels_tables w c).2.1]
    have hs := count_sendRefs c w.Edges 0 j e he
    have hr := count_recvRefs c w.Edges 0 j e he
    simp only [Nat.zero_add] at hs hr
    exact ⟨hs.1, hr.1, hs.2, hr.2⟩

theorem initializeChannels_links_witness :
    linkFromTo 1 < (initializeChannels pathWorld).chans.length ∧
      linkToFrom 1 < (initializeChannels pathWorld).chans.length ∧
      (GoMap.get [] (initializeChannels pathWorld).sendTable 1).count (linkFromTo 1) =
          (if (NewEdge 1 2 1 false).From = 1 then 1 else 0) ∧
        (GoMap.get [] (initializeChannels pathWorld).receiveTable 1).count (linkFromTo 1) =
          (if (NewEdge 1 2 1 false).To = 1 then 1 else 0) ∧
        (GoMap.get [] (initializeChannels pathWorld).sendTable 1).count (linkToFrom 1) =
          (if (NewEdge 1 2 1 false).To = 1 then 1 else 0) ∧
        (GoMap.get [] (initializeChannels pathWorld).receiveTable 1).count (linkToFrom 1) =
          (if (NewEdge 1 2 1 false).From = 1 then 1 else 0) :=
  ⟨((initializeChannels_links pathWorld).2.2.2.2 1 (NewEdge 1 2 1 false) (by decide)).1,
   ((initializeChannels_links pathWorld).2.2.2.2 1 (NewEdge 1 2 1 false) (by decide)).2.1,
   ((initializeChannels_links pathWorld).2.2.2.2 1 (NewEdge 1 2 1 false) (by decide)).2.2 1⟩

theorem neighbors_foldl_eq (c : Int) (es : List Edge) :
    ∀ acc : List Int,
      es.foldl
          (fun neighbors e =>
            if e.From = c then neighbors ++ [e.To]
            else if e.To = c then neighbors ++ [e.From]
            else neighbors) acc =
        acc ++ neighborsRec c es := by
  induction es with
  | nil => intro acc; simp [neighborsRec]
  | cons e es ih =>
    intro acc
    rw [List.foldl_cons, ih]
    by_cases h1 : e.From = c
    · simp [neighborsRec, h1]
    · by_cases h2 : e.To = c
      · simp [neighborsRec, h1, h2]
      · simp [neighborsRec, h1, h2]

theorem Neighbors_eq_rec (w : World) (c : Int) : w.Neighbors c = neighborsRec c w.Edges := by
  unfold World.Neighbors
  rw [neighbors_foldl_eq]
  simp

theorem incidence_neighbors (c : Int) (es : List Edge) :
    ∀ off : Nat, (incidence c off es).map (fun t => t.2.2) = neighborsRec c es := by
  induction es with
  | nil => intro off; rfl
  | cons e es ih =>
    intro off
    by_cases h1 : e.From = c
    · simp [incidence, neighborsRec, h1, ih]
    · by_cases h2 : e.To = c
      · simp [incidence, neighborsRec, h1, h2, ih]
      · simp [incidence, neighborsRec, h1, h2, ih]

theorem incidence_refs (c : Int) (es : List Edge) (hloop : ∀ e ∈ es, e.From ≠ e.To) :
    ∀ off : Nat,
      (incidence c off es).map (fun t => t.1) = sendRefs c off es ∧
      (incidence c off es).map (fun t => t.2.1) = recvRefs c off es := by
  induction es with
  | nil => intro off; exact ⟨rfl, rfl⟩
  | cons e es ih =>
    intro off
    have hne : e.From ≠ e.To := hloop e (by simp)
    obtain ⟨ih1, ih2⟩ := ih (fun e' he' => hloop e' (List.mem_cons_of_mem _ he')) (off + 2)
    by_cases h1 : e.From = c
    · have h2 : ¬ e.To = c := fun h => hne (h1.trans h.symm)
      simp [incidence, sendRefs, recvRefs, h1, h2, ih1, ih2]
    · by_cases h2 : e.To = c
      · simp [incidence, sendRefs, recvRefs, h1, h2, ih1, ih2]
      · simp [incidence, sendRefs, recvRefs, h1, h2, ih1, ih2]

theorem incidence_edge (c : Int) (es : List Edge) :
    ∀ (off : Nat) (t : Nat × Nat × Int), t ∈ incidence c off es →
      ∃ (j : Nat) (e : Edge), es[j]? = some e ∧
        ((e.From = c ∧ e.To = t.2.2 ∧ t.1 = off + 2 * j ∧ t.2.1 = off + 2 * j + 1) ∨
          (e.To = c ∧ e.From = t.2.2 ∧ t.1 = off + 2 * j + 1 ∧ t.2.1 = off + 2 * j)) := by
  induction es with
  | nil => intro off t h; simp [incidence] at h
  | cons e es ih =>
    intro off t h
    have tail : t ∈ incidence c (off + 2) es →
        ∃ (j : Nat) (e' : Edge), (e :: es)[j]? = some e' ∧
          ((e'.From = c ∧ e'.To = t.2.2 ∧ t.1 = off + 2 * j ∧ t.2.1 = off + 2 * j + 1) ∨
            (e'.To = c ∧ e'.From = t.2.2 ∧ t.1 = off + 2 * j + 1 ∧ t.2.1 = off + 2 * j)) := by
      intro ht
      obtain ⟨j, e', hj, hcase⟩ := ih (off + 2) t ht
      refine ⟨j + 1, e', by simpa using hj, ?_⟩
      rcases hcase with ⟨a1, a2, a3, a4⟩ | ⟨a1, a2, a3, a4⟩
      · exact Or.inl ⟨a1, a2, by omega, by omega⟩
      · exact Or.inr ⟨a1, a2, by omega, by omega⟩
    by_cases h1 : e.From = c
    · simp only [incidence, h1, if_true, List.mem_cons] at h
      rcases h with h | h
      · subst h
        exact ⟨0, e, by simp, Or.inl ⟨h1, rfl, by simp, by simp⟩⟩
      · exact tail h
    · by_cases h2 : e.To = c
      · simp only [incidence, h1, h2, if_true, if_false, List.mem_cons] at h
        rcases h with h | h
        · subst h
          exact ⟨0, e, by simp, Or.inr ⟨h2, rfl, by simp, by simp⟩⟩
        · exact tail h
      · simp only [incidence, h1, h2, if_false] at h
        exact tail h

/-- C12: positional alignment of wiring, neighbours and flags.  For every
world without self-loops and every node `a`, the send-table of `a`, the
receive-table of `a`, `Neighbors(a)` and the key set of the `shouldSendTable`
built by `generateInitialMaxState` all have the same length `n` (the keys are
`0 .. n-1`), and at every position `k < n` the entry `sendTable[a][k]` is the
channel from `a` to `Neighbors(a)[k]` and `receiveTable[a][k]` is the channel
from `Neighbors(a)[k]` to `a`: they are the two channels of one edge between
`a` and that neighbour, the first registered in the receive-table and the
second in the send-table of the neighbour. -/
theorem wiring_aligned (w : World) (hloop : ∀ e ∈ w.Edges, e.From ≠ e.To) (a : Int) :
    (GoMap.get [] (initializeChannels w).sendTable a).length = (w.Neighbors a).length ∧
    (GoMap.get [] (initializeChannels w).receiveTable a).length = (w.Neighbors a).length ∧
    (∀ (n : Node) (max : Int) (rnd : Rand) (st : MaxState) (rnd' : Rand), n.Id = a →
      generateInitialMaxState w n max rnd = some (st, rnd') →
      ∀ k : Int, GoMap.contains st.shouldSendTable k = true ↔
        (0 ≤ k ∧ k < ((w.Neighbors a).length : Int))) ∧
    (∀ (k l r : Nat) (b : Int),
      (GoMap.get [] (initializeChannels w).sendTable a)[k]? = some l →
      (GoMap.get [] (initializeChannels w).receiveTable a)[k]? = some r →
      (w.Neighbors a)[k]? = some b →
      (∃ (j : Nat) (e : Edge), w.Edges[j]? = some e ∧
        ((e.From = a ∧ e.To = b ∧ l = linkFromTo j ∧ r = linkToFrom j) ∨
          (e.To = a ∧ e.From = b ∧ l = linkToFrom j ∧ r = linkFromTo j))) ∧
      l ∈ GoMap.get [] (initializeChannels w).receiveTable b ∧
      r ∈ GoMap.get [] (initializeChannels w).sendTable b) := by
  obtain ⟨hS, hR⟩ := incidence_refs a w.Edges hloop 0
  have hN := incidence_neighbors a w.Edges 0
  rw [(initializeChannels_tables w a).1, (initializeChannels_tables w a).2.1,
    Neighbors_eq_rec, ← hS, ← hR, ← hN]
  refine ⟨by simp, by simp, ?_, ?_⟩
  · intro n max rnd st rnd' hn hgen k
    unfold generateInitialMaxState at hgen
    by_cases hmax : max ≤ 0
    · simp [hmax] at hgen
    · simp only [hmax, if_false, Option.some.injEq, Prod.mk.injEq] at hgen
      rw [← hgen.1]
      unfold GoMap.contains
      simp only []
      rw [lookup_initialShouldSendTable, hn, Neighbors_eq_rec, ← hN]
      by_cases hk : 0 ≤ k ∧ k < (((incidence a 0 w.Edges).map fun t => t.2.2).length : Int)
      · simp [hk]
      · rw [if_neg hk]
        simp only [Option.isSome_none]
        constructor
        · intro h; exact absurd h (by decide)
        · intro h; exact absurd h hk
  · intro k l r b hl hr hb
    rw [List.getElem?_map] at hl hr hb
    cases ht : (incidence a 0 w.Edges)[k]? with
    | none => rw [ht] at hl; simp at hl
    | some t =>
      rw [ht] at hl hr hb
      simp only [Option.map_some', Option.some.injEq] at hl hr hb
      have hmem : t ∈ incidence a 0 w.Edges := List.getElem?_mem ht
      obtain ⟨j, e, he, hcase⟩ := incidence_edge a w.Edges 0 t hmem
      rw [hl, hr, hb] at hcase
      simp only [Nat.zero_add] at hcase
      have hsb := count_sendRefs b w.Edges 0 j e he
      have hrb := count_recvRefs b w.Edges 0 j e he
      simp only [Nat.zero_add] at hsb hrb
      rw [(initializeChannels_tables w b).1, (initializeChannels_tables w b).2.1]
      refine ⟨⟨j, e, he, hcase⟩, ?_⟩
      rcases hcase with ⟨_, h2, h3, h4⟩ | ⟨_, h2, h3, h4⟩
      · rw [h3, h4]
        refine ⟨List.count_pos_iff.mp ?_, List.count_pos_iff.mp ?_⟩
        · rw [hrb.1, if_pos h2]; exact Nat.one_pos
        · rw [hsb.2, if_pos h2]; exact Nat.one_pos
      · rw [h3, h4]
        refine ⟨List.count_pos_iff.mp ?_, List.count_pos_iff.mp ?_⟩
        · rw [hrb.2, if_pos h2]; exact Nat.one_pos
        · rw [hsb.1, if_pos h2]; exact Nat.one_pos

theorem wiring_aligned_witness :
    (GoMap.get [] (initializeChannels pathWorld).sendTable 1).length =
        (pathWorld.Neighbors 1).length ∧
      (GoMap.get [] (initializeChannels pathWorld).receiveTable 1).length =
        (pathWorld.Neighbors 1).length ∧
      ((∃ (j : Nat) (e : Edge), pathWorld.Edges[j]? = some e ∧
        ((e.From = 1 ∧ e.To = 2 ∧ 2 = linkFromTo j ∧ 3 = linkToFrom j) ∨
          (e.To = 1 ∧ e.From = 2 ∧ 2 = linkToFrom j ∧ 3 = linkFromTo j))) ∧
      2 ∈ GoMap.get [] (initializeChannels pathWorld).receiveTable 2 ∧
      3 ∈ GoMap.get [] (initializeChannels pathWorld).sendTable 2) :=
  ⟨(wiring_aligned pathWorld (by decide) 1).1,
   (wiring_aligned pathWorld (by decide) 1).2.1,
   (wiring_aligned pathWorld (by decide) 1).2.2.2 1 2 3 2 (by decide) (by decide) (by decide)⟩

/-! ## The system of workers: steps -/

theorem getElem?_set_self_of_some {α : Type} (l : List α) (i : Nat) (a b : α)
    (h : l[i]? = some a) : (l.set i b)[i]? = some b := by
  have hlt : i < l.length := (List.getElem?_eq_some.mp h).1
  simp [List.getElem?_set, hlt]

theorem getElem?_set_cases {α : Type} (l : List α) (i j : Nat) (b x : α)
    (h : (l.set i b)[j]? = some x) :
    (j = i ∧ x = b) ∨ (j ≠ i ∧ l[j]? = some x) := by
  by_cases hji : j = i
  · subst hji
    have hlt : j < l.length := by
      have := (List.getElem?_eq_some.mp h).1
      simpa using this
    rw [List.getElem?_set, if_pos rfl, if_pos hlt] at h
    exact Or.inl ⟨rfl, (Option.some.inj h).symm⟩
  · rw [List.getElem?_set_ne (fun e => hji e.symm)] at h
    exact Or.inr ⟨hji, h⟩

theorem mem_set_cases {α : Type} (l : List α) (i : Nat) (b x : α) (h : x ∈ l.set i b) :
    x = b ∨ x ∈ l := by
  obtain ⟨j, hj⟩ := List.mem_iff_getElem?.mp h
  rcases getElem?_set_cases l i j b x hj with ⟨_, h1⟩ | ⟨_, h1⟩
  · exact Or.inl h1
  · exact Or.inr (List.getElem?_mem h1)

/-- The four ways in which an iteration of a worker runs to its end. -/
theorem iter_cases (s s' : System) (p i : Nat) (h : s.iter p i = some s') :
    ∃ (pr : Proc) (st : MaxState) (res : Chan),
      s.procs[p]? = some pr ∧ s.states[p]? = some st ∧ s.results[p]? = some res ∧
      ((∃ (r : Nat) (c : Chan) (m : Message) (rest : List Message),
          pr.recv[i]? = some r ∧ s.links[r]? = some c ∧ c.buf = m :: rest ∧
          st.max < m.payload ∧
          s' =
            { procs := s.procs
              states := s.states.set p
                { value := st.value, max := m.payload,
                  shouldSendTable := GoMap.setAll st.shouldSendTable true }
              links := s.links.set r { buf := rest, cap := c.cap }
              results := s.results.set p
                (res.push
                  { msgType := messageType.MAX_MESSAGE, from_ := pr.n.Id,
                    payload := m.payload }) }) ∨
        (∃ (r : Nat) (c : Chan) (m : Message) (rest : List Message),
          pr.recv[i]? = some r ∧ s.links[r]? = some c ∧ c.buf = m :: rest ∧
          m.payload ≤ st.max ∧
          s' = { s with links := s.links.set r { buf := rest, cap := c.cap } }) ∨
        (∃ (sr : Nat) (sc : Chan),
          pr.send[i]? = some sr ∧ s.links[sr]? = some sc ∧
          GoMap.get false st.shouldSendTable (i : Int) = true ∧
          s' =
            { s with
              links := s.links.set sr
                (sc.push
                  { msgType := messageType.MAX_MESSAGE, from_ := pr.n.Id,
                    payload := st.max })
              states := s.states.set p
                { st with
                  shouldSendTable := GoMap.set st.shouldSendTable (i : Int) false } }) ∨
        s' = s) := by
  unfold System.iter at h
  cases hpr : s.procs[p]? with
  | none => simp [hpr] at h
  | some pr =>
    cases hst : s.states[p]? with
    | none => simp [hpr, hst] at h
    | some st =>
      cases hres : s.results[p]? with
      | none => simp [hpr, hst, hres] at h
      | some res =>
        refine ⟨pr, st, res, rfl, rfl, rfl, ?_⟩
        simp only [hpr, hst, hres] at h
        cases hr : pr.recv[i]? with
        | none => simp [hr] at h
        | some r =>
          simp only [hr] at h
          cases hc : s.links[r]? with
          | none => simp [hc] at h
          | some c =>
            simp only [hc] at h
            obtain ⟨buf, cap⟩ := c
            cases buf with
            | cons m rest =>
              simp only [] at h
              by_cases hgt : m.payload > st.max
              · simp only [hgt, if_true] at h
                by_cases hroom : res.hasRoom = true
                · simp only [hroom, if_true, Option.some.injEq] at h
                  exact Or.inl ⟨r, { buf := m :: rest, cap := cap }, m, rest, rfl, hc, rfl, hgt,
                    h.symm⟩
                · simp [hroom] at h
              · simp only [hgt, if_false, Option.some.injEq] at h
                exact Or.inr (Or.inl ⟨r, { buf := m :: rest, cap := cap }, m, rest, rfl, hc, rfl,
                  not_lt.mp hgt, h.symm⟩)
            | nil =>
              simp only [] at h
              by_cases hf : GoMap.get false st.shouldSendTable (i : Int) = true
              · simp only [hf, if_true] at h
                cases hsr : pr.send[i]? with
                | none => simp [hsr] at h
                | some sr =>
                  simp only [hsr] at h
                  cases hsc : s.links[sr]? with
                  | none => simp [hsc] at h
                  | some sc =>
                    simp only [hsc] at h
                    by_cases hroom : sc.hasRoom = true
                    · simp only [hroom, if_true, Option.some.injEq] at h
                      exact Or.inr (Or.inr (Or.inl ⟨sr, sc, rfl, hsc, hf, h.symm⟩))
                    · simp [hroom] at h
              · have hf' : GoMap.get false st.shouldSendTable (i : Int) = false := by
                  cases hv : GoMap.get false st.shouldSendTable (i : Int) with
                  | false => rfl
                  | true => exact absurd hv hf
                rw [hf'] at h
                simp only [Bool.false_eq_true, if_false, Option.some.injEq] at h
                exact Or.inr (Or.inr (Or.inr h.symm))

theorem iter_procs (s s' : System) (p i : Nat) (h : s.iter p i = some s') :
    s'.procs = s.procs := by
  obtain ⟨pr, st, res, _, _, _, hcase⟩ := iter_cases s s' p i h
  rcases hcase with ⟨r, c, m, rest, _, _, _, _, rfl⟩ | ⟨r, c, m, rest, _, _, _, _, rfl⟩ |
    ⟨sr, sc, _, _, _, rfl⟩ | rfl <;> rfl

theorem take_cases (s s' : System) (p : Nat) (h : s.take p = some s') :
    ∃ (c : Chan) (m : Message) (rest : List Message),
      s.results[p]? = some c ∧ c.buf = m :: rest ∧
      s' = { s with results := s.results.set p { buf := rest, cap := c.cap } } := by
  unfold System.take at h
  cases hc : s.results[p]? with
  | none => simp [hc] at h
  | some c =>
    obtain ⟨buf, cap⟩ := c
    cases buf with
    | nil => simp [hc] at h
    | cons m rest =>
      simp only [hc, Option.some.injEq] at h
      exact ⟨{ buf := m :: rest, cap := cap }, m, rest, rfl, rfl, h.symm⟩

theorem valid_iter (S : List Int) (s s' : System) (p i : Nat) (h : s.iter p i = some s')
    (hv : Valid S s) : Valid S s' := by
  obtain ⟨v1, v2, v3⟩ := hv
  obtain ⟨pr, st, res, hpr, hst, hres, hcase⟩ := iter_cases s s' p i h
  obtain ⟨hmax, hseed, hle⟩ := v1 p st hst
  rcases hcase with ⟨r, c, m, rest, hr, hc, hbuf, hgt, rfl⟩ | ⟨r, c, m, rest, hr, hc, hbuf, _, rfl⟩ |
    ⟨sr, sc, hsr, hsc, hf, rfl⟩ | rfl
  · have hcm : c ∈ s.links := List.getElem?_mem hc
    have hm : m.payload ∈ S := v2 c hcm m (by rw [hbuf]; simp)
    refine ⟨?_, ?_, ?_⟩
    · intro q sq hq
      rcases getElem?_set_cases _ _ _ _ _ hq with ⟨rfl, rfl⟩ | ⟨_, hq'⟩
      · exact ⟨hm, hseed, le_of_lt (lt_of_le_of_lt hle hgt)⟩
      · exact v1 q sq hq'
    · intro c' hc' m' hm'
      rcases mem_set_cases _ _ _ _ hc' with rfl | hc'
      · exact v2 c hcm m' (by rw [hbuf]; exact List.mem_cons_of_mem _ hm')
      · exact v2 c' hc' m' hm'
    · intro c' hc' m' hm'
      rcases mem_set_cases _ _ _ _ hc' with rfl | hc'
      · simp only [Chan.push, List.mem_append, List.mem_singleton] at hm'
        rcases hm' with hm' | rfl
        · exact v3 res (List.getElem?_mem hres) m' hm'
        · exact hm
      · exact v3 c' hc' m' hm'
  · have hcm : c ∈ s.links := List.getElem?_mem hc
    refine ⟨v1, ?_, v3⟩
    intro c' hc' m' hm'
    rcases mem_set_cases _ _ _ _ hc' with rfl | hc'
    · exact v2 c hcm m' (by rw [hbuf]; exact List.mem_cons_of_mem _ hm')
    · exact v2 c' hc' m' hm'
  · refine ⟨?_, ?_, v3⟩
    · intro q sq hq
      rcases getElem?_set_cases _ _ _ _ _ hq with ⟨rfl, rfl⟩ | ⟨_, hq'⟩
      · exact ⟨hmax, hseed, hle⟩
      · exact v1 q sq hq'
    · intro c' hc' m' hm'
      rcases mem_set_cases _ _ _ _ hc' with rfl | hc'
      · simp only [Chan.push, List.mem_append, List.mem_singleton] at hm'
        rcases hm' with hm' | rfl
        · exact v2 sc (List.getElem?_mem hsc) m' hm'
        · exact hmax
      · exact v2 c' hc' m' hm'
  · exact ⟨v1, v2, v3⟩

theorem valid_take (S : List Int) (s s' : System) (p : Nat) (h : s.take p = some s')
    (hv : Valid S s) : Valid S s' := by
  obtain ⟨v1, v2, v3⟩ := hv
  obtain ⟨c, m, rest, hc, hbuf, rfl⟩ := take_cases s s' p h
  refine ⟨v1, v2, ?_⟩
  intro c' hc' m' hm'
  rcases mem_set_cases _ _ _ _ hc' with rfl | hc'
  · exact v3 c (List.getElem?_mem hc) m' (by rw [hbuf]; exact List.mem_cons_of_mem _ hm')
  · exact v3 c' hc' m' hm'

theorem run_invariant (P : System → Prop)
    (hstep : ∀ (s s' : System) (a : Action), s.act a = some s' → P s → P s')
    (acts : List Action) :
    ∀ s s' : System, s.run acts = some s' → P s → P s' := by
  induction acts with
  | nil =>
    intro s s' h hp
    simp only [System.run, Option.some.injEq] at h
    rw [← h]; exact hp
  | cons a acts ih =>
    intro s s' h hp
    simp only [System.run] at h
    cases ha : s.act a with
    | none => rw [ha] at h; simp at h
    | some s1 =>
      rw [ha] at h
      exact ih s1 s' h (hstep s s1 a ha hp)

theorem valid_act (S : List Int) (s s' : System) (a : Action) (h : s.act a = some s')
    (hv : Valid S s) : Valid S s' := by
  cases a with
  | iter p i => exact valid_iter S s s' p i h hv
  | take p => exact valid_take S s s' p h hv

/-- What `spawn` returns: one worker per node, in order, each with the tables
entries of its node and a state of `generateInitialMaxState`. -/
theorem spawn_spec (w : World) (ch : Channels) (ns : List Node) :
    ∀ (rnd : Rand), ∃ (ps : List Proc) (sts : List MaxState) (rnd' : Rand),
      spawn w ch ns rnd = some (ps, sts, rnd') ∧
      ps = ns.map (fun n =>
        { n := n, send := GoMap.get [] ch.sendTable n.Id,
          recv := GoMap.get [] ch.receiveTable n.Id }) ∧
      sts.length = ns.length ∧
      ∀ (p : Nat) (st : MaxState), sts[p]? = some st →
        ∃ n : Node, ns[p]? = some n ∧ st.max = st.value ∧ 0 ≤ st.value ∧ st.value < MAX ∧
          st.shouldSendTable = initialShouldSendTable (w.Neighbors n.Id).length := by
  induction ns with
  | nil =>
    intro rnd
    exact ⟨[], [], rnd, rfl, rfl, rfl, fun p st h => by simp at h⟩
  | cons n ns ih =>
    intro rnd
    have hgen : generateInitialMaxState w n MAX rnd =
        some ({ value := ((rnd.Intn MAX.toNat).1 : Int), max := ((rnd.Intn MAX.toNat).1 : Int),
                shouldSendTable := initialShouldSendTable (w.Neighbors n.Id).length },
              (rnd.Intn MAX.toNat).2) := by
      simp [generateInitialMaxState, MAX]
    obtain ⟨ps, sts, rnd', hsp, hps, hlen, hsts⟩ := ih (rnd.Intn MAX.toNat).2
    refine ⟨{ n := n, send := GoMap.get [] ch.sendTable n.Id,
              recv := GoMap.get [] ch.receiveTable n.Id } :: ps,
      { value := ((rnd.Intn MAX.toNat).1 : Int), max := ((rnd.Intn MAX.toNat).1 : Int),
        shouldSendTable := initialShouldSendTable (w.Neighbors n.Id).length } :: sts,
      rnd', by simp only [spawn, hgen, hsp], by rw [hps]; rfl, by simp [hlen], ?_⟩
    intro p st hp
    cases p with
    | zero =>
      simp only [List.getElem?_cons_zero, Option.some.injEq] at hp
      subst hp
      refine ⟨n, List.getElem?_cons_zero, rfl, Int.ofNat_nonneg _, ?_, rfl⟩
      show ((rnd.draws rnd.pos % MAX.toNat : Nat) : Int) < MAX
      have : rnd.draws rnd.pos % 1000 < 1000 := Nat.mod_lt _ (by decide)
      simp only [MAX]
      have h1000 : (1000 : Int).toNat = 1000 := rfl
      rw [h1000]
      omega
    | succ p =>
      simp only [List.getElem?_cons_succ] at hp
      obtain ⟨n', hn', hrest⟩ := hsts p st hp
      exact ⟨n', by simpa using hn', hrest⟩

theorem startWorkers_spec (w : World) (rnd : Rand) :
    ∃ s0 : System, startWorkers w rnd = some s0 ∧
      s0.procs = w.Nodes.map (fun n =>
        { n := n, send := GoMap.get [] (initializeChannels w).sendTable n.Id,
          recv := GoMap.get [] (initializeChannels w).receiveTable n.Id }) ∧
      s0.states.length = w.Nodes.length ∧
      s0.links = (initializeChannels w).chans ∧
      s0.results = List.replicate w.Nodes.length { buf := [], cap := NODES } ∧
      ∀ (p : Nat) (st : MaxState), s0.states[p]? = some st →
        ∃ n : Node, w.Nodes[p]? = some n ∧ st.max = st.value ∧ 0 ≤ st.value ∧ st.value < MAX ∧
          st.shouldSendTable = initialShouldSendTable (w.Neighbors n.Id).length := by
  obtain ⟨ps, sts, rnd', hsp, hps, hlen, hsts⟩ := spawn_spec w (initializeChannels w) w.Nodes rnd
  refine ⟨{ procs := ps, states := sts, links := (initializeChannels w).chans,
            results := ps.map fun _ => { buf := [], cap := NODES } },
    by simp only [startWorkers, hsp], hps, hlen, rfl, ?_, hsts⟩
  show ps.map (fun _ => ({ buf := [], cap := NODES } : Chan)) = _
  rw [hps, List.map_map]
  exact List.eq_replicate_iff.mpr
    ⟨by simp, fun b hb => by
      obtain ⟨_, _, rfl⟩ := List.mem_map.mp hb
      rfl⟩

theorem valid_start (w : World) (rnd : Rand) (s0 : System)
    (h0 : startWorkers w rnd = some s0) : Valid s0.seeds s0 := by
  obtain ⟨s0', h0', _, _, hlinks, hres, hsts⟩ := startWorkers_spec w rnd
  rw [h0] at h0'
  obtain rfl := Option.some.inj h0'
  refine ⟨?_, ?_, ?_⟩
  · intro p st hp
    obtain ⟨n, _, hmv, _, _, _⟩ := hsts p st hp
    have hseed : s0.seeds[p]? = some st.value := by
      simp [System.seeds, hp]
    exact ⟨by rw [hmv]; exact List.getElem?_mem hseed, hseed, le_of_eq hmv.symm⟩
  · intro c hc m hm
    rw [hlinks] at hc
    have := (initializeChannels_tables w 0).2.2
    rw [this] at hc
    rw [(List.mem_replicate.mp hc).2] at hm
    simp at hm
  · intro c hc m hm
    rw [hres] at hc
    rw [(List.mem_replicate.mp hc).2] at hm
    simp at hm

theorem pathSystem_start : startWorkers pathWorld seedRand = some pathSystem := by
  decide

theorem pathSystem_run :
    pathSystem.run (roundRobin pathSystem 8) = some pathSystemQuiescent := by
  decide

/-- C20: validity.  In every state that the system of workers started by
`main` reaches by iterations of the workers, in any interleaving, and receives
of the monitor, the `max` of each worker, the payload of every message in
flight on a link and the payload of every report on a result channel is the
seed of some node, and the `max` of each worker is at least its own seed;
therefore none of them exceeds a bound of the seeds, in particular their
maximum. -/
theorem validity (w : World) (rnd : Rand) (s0 s : System) (acts : List Action)
    (h0 : startWorkers w rnd = some s0) (hrun : s0.run acts = some s) :
    s0.seeds.length = w.Nodes.length ∧
    (∀ (p : Nat) (st : MaxState), s.states[p]? = some st →
      st.max ∈ s0.seeds ∧ ∃ v : Int, s0.seeds[p]? = some v ∧ v ≤ st.max) ∧
    (∀ c ∈ s.links, ∀ m ∈ c.buf, m.payload ∈ s0.seeds) ∧
    (∀ c ∈ s.results, ∀ m ∈ c.buf, m.payload ∈ s0.seeds) ∧
    (∀ M : Int, (∀ v ∈ s0.seeds, v ≤ M) →
      (∀ st ∈ s.states, st.max ≤ M) ∧
      (∀ c ∈ s.links, ∀ m ∈ c.buf, m.payload ≤ M) ∧
      (∀ c ∈ s.results, ∀ m ∈ c.buf, m.payload ≤ M)) := by
  have hv0 : Valid s0.seeds s0 := valid_start w rnd s0 h0
  obtain ⟨v1, v2, v3⟩ :=
    run_invariant (Valid s0.seeds) (fun a b act h => valid_act s0.seeds a b act h) acts s0 s
      hrun hv0
  have hlen : s0.seeds.length = w.Nodes.length := by
    obtain ⟨s0', h0', _, hl, _⟩ := startWorkers_spec w rnd
    rw [h0] at h0'
    obtain rfl := Option.some.inj h0'
    simpa [System.seeds] using hl
  refine ⟨hlen, ?_, v2, v3, ?_⟩
  · intro p st hp
    obtain ⟨h1, h2, h3⟩ := v1 p st hp
    exact ⟨h1, st.value, h2, h3⟩
  · intro M hM
    refine ⟨?_, ?_, ?_⟩
    · intro st hst
      obtain ⟨p, hp⟩ := List.mem_iff_getElem?.mp hst
      exact hM _ (v1 p st hp).1
    · intro c hc m hm
      exact hM _ (v2 c hc m hm)
    · intro c hc m hm
      exact hM _ (v3 c hc m hm)

theorem validity_witness :
    ((9 : Int) ∈ pathSystem.seeds ∧ ∃ v : Int, pathSystem.seeds[0]? = some v ∧ v ≤ 9) ∧
      (report 0 7).payload ∈ pathSystem.seeds :=
  ⟨(validity pathWorld seedRand pathSystem pathSystemQuiescent (roundRobin pathSystem 8)
      pathSystem_start pathSystem_run).2.1 0
      { value := 3, max := 9, shouldSendTable := [(0, false)] } (by decide),
   (validity pathWorld seedRand pathSystem pathSystemQuiescent (roundRobin pathSystem 8)
      pathSystem_start pathSystem_run).2.2.2.1
      { buf := [report 0 7, report 0 9], cap := 1000 } (by decide) (report 0 7) (by decide)⟩

/-! ## The system of workers: the flooding invariant -/

theorem GoMap.contains_set {V : Type} (m : GoMap V) (k k' : Int) (v : V)
    (h : GoMap.contains m k' = true) : GoMap.contains (GoMap.set m k v) k' = true := by
  unfold GoMap.contains at *
  by_cases hk : k' = k
  · subst hk
    rw [GoMap.lookup_set_self]
    rfl
  · rw [GoMap.lookup_set_ne m k k' v hk]
    exact h

theorem flagsCover_iter (s s' : System) (p i : Nat) (h : s.iter p i = some s')
    (hF : FlagsCover s) : FlagsCover s' := by
  obtain ⟨pr, st, res, hpr, hst, hres, hcase⟩ := iter_cases s s' p i h
  rcases hcase with ⟨r, c, m, rest, _, _, _, _, rfl⟩ | ⟨r, c, m, rest, _, _, _, _, rfl⟩ |
    ⟨sr, sc, _, _, _, rfl⟩ | rfl
  · intro p1 pr1 st1 hp1 hs1 k hk
    dsimp only at hp1 hs1
    rcases getElem?_set_cases _ _ _ _ _ hs1 with ⟨rfl, rfl⟩ | ⟨_, hs1'⟩
    · dsimp only
      rw [GoMap.contains_setAll]
      exact hF p1 pr1 st hp1 hst k hk
    · exact hF p1 pr1 st1 hp1 hs1' k hk
  · exact hF
  · intro p1 pr1 st1 hp1 hs1 k hk
    dsimp only at hp1 hs1
    rcases getElem?_set_cases _ _ _ _ _ hs1 with ⟨rfl, rfl⟩ | ⟨_, hs1'⟩
    · dsimp only
      exact GoMap.contains_set _ _ _ _ (hF p1 pr1 st hp1 hst k hk)
    · exact hF p1 pr1 st1 hp1 hs1' k hk
  · exact hF

/-- The state of a worker before a step that replaces the state of worker
`p`. -/
theorem state_before {sts : List MaxState} {p q : Nat} {st st' sq : MaxState}
    (hst : sts[p]? = some st) (hq : (sts.set p st')[q]? = some sq) :
    ∃ sq0 : MaxState, sts[q]? = some sq0 ∧
      ((q = p ∧ sq0 = st ∧ sq = st') ∨ (q ≠ p ∧ sq0 = sq)) := by
  rcases getElem?_set_cases _ _ _ _ _ hq with ⟨rfl, rfl⟩ | ⟨hne, hq'⟩
  · exact ⟨st, hst, Or.inl ⟨rfl, rfl, rfl⟩⟩
  · exact ⟨sq, hq', Or.inr ⟨hne, rfl⟩⟩

theorem linkInv_iter (s s' : System) (p i : Nat) (h : s.iter p i = some s')
    (hW : OneReceiver s) (hF : FlagsCover s) (hL : LinkInv s) : LinkInv s' := by
  obtain ⟨pr, st, res, hpr, hst, hres, hcase⟩ := iter_cases s s' p i h
  rcases hcase with ⟨r, c, m, rest, hr, hc, hbuf, hgt, rfl⟩ |
    ⟨r, c, m, rest, hr, hc, hbuf, hle, rfl⟩ | ⟨sr, sc, hsr, hsc, hf, rfl⟩ | rfl
  · -- a message is received and raises `max`
    intro p1 q1 pr1 qr1 sp sq k k' l hp1 hq1 hsp hsq hk hk'
    dsimp only at hp1 hq1 hsp hsq ⊢
    obtain ⟨sq0, hsq0, hqcase⟩ := state_before hst hsq
    have hmono : sq0.max ≤ sq.max := by
      rcases hqcase with ⟨_, h1, h2⟩ | ⟨_, h1⟩
      · rw [h1, h2]; exact le_of_lt hgt
      · rw [h1]
    rcases getElem?_set_cases _ _ _ _ _ hsp with ⟨rfl, rfl⟩ | ⟨hne, hsp'⟩
    · left
      have hk1 : k < pr1.send.length := (List.getElem?_eq_some.mp hk).1
      exact GoMap.get_setAll_of_contains false _ true _ (hF p1 pr1 st hp1 hst k hk1)
    · rcases hL p1 q1 pr1 qr1 sp sq0 k k' l hp1 hq1 hsp' hsq0 hk hk' with
        h1 | h1 | ⟨c0, hc0, m0, hm0, hpay⟩
      · exact Or.inl h1
      · exact Or.inr (Or.inl (le_trans h1 hmono))
      · by_cases hlr : l = r
        · subst hlr
          rw [hc] at hc0
          obtain rfl := Option.some.inj hc0
          rw [hbuf] at hm0
          rcases List.mem_cons.mp hm0 with rfl | hrest
          · have hq1p : q1 = p := hW q1 p qr1 pr k' i l hq1 hpr hk' hr
            rcases hqcase with ⟨_, _, h2⟩ | ⟨hne', _⟩
            · right; left
              rw [h2, ← hpay]
            · exact absurd hq1p hne'
          · exact Or.inr (Or.inr ⟨_, getElem?_set_self_of_some _ _ _ _ hc, m0, hrest, hpay⟩)
        · refine Or.inr (Or.inr ⟨c0, ?_, m0, hm0, hpay⟩)
          rw [List.getElem?_set_ne (fun e => hlr e.symm)]
          exact hc0
  · -- a message is received and discarded
    intro p1 q1 pr1 qr1 sp sq k k' l hp1 hq1 hsp hsq hk hk'
    dsimp only at hp1 hq1 hsp hsq ⊢
    rcases hL p1 q1 pr1 qr1 sp sq k k' l hp1 hq1 hsp hsq hk hk' with
      h1 | h1 | ⟨c0, hc0, m0, hm0, hpay⟩
    · exact Or.inl h1
    · exact Or.inr (Or.inl h1)
    · by_cases hlr : l = r
      · subst hlr
        rw [hc] at hc0
        obtain rfl := Option.some.inj hc0
        rw [hbuf] at hm0
        rcases List.mem_cons.mp hm0 with rfl | hrest
        · have hq1p : q1 = p := hW q1 p qr1 pr k' i l hq1 hpr hk' hr
          subst hq1p
          rw [hst] at hsq
          obtain rfl := Option.some.inj hsq
          right; left
          rw [← hpay]; exact hle
        · exact Or.inr (Or.inr ⟨_, getElem?_set_self_of_some _ _ _ _ hc, m0, hrest, hpay⟩)
      · refine Or.inr (Or.inr ⟨c0, ?_, m0, hm0, hpay⟩)
        rw [List.getElem?_set_ne (fun e => hlr e.symm)]
        exact hc0
  · -- the current `max` is sent
    intro p1 q1 pr1 qr1 sp sq k k' l hp1 hq1 hsp hsq hk hk'
    dsimp only at hp1 hq1 hsp hsq ⊢
    obtain ⟨sq0, hsq0, hqcase⟩ := state_before hst hsq
    have hqmax : sq0.max = sq.max := by
      rcases hqcase with ⟨_, h1, h2⟩ | ⟨_, h1⟩
      · rw [h1, h2]
      · rw [h1]
    obtain ⟨sp0, hsp0, hpcase⟩ := state_before hst hsp
    have hpmax : sp0.max = sp.max := by
      rcases hpcase with ⟨_, h1, h2⟩ | ⟨_, h1⟩
      · rw [h1, h2]
      · rw [h1]
    have keep : ∀ c0 : Chan, s.links[l]? = some c0 → ∀ m0 ∈ c0.buf, m0.payload = sp.max →
        ∃ c1 : Chan,
          (s.links.set sr
            (sc.push
              { msgType := messageType.MAX_MESSAGE, from_ := pr.n.Id,
                payload := st.max }))[l]? = some c1 ∧
          ∃ m1 ∈ c1.buf, m1.payload = sp.max := by
      intro c0 hc0 m0 hm0 hpay
      by_cases hls : l = sr
      · subst hls
        rw [hsc] at hc0
        obtain rfl := Option.some.inj hc0
        refine ⟨_, getElem?_set_self_of_some _ _ _ _ hsc, m0, ?_, hpay⟩
        simp only [Chan.push, List.mem_append]
        exact Or.inl hm0
      · refine ⟨c0, ?_, m0, hm0, hpay⟩
        rw [List.getElem?_set_ne (fun e => hls e.symm)]
        exact hc0
    by_cases hsame : p1 = p ∧ k = i
    · obtain ⟨rfl, rfl⟩ := hsame
      rw [hpr] at hp1
      obtain rfl := Option.some.inj hp1
      rw [hsr] at hk
      obtain rfl := Option.some.inj hk
      refine Or.inr (Or.inr ⟨_, getElem?_set_self_of_some _ _ _ _ hsc,
        { msgType := messageType.MAX_MESSAGE, from_ := pr.n.Id, payload := st.max }, ?_, ?_⟩)
      · simp [Chan.push]
      · rcases hpcase with ⟨_, h1, h2⟩ | ⟨hne, _⟩
        · rw [h2]
        · exact absurd rfl hne
    · have hflag : GoMap.get false sp0.shouldSendTable (k : Int) = true →
          GoMap.get false sp.shouldSendTable (k : Int) = true := by
        intro hfl
        rcases hpcase with ⟨hpp, h1, h2⟩ | ⟨_, h1⟩
        · have hki : (k : Int) ≠ (i : Int) := by
            intro e
            exact hsame ⟨hpp, Int.ofNat.inj e⟩
          rw [h2]
          dsimp only
          rw [GoMap.get_set_ne false _ _ _ _ hki, ← h1]
          exact hfl
        · rw [← h1]; exact hfl
      rcases hL p1 q1 pr1 qr1 sp0 sq0 k k' l hp1 hq1 hsp0 hsq0 hk hk' with
        h1 | h1 | ⟨c0, hc0, m0, hm0, hpay⟩
      · exact Or.inl (hflag h1)
      · right; left
        rw [← hpmax, ← hqmax]; exact h1
      · exact Or.inr (Or.inr (keep c0 hc0 m0 hm0 (by rw [hpay, hpmax])))
  · exact hL

theorem iter_states_length (s s' : System) (p i : Nat) (h : s.iter p i = some s') :
    s'.states.length = s.states.length := by
  obtain ⟨pr, st, res, _, _, _, hcase⟩ := iter_cases s s' p i h
  rcases hcase with ⟨r, c, m, rest, _, _, _, _, rfl⟩ | ⟨r, c, m, rest, _, _, _, _, rfl⟩ |
    ⟨sr, sc, _, _, _, rfl⟩ | rfl <;> simp

theorem flood_act (s0 s s' : System) (a : Action) (h : s.act a = some s')
    (hfl : Flood s0 s) : Flood s0 s' := by
  obtain ⟨h1, h2, hW, hF, hL⟩ := hfl
  cases a with
  | iter p i =>
    have hp : s'.procs = s.procs := iter_procs s s' p i h
    refine ⟨hp.trans h1, (iter_states_length s s' p i h).trans h2, ?_,
      flagsCover_iter s s' p i h hF, linkInv_iter s s' p i h hW hF hL⟩
    intro q q' qr qr' k k' l hq hq'
    rw [hp] at hq hq'
    exact hW q q' qr qr' k k' l hq hq'
  | take p =>
    obtain ⟨c, m, rest, _, _, rfl⟩ := take_cases s s' p h
    exact ⟨h1, h2, hW, hF, hL⟩

theorem recvRefs_unique (es : List Edge) :
    ∀ (off l : Nat) (c c' : Int), l ∈ recvRefs c off es → l ∈ recvRefs c' off es → c = c' := by
  induction es with
  | nil => intro off l c c' h; simp [recvRefs] at h
  | cons e es ih =>
    intro off l c c' h h'
    simp only [recvRefs, List.mem_append] at h h'
    have head : ∀ x : Int,
        (l ∈ (if e.To = x then [off] else []) ∨ l ∈ (if e.From = x then [off + 1] else [])) →
        (l = off ∧ e.To = x) ∨ (l = off + 1 ∧ e.From = x) := by
      intro x hx
      rcases hx with hx | hx
      · by_cases hc : e.To = x
        · simp [hc] at hx; exact Or.inl ⟨hx, hc⟩
        · simp [hc] at hx
      · by_cases hc : e.From = x
        · simp [hc] at hx; exact Or.inr ⟨hx, hc⟩
        · simp [hc] at hx
    rcases h with h | h
    · rcases h' with h' | h'
      · rcases head c h with ⟨a1, a2⟩ | ⟨a1, a2⟩ <;> rcases head c' h' with ⟨b1, b2⟩ | ⟨b1, b2⟩
        · rw [← a2, ← b2]
        · omega
        · omega
        · rw [← a2, ← b2]
      · have := recvRefs_bounds c' es (off + 2) l h'
        rcases head c h with ⟨a1, _⟩ | ⟨a1, _⟩ <;> omega
    · rcases h' with h' | h'
      · have := recvRefs_bounds c es (off + 2) l h
        rcases head c' h' with ⟨a1, _⟩ | ⟨a1, _⟩ <;> omega
      · exact ih (off + 2) l c c' h h'

theorem sendTable_length (w : World) (hloop : ∀ e ∈ w.Edges, e.From ≠ e.To) (a : Int) :
    (GoMap.get [] (initializeChannels w).sendTable a).length = (w.Neighbors a).length := by
  rw [(initializeChannels_tables w a).1, Neighbors_eq_rec,
    ← (incidence_refs a w.Edges hloop 0).1, ← incidence_neighbors a w.Edges 0]
  simp

/-- The worker at position `p` of a system whose workers are those set up for
the world `w`. -/
theorem proc_of_map (w : World) (procs : List Proc)
    (hprocs : procs = w.Nodes.map (fun n =>
      { n := n, send := GoMap.get [] (initializeChannels w).sendTable n.Id,
        recv := GoMap.get [] (initializeChannels w).receiveTable n.Id }))
    (p : Nat) (pr : Proc) (hp : procs[p]? = some pr) :
    w.Nodes[p]? = some pr.n ∧ pr.send = sendRefs pr.n.Id 0 w.Edges ∧
      pr.recv = recvRefs pr.n.Id 0 w.Edges := by
  rw [hprocs, List.getElem?_map] at hp
  cases hn : w.Nodes[p]? with
  | none => rw [hn] at hp; simp at hp
  | some n =>
    rw [hn] at hp
    simp only [Option.map_some', Option.some.injEq] at hp
    subst hp
    exact ⟨rfl, (initializeChannels_tables w n.Id).1, (initializeChannels_tables w n.Id).2.1⟩

theorem flood_start (w : World) (rnd : Rand) (s0 : System)
    (hloop : ∀ e ∈ w.Edges, e.From ≠ e.To) (hids : (w.Nodes.map Node.Id).Nodup)
    (h0 : startWorkers w rnd = some s0) : Flood s0 s0 := by
  obtain ⟨s0', h0', hprocs, hlen, hlinks, hres, hsts⟩ := startWorkers_spec w rnd
  rw [h0] at h0'
  obtain rfl := Option.some.inj h0'
  have hflag : ∀ (p : Nat) (pr : Proc) (st : MaxState), s0.procs[p]? = some pr →
      s0.states[p]? = some st → ∀ k : Nat, k < pr.send.length →
      GoMap.lookup st.shouldSendTable (k : Int) = some true := by
    intro p pr st hp hs k hk
    obtain ⟨hn, hsend, _⟩ := proc_of_map w s0.procs hprocs p pr hp
    obtain ⟨n, hn', _, _, _, htab⟩ := hsts p st hs
    rw [hn] at hn'
    obtain rfl := Option.some.inj hn'
    rw [htab, lookup_initialShouldSendTable]
    have hl := sendTable_length w hloop pr.n.Id
    rw [(initializeChannels_tables w pr.n.Id).1, ← hsend] at hl
    have : (0 : Int) ≤ (k : Int) ∧ (k : Int) < ((w.Neighbors pr.n.Id).length : Int) := by
      omega
    rw [if_pos this]
  refine ⟨rfl, rfl, ?_, ?_, ?_⟩
  · intro q q' qr qr' k k' l hq hq' hk hk'
    obtain ⟨hn, _, hrecv⟩ := proc_of_map w s0.procs hprocs q qr hq
    obtain ⟨hn', _, hrecv'⟩ := proc_of_map w s0.procs hprocs q' qr' hq'
    have hl : l ∈ recvRefs qr.n.Id 0 w.Edges := by
      rw [← hrecv]; exact List.getElem?_mem hk
    have hl' : l ∈ recvRefs qr'.n.Id 0 w.Edges := by
      rw [← hrecv']; exact List.getElem?_mem hk'
    have hid : qr.n.Id = qr'.n.Id := recvRefs_unique w.Edges 0 l _ _ hl hl'
    have hq1 : (w.Nodes.map Node.Id)[q]? = some qr.n.Id := by
      rw [List.getElem?_map, hn]; rfl
    have hq2 : (w.Nodes.map Node.Id)[q']? = some qr.n.Id := by
      rw [List.getElem?_map, hn', hid]; rfl
    exact List.getElem?_inj (List.getElem?_eq_some.mp hq1).1 hids (hq1.trans hq2.symm)
  · intro p pr st hp hs k hk
    unfold GoMap.contains
    rw [hflag p pr st hp hs k hk]
    rfl
  · intro p q pr qr sp sq k k' l hp _ hsp _ hk _
    left
    have hk1 : k < pr.send.length := (List.getElem?_eq_some.mp hk).1
    unfold GoMap.get
    rw [hflag p pr sp hp hsp k hk1]
    rfl

theorem flood_run (w : World) (rnd : Rand) (s0 s : System) (acts : List Action)
    (hloop : ∀ e ∈ w.Edges, e.From ≠ e.To) (hids : (w.Nodes.map Node.Id).Nodup)
    (h0 : startWorkers w rnd = some s0) (hrun : s0.run acts = some s) : Flood s0 s :=
  run_invariant (Flood s0) (fun a b act h => flood_act s0 a b act h) acts s0 s hrun
    (flood_start w rnd s0 hloop hids h0)

theorem quiescent_spec (s : System) (hq : s.quiescent = true) :
    (∀ c ∈ s.links, c.buf = []) ∧
      (∀ st ∈ s.states, ∀ k : Int, GoMap.get false st.shouldSendTable k = false) := by
  unfold System.quiescent at hq
  rw [Bool.and_eq_true, List.all_eq_true, List.all_eq_true] at hq
  refine ⟨?_, ?_⟩
  · intro c hc
    have := hq.1 c hc
    exact List.isEmpty_iff.mp this
  · intro st hst k
    have h1 := hq.2 st hst
    rw [List.all_eq_true] at h1
    unfold GoMap.get
    cases hl : GoMap.lookup st.shouldSendTable k with
    | none => rfl
    | some v =>
      have := h1 (k, v) (GoMap.mem_of_lookup _ k v hl)
      cases v with
      | false => rfl
      | true => simp at this

/-- In a quiescent state the receiver of every channel knows a value at least
as great as the `max` of its sender. -/
theorem quiescent_link_le (s : System) (hL : LinkInv s) (hq : s.quiescent = true)
    (p q : Nat) (pr qr : Proc) (sp sq : MaxState) (k k' l : Nat)
    (hp : s.procs[p]? = some pr) (hq' : s.procs[q]? = some qr)
    (hsp : s.states[p]? = some sp) (hsq : s.states[q]? = some sq)
    (hk : pr.send[k]? = some l) (hk' : qr.recv[k']? = some l) : sp.max ≤ sq.max := by
  obtain ⟨hempty, hflags⟩ := quiescent_spec s hq
  rcases hL p q pr qr sp sq k k' l hp hq' hsp hsq hk hk' with h1 | h1 | ⟨c, hc, m, hm, _⟩
  · rw [hflags sp (List.getElem?_mem hsp)] at h1
    exact absurd h1 (by decide)
  · exact h1
  · rw [hempty c (List.getElem?_mem hc)] at hm
    simp at hm

theorem mem_refs_of_edge (es : List Edge) (j : Nat) (e : Edge) (he : es[j]? = some e) :
    (2 * j ∈ sendRefs e.From 0 es ∧ 2 * j ∈ recvRefs e.To 0 es) ∧
      (2 * j + 1 ∈ sendRefs e.To 0 es ∧ 2 * j + 1 ∈ recvRefs e.From 0 es) := by
  have hs1 := count_sendRefs e.From es 0 j e he
  have hs2 := count_sendRefs e.To es 0 j e he
  have hr1 := count_recvRefs e.From es 0 j e he
  have hr2 := count_recvRefs e.To es 0 j e he
  simp only [Nat.zero_add, if_true] at hs1 hs2 hr1 hr2
  refine ⟨⟨List.count_pos_iff.mp ?_, List.count_pos_iff.mp ?_⟩,
    ⟨List.count_pos_iff.mp ?_, List.count_pos_iff.mp ?_⟩⟩
  · rw [hs1.1]; exact Nat.one_pos
  · rw [hr2.1]; exact Nat.one_pos
  · rw [hs2.2]; exact Nat.one_pos
  · rw [hr1.2]; exact Nat.one_pos

/-- In a quiescent state of a system set up for the world `w`, two workers
whose nodes are joined by an edge hold the same `max`. -/
theorem quiescent_adjacent (w : World) (s : System)
    (hprocs : s.procs = w.Nodes.map (fun n =>
      { n := n, send := GoMap.get [] (initializeChannels w).sendTable n.Id,
        recv := GoMap.get [] (initializeChannels w).receiveTable n.Id }))
    (hL : LinkInv s) (hq : s.quiescent = true)
    (p q : Nat) (pr qr : Proc) (sp sq : MaxState)
    (hp : s.procs[p]? = some pr) (hq' : s.procs[q]? = some qr)
    (hsp : s.states[p]? = some sp) (hsq : s.states[q]? = some sq)
    (hedge : w.HasEdge pr.n.Id qr.n.Id = true) : sp.max = sq.max := by
  obtain ⟨_, hsendp, hrecvp⟩ := proc_of_map w s.procs hprocs p pr hp
  obtain ⟨_, hsendq, hrecvq⟩ := proc_of_map w s.procs hprocs q qr hq'
  unfold World.HasEdge at hedge
  obtain ⟨e, he, hcase⟩ := (hasEdgeIn_iff w.Edges _ _).mp hedge
  obtain ⟨j, hj⟩ := List.mem_iff_getElem?.mp he
  obtain ⟨⟨m1, m2⟩, ⟨m3, m4⟩⟩ := mem_refs_of_edge w.Edges j e hj
  have le_of : ∀ (p q : Nat) (pr qr : Proc) (sp sq : MaxState) (l : Nat),
      s.procs[p]? = some pr → s.procs[q]? = some qr →
      s.states[p]? = some sp → s.states[q]? = some sq →
      l ∈ pr.send → l ∈ qr.recv → sp.max ≤ sq.max := by
    intro p q pr qr sp sq l h1 h2 h3 h4 h5 h6
    obtain ⟨k, hk⟩ := List.mem_iff_getElem?.mp h5
    obtain ⟨k', hk'⟩ := List.mem_iff_getElem?.mp h6
    exact quiescent_link_le s hL hq p q pr qr sp sq k k' l h1 h2 h3 h4 hk hk'
  rcases hcase with ⟨hf, ht⟩ | ⟨hf, ht⟩
  · rw [hf] at m1 m4
    rw [ht] at m2 m3
    rw [← hsendp] at m1
    rw [← hrecvq] at m2
    rw [← hsendq] at m3
    rw [← hrecvp] at m4
    exact le_antisymm (le_of p q pr qr sp sq _ hp hq' hsp hsq m1 m2)
      (le_of q p qr pr sq sp _ hq' hp hsq hsp m3 m4)
  · rw [hf] at m1 m4
    rw [ht] at m2 m3
    rw [← hsendq] at m1
    rw [← hrecvp] at m2
    rw [← hsendp] at m3
    rw [← hrecvq] at m4
    exact le_antisymm (le_of p q pr qr sp sq _ hp hq' hsp hsq m3 m4)
      (le_of q p qr pr sq sp _ hq' hp hsq hsp m1 m2)

/-- The worker of a node id of the world. -/
theorem proc_of_id (w : World) (s : System)
    (hprocs : s.procs = w.Nodes.map (fun n =>
      { n := n, send := GoMap.get [] (initializeChannels w).sendTable n.Id,
        recv := GoMap.get [] (initializeChannels w).receiveTable n.Id }))
    (hlen : s.states.length = w.Nodes.length)
    (a : Int) (ha : a ∈ w.Nodes.map Node.Id) :
    ∃ (p : Nat) (pr : Proc) (sp : MaxState),
      s.procs[p]? = some pr ∧ s.states[p]? = some sp ∧ pr.n.Id = a := by
  obtain ⟨n, hn, rfl⟩ := List.mem_map.mp ha
  obtain ⟨p, hp⟩ := List.mem_iff_getElem?.mp hn
  have hplt : p < s.states.length := by
    rw [hlen]; exact (List.getElem?_eq_some.mp hp).1
  refine ⟨p, { n := n, send := GoMap.get [] (initializeChannels w).sendTable n.Id,
               recv := GoMap.get [] (initializeChannels w).receiveTable n.Id },
    s.states[p], ?_, List.getElem?_eq_getElem hplt, rfl⟩
  rw [hprocs, List.getElem?_map, hp]
  rfl

theorem quiescent_connected (w : World) (s : System)
    (hids : (w.Nodes.map Node.Id).Nodup)
    (hprocs : s.procs = w.Nodes.map (fun n =>
      { n := n, send := GoMap.get [] (initializeChannels w).sendTable n.Id,
        recv := GoMap.get [] (initializeChannels w).receiveTable n.Id }))
    (hlen : s.states.length = w.Nodes.length)
    (hL : LinkInv s) (hq : s.quiescent = true) (hconn : w.Connected)
    (p q : Nat) (sp sq : MaxState)
    (hsp : s.states[p]? = some sp) (hsq : s.states[q]? = some sq) : sp.max = sq.max := by
  have hpl : p < w.Nodes.length := by
    rw [← hlen]; exact (List.getElem?_eq_some.mp hsp).1
  have hql : q < w.Nodes.length := by
    rw [← hlen]; exact (List.getElem?_eq_some.mp hsq).1
  have procAt : ∀ x : Nat, x < w.Nodes.length →
      ∃ pr : Proc, s.procs[x]? = some pr ∧ w.Nodes[x]? = some pr.n := by
    intro x hx
    have hx' : x < s.procs.length := by rw [hprocs]; simpa using hx
    exact ⟨s.procs[x], List.getElem?_eq_getElem hx',
      (proc_of_map w s.procs hprocs x _ (List.getElem?_eq_getElem hx')).1⟩
  obtain ⟨pr, hpr, hpn⟩ := procAt p hpl
  obtain ⟨qr, hqr, hqn⟩ := procAt q hql
  have ha : pr.n.Id ∈ w.Nodes.map Node.Id :=
    List.mem_map.mpr ⟨pr.n, List.getElem?_mem hpn, rfl⟩
  have hb : qr.n.Id ∈ w.Nodes.map Node.Id :=
    List.mem_map.mpr ⟨qr.n, List.getElem?_mem hqn, rfl⟩
  have key : ∀ b : Int,
      Relation.ReflTransGen
        (fun x y => y ∈ w.Nodes.map Node.Id ∧ w.HasEdge x y = true) pr.n.Id b →
      b ∈ w.Nodes.map Node.Id ∧
        ∀ (q : Nat) (qr : Proc) (sq : MaxState), s.procs[q]? = some qr →
          s.states[q]? = some sq → qr.n.Id = b → sp.max = sq.max := by
    intro b hpath
    induction hpath with
    | refl =>
      refine ⟨ha, ?_⟩
      intro q1 qr1 sq1 hq1 hs1 hid
      have hn1 := (proc_of_map w s.procs hprocs q1 qr1 hq1).1
      have e1 : (w.Nodes.map Node.Id)[q1]? = some pr.n.Id := by
        rw [List.getElem?_map, hn1, ← hid]; rfl
      have e2 : (w.Nodes.map Node.Id)[p]? = some pr.n.Id := by
        rw [List.getElem?_map, hpn]; rfl
      have : q1 = p :=
        List.getElem?_inj (List.getElem?_eq_some.mp e1).1 hids (e1.trans e2.symm)
      subst this
      rw [hsp] at hs1
      rw [Option.some.inj hs1]
    | @tail y z _ hstep ih =>
      refine ⟨hstep.1, ?_⟩
      intro q1 qr1 sq1 hq1 hs1 hid
      obtain ⟨py, pry, spy, hpy, hsy, hidy⟩ := proc_of_id w s hprocs hlen y ih.1
      have h1 : sp.max = spy.max := ih.2 py pry spy hpy hsy hidy
      have hedge : w.HasEdge pry.n.Id qr1.n.Id = true := by
        rw [hidy, hid]; exact hstep.2
      exact h1.trans
        (quiescent_adjacent w s hprocs hL hq py q1 pry qr1 spy sq1 hpy hq1 hsy hs1 hedge)
  exact (key qr.n.Id (hconn _ _ ha hb)).2 q qr sq hqr hsq rfl

theorem pathWorld_connected : pathWorld.Connected := by
  have step : ∀ x y : Int, y ∈ pathWorld.Nodes.map Node.Id → pathWorld.HasEdge x y = true →
      Relation.ReflTransGen
        (fun x y => y ∈ pathWorld.Nodes.map Node.Id ∧ pathWorld.HasEdge x y = true) x y :=
    fun x y h1 h2 => Relation.ReflTransGen.single ⟨h1, h2⟩
  have e01 := step 0 1 (by decide) (by decide)
  have e12 := step 1 2 (by decide) (by decide)
  have e23 := step 2 3 (by decide) (by decide)
  have e10 := step 1 0 (by decide) (by decide)
  have e21 := step 2 1 (by decide) (by decide)
  have e32 := step 3 2 (by decide) (by decide)
  have ids : ∀ a : Int, a ∈ pathWorld.Nodes.map Node.Id → a = 0 ∨ a = 1 ∨ a = 2 ∨ a = 3 := by
    intro a ha
    simpa [pathWorld] using ha
  intro a b ha hb
  have toZero : Relation.ReflTransGen
      (fun x y => y ∈ pathWorld.Nodes.map Node.Id ∧ pathWorld.HasEdge x y = true) a 0 := by
    rcases ids a ha with rfl | rfl | rfl | rfl
    · exact Relation.ReflTransGen.refl
    · exact e10
    · exact e21.trans e10
    · exact e32.trans (e21.trans e10)
  have fromZero : Relation.ReflTransGen
      (fun x y => y ∈ pathWorld.Nodes.map Node.Id ∧ pathWorld.HasEdge x y = true) 0 b := by
    rcases ids b hb with rfl | rfl | rfl | rfl
    · exact Relation.ReflTransGen.refl
    · exact e01
    · exact e01.trans e12
    · exact e01.trans (e12.trans e23)
  exact toZero.trans fromZero

/-- C19: quiescent-state correctness.  Take the system that `main` sets up
for a world without self-loops and with distinct node ids (`initializeChannels`
for the channels, `generateInitialMaxState` for the states), and let it run by
iterations of the inner loop of any worker at any position, in any
interleaving, and by receives of the monitor.  In every state reached in which
all links are empty and all needs-send flags are false, the workers of any two
adjacent nodes hold the same `max`; hence, when the world is connected, every
worker holds the maximum of the seeds. -/
theorem quiescent_agreement (w : World) (rnd : Rand) (s0 s : System) (acts : List Action)
    (hloop : ∀ e ∈ w.Edges, e.From ≠ e.To) (hids : (w.Nodes.map Node.Id).Nodup)
    (h0 : startWorkers w rnd = some s0) (hrun : s0.run acts = some s)
    (hq : s.quiescent = true) :
    (∀ (p q : Nat) (pr qr : Proc) (sp sq : MaxState),
      s.procs[p]? = some pr → s.procs[q]? = some qr →
      s.states[p]? = some sp → s.states[q]? = some sq →
      w.HasEdge pr.n.Id qr.n.Id = true → sp.max = sq.max) ∧
    (w.Connected → ∀ M : Int, M ∈ s0.seeds → (∀ v ∈ s0.seeds, v ≤ M) →
      ∀ st ∈ s.states, st.max = M) := by
  obtain ⟨hp, hlen, _, _, hL⟩ := flood_run w rnd s0 s acts hloop hids h0 hrun
  obtain ⟨s0', h0', hprocs0, hlen0, _⟩ := startWorkers_spec w rnd
  rw [h0] at h0'
  obtain rfl := Option.some.inj h0'
  have hprocs := hp.trans hprocs0
  have hlen' : s.states.length = w.Nodes.length := hlen.trans hlen0
  refine ⟨?_, ?_⟩
  · intro p q pr qr sp sq h1 h2 h3 h4 h5
    exact quiescent_adjacent w s hprocs hL hq p q pr qr sp sq h1 h2 h3 h4 h5
  · intro hconn M hM hbound st hst
    obtain ⟨v1, _, _⟩ :=
      run_invariant (Valid s0.seeds) (fun a b act h => valid_act s0.seeds a b act h) acts s0 s
        hrun (valid_start w rnd s0 h0)
    obtain ⟨p, hp'⟩ := List.mem_iff_getElem?.mp hst
    obtain ⟨p0, hp0⟩ := List.mem_iff_getElem?.mp hM
    have hp0lt : p0 < s.states.length := by
      rw [hlen]
      have := (List.getElem?_eq_some.mp hp0).1
      simpa [System.seeds] using this
    have hst0 : s.states[p0]? = some s.states[p0] := List.getElem?_eq_getElem hp0lt
    obtain ⟨hmem, hseed, hle⟩ := v1 p0 _ hst0
    rw [hp0] at hseed
    have hM1 : M ≤ (s.states[p0]).max := by
      rw [Option.some.inj hseed]; exact hle
    have hM2 : (s.states[p0]).max ≤ M := hbound _ hmem
    have heq : st.max = (s.states[p0]).max :=
      quiescent_connected w s hids hprocs hlen' hL hq hconn p p0 st _ hp' hst0
    rw [heq]
    exact le_antisymm hM2 hM1

theorem quiescent_agreement_witness :
    (({ value := 7, max := 9, shouldSendTable := [(0, false), (1, false)] } : MaxState).max =
        ({ value := 2, max := 9, shouldSendTable := [(0, false), (1, false)] } : MaxState).max) ∧
      ({ value := 3, max := 9, shouldSendTable := [(0, false)] } : MaxState).max = 9 :=
  ⟨(quiescent_agreement pathWorld seedRand pathSystem pathSystemQuiescent
      (roundRobin pathSystem 8) (by decide) (by decide) pathSystem_start pathSystem_run
      (by decide)).1 1 2
      { n := { Id := 1 }, send := [1, 2], recv := [0, 3] }
      { n := { Id := 2 }, send := [3, 4], recv := [2, 5] }
      { value := 7, max := 9, shouldSendTable := [(0, false), (1, false)] }
      { value := 2, max := 9, shouldSendTable := [(0, false), (1, false)] }
      (by decide) (by decide) (by decide) (by decide) (by decide),
   (quiescent_agreement pathWorld seedRand pathSystem pathSystemQuiescent
      (roundRobin pathSystem 8) (by decide) (by decide) pathSystem_start pathSystem_run
      (by decide)).2 pathWorld_connected 9 (by decide) (by decide)
      { value := 3, max := 9, shouldSendTable := [(0, false)] } (by decide)⟩

/-! ## The system step and `loopStep` -/

theorem view_recv (s : System) (pr : Proc) (st : MaxState) (res : Chan) (i r : Nat) (c : Chan)
    (hr : pr.recv[i]? = some r) (hc : s.links[r]? = some c) :
    (s.view pr st res).recv[i]? = some c := by
  simp [System.view, List.getElem?_map, hr, List.getD_eq_getElem?_getD, hc]

theorem view_send (s : System) (pr : Proc) (st : MaxState) (res : Chan) (i r : Nat) (c : Chan)
    (hr : pr.send[i]? = some r) (hc : s.links[r]? = some c) :
    (s.view pr st res).send[i]? = some c := by
  simp [System.view, List.getElem?_map, hr, List.getD_eq_getElem?_getD, hc]

/-- Every iteration of the system is an iteration of `loopStep` on the worker
seen through its channel references: `loopStep` runs to its end there, with
the same new state and the same result channel. -/
theorem iter_refines_loopStep (s s' : System) (p i : Nat) (h : s.iter p i = some s') :
    ∃ (pr : Proc) (st : MaxState) (res : Chan) (w' : Worker),
      s.procs[p]? = some pr ∧ s.states[p]? = some st ∧ s.results[p]? = some res ∧
      loopStep (s.view pr st res) i = Outcome.done w' ∧
      s'.states[p]? = some w'.state ∧ s'.results[p]? = some w'.result := by
  obtain ⟨pr, st, res, hpr, hst, hres, hcase⟩ := iter_cases s s' p i h
  rcases hcase with ⟨r, c, m, rest, hr, hc, hbuf, hgt, rfl⟩ |
    ⟨r, c, m, rest, hr, hc, hbuf, hle, rfl⟩ | ⟨sr, sc, hsr, hsc, hf, rfl⟩ | rfl
  · have hroom : res.hasRoom = true := by
      unfold System.iter at h
      obtain ⟨buf, cap⟩ := c
      simp only [] at hbuf
      subst hbuf
      have hgt' : m.payload > st.max := hgt
      simp only [hpr, hst, hres, hr, hc, hgt', if_true] at h
      by_cases hroom : res.hasRoom = true
      · exact hroom
      · simp [hroom] at h
    have hv : (s.view pr st res).recv[i]? = some { buf := m :: rest, cap := c.cap } := by
      rw [view_recv s pr st res i r c hr hc, ← hbuf]
    have hstep := loopStep_recv_gt (s.view pr st res) i m rest c.cap hv hgt
    have hroom' : (s.view pr st res).result.hasRoom = true := hroom
    rw [hroom', if_pos rfl] at hstep
    exact ⟨pr, st, res, _, hpr, hst, hres, hstep,
      getElem?_set_self_of_some _ _ _ _ hst, getElem?_set_self_of_some _ _ _ _ hres⟩
  · have hv : (s.view pr st res).recv[i]? = some { buf := m :: rest, cap := c.cap } := by
      rw [view_recv s pr st res i r c hr hc, ← hbuf]
    have hstep := loopStep_recv_le (s.view pr st res) i m rest c.cap hv hle
    exact ⟨pr, st, res, _, hpr, hst, hres, hstep, hst, hres⟩
  · unfold System.iter at h
    simp only [hpr, hst, hres] at h
    cases hr : pr.recv[i]? with
    | none => simp [hr] at h
    | some r =>
      cases hc : s.links[r]? with
      | none => simp [hr, hc] at h
      | some c =>
        obtain ⟨buf, cap⟩ := c
        cases buf with
        | cons m rest =>
          exfalso
          simp only [hr, hc] at h
          by_cases hgt : m.payload > st.max
          · by_cases hroom : res.hasRoom = true
            · simp only [hgt, hroom, if_true, Option.some.injEq] at h
              have := congrArg System.results h
              simp only [] at this
              have hlen := congrArg (fun l => (l[p]?).map Chan.buf) this
              simp only [getElem?_set_self_of_some _ _ _ _ hres, hres, Option.map_some',
                Chan.push, Option.some.injEq] at hlen
              have := congrArg List.length hlen
              simp at this
            · simp [hgt, hroom] at h
          · simp only [hgt, if_false, Option.some.injEq] at h
            have := congrArg System.states h
            simp only [] at this
            have hlen := congrArg (fun l => (l[p]?).map (fun x =>
              GoMap.get false x.shouldSendTable (i : Int))) this
            simp only [getElem?_set_self_of_some _ _ _ _ hst, hst, Option.map_some',
              Option.some.injEq, GoMap.get_set_self, hf] at hlen
            exact absurd hlen (by decide)
        | nil =>
          have hv : (s.view pr st res).recv[i]? = some { buf := [], cap := cap } :=
            view_recv s pr st res i r _ hr hc
          have hroom : sc.hasRoom = true := by
            simp only [hr, hc, hf, if_true, hsr, hsc] at h
            by_cases hroom : sc.hasRoom = true
            · exact hroom
            · simp [hroom] at h
          have hstep := loopStep_default_send (s.view pr st res) i cap sc hv hf
            (view_send s pr st res i sr sc hsr hsc)
          rw [hroom, if_pos rfl] at hstep
          exact ⟨pr, st, res, _, hpr, hst, hres, hstep,
            getElem?_set_self_of_some _ _ _ _ hst, hres⟩
  · unfold System.iter at h
    simp only [hpr, hst, hres] at h
    cases hr : pr.recv[i]? with
    | none => simp [hr] at h
    | some r =>
      cases hc : s'.links[r]? with
      | none => simp [hr, hc] at h
      | some c =>
        obtain ⟨buf, cap⟩ := c
        cases buf with
        | cons m rest =>
          have hv : (s'.view pr st res).recv[i]? = some { buf := m :: rest, cap := cap } :=
            view_recv s' pr st res i r _ hr hc
          by_cases hgt : m.payload > st.max
          · exfalso
            simp only [hr, hc, hgt, if_true] at h
            by_cases hroom : res.hasRoom = true
            · simp only [hroom, if_true, Option.some.injEq] at h
              have := congrArg System.results h
              simp only [] at this
              have hlen := congrArg (fun l => (l[p]?).map (fun x => x.buf.length)) this
              simp only [getElem?_set_self_of_some _ _ _ _ hres, hres, Option.map_some',
                Chan.push, Option.some.injEq, List.length_append, List.length_singleton]
                at hlen
              omega
            · simp [hroom] at h
          · have hstep := loopStep_recv_le (s'.view pr st res) i m rest cap hv (not_lt.mp hgt)
            exact ⟨pr, st, res, _, hpr, hst, hres, hstep, hst, hres⟩
        | nil =>
          have hv : (s'.view pr st res).recv[i]? = some { buf := [], cap := cap } :=
            view_recv s' pr st res i r _ hr hc
          cases hf : GoMap.get false st.shouldSendTable (i : Int) with
          | false =>
            exact ⟨pr, st, res, _, hpr, hst, hres,
              loopStep_default_idle (s'.view pr st res) i cap hv hf, hst, hres⟩
          | true =>
            exfalso
            simp only [hr, hc, hf, if_true] at h
            cases hsr : pr.send[i]? with
            | none => simp [hsr] at h
            | some sr =>
              cases hsc : s'.links[sr]? with
              | none => simp [hsr, hsc] at h
              | some sc =>
                by_cases hroom : sc.hasRoom = true
                · simp only [hsr, hsc, hroom, if_true, Option.some.injEq] at h
                  have := congrArg System.states h
                  simp only [] at this
                  have hlen := congrArg (fun l => (l[p]?).map (fun x =>
                    GoMap.get false x.shouldSendTable (i : Int))) this
                  simp only [getElem?_set_self_of_some _ _ _ _ hst, hst, Option.map_some',
                    Option.some.injEq, GoMap.get_set_self, hf] at hlen
                  exact absurd hlen (by decide)
                · simp [hsr, hsc, hroom] at h

/-! ## The scenario of the path with the seeds 3, 7, 2, 9 -/

/-- C17: convergence with announcement fails on the code in the scenario of
the claim.  On the path `0 - 1 - 2 - 3` with the seeds 3, 7, 2, 9 the workers,
scheduled round-robin, reach after eight rounds the quiescent state in which
every `max` is 9, the maximum of the seeds; node 3 has reported nothing.  A
polling pass of the monitor that visits node 3 first then announces 0, and a
pass that visits node 0 and then node 3 announces 7; a pass in the order
0, 1, 2, 3 goes on polling, and the next such pass announces 9. -/
theorem path_scenario_announcement :
    startWorkers pathWorld seedRand = some pathSystem ∧
    pathSystem.seeds = [3, 7, 2, 9] ∧
    pathSystem.run (roundRobin pathSystem 8) = some pathSystemQuiescent ∧
    pathSystemQuiescent.quiescent = true ∧
    (pathSystemQuiescent.states.map fun st => st.max) = [9, 9, 9, 9] ∧
    monitorPass (monitorOf pathSystemQuiescent) [3, 0, 1, 2] = MonitorOutcome.announce 0 ∧
    monitorPass (monitorOf pathSystemQuiescent) [0, 3, 1, 2] = MonitorOutcome.announce 7 ∧
    (∃ s1 : MonitorState,
      monitorPass (monitorOf pathSystemQuiescent) [0, 1, 2, 3] = MonitorOutcome.polling s1 ∧
      monitorPass s1 [0, 1, 2, 3] = MonitorOutcome.announce 9) := by
  refine ⟨pathSystem_start, by decide, pathSystem_run, by decide, by decide, by decide,
    by decide, ?_⟩
  refine ⟨{ curMaxes := [(0, 7), (1, 9), (2, 7)]
            resultChans :=
              [(0, { buf := [report 0 9], cap := 1000 }), (1, { buf := [], cap := 1000 }),
               (2, { buf := [report 2 9], cap := 1000 }), (3, { buf := [], cap := 1000 })] },
    by decide, by decide⟩

/-- The worlds of `generateWorld` have no self-loop and distinct node ids, so
the flooding invariant applies to every system that `main` sets up. -/
theorem generateWorld_flood_ready (nodes d : Int) (weighted : Bool) (rnd : Rand) :
    (∀ e ∈ (generateWorld nodes d weighted rnd).1.Edges, e.From ≠ e.To) ∧
      ((generateWorld nodes d weighted rnd).1.Nodes.map Node.Id).Nodup := by
  refine ⟨(simpleEdges_generateWorld nodes d weighted rnd).1, ?_⟩
  rw [generateWorld_nodes, List.map_map]
  have hinj : Function.Injective
      (Node.Id ∘ fun i : Nat => ({ Id := (i : Int) } : Node)) := by
    intro a b hab
    exact Int.ofNat.inj hab
  exact List.Nodup.map hinj (List.nodup_range _)

/-- Conversely, when the references of the worker at position `i` are
channels of the system, every iteration that `loopStep` runs to its end on the
worker seen through its references is an iteration of the system, with the
same new state and the same result channel. -/
theorem loopStep_refines_iter (s : System) (p i : Nat) (pr : Proc) (st : MaxState)
    (res : Chan) (w' : Worker)
    (hpr : s.procs[p]? = some pr) (hst : s.states[p]? = some st)
    (hres : s.results[p]? = some res)
    (hvalid : ∀ l : Nat, pr.recv[i]? = some l ∨ pr.send[i]? = some l → l < s.links.length)
    (h : loopStep (s.view pr st res) i = Outcome.done w') :
    ∃ s' : System, s.iter p i = some s' ∧
      s'.states[p]? = some w'.state ∧ s'.results[p]? = some w'.result := by
  cases hr : pr.recv[i]? with
  | none =>
    have hv : (s.view pr st res).recv[i]? = none := by
      simp [System.view, List.getElem?_map, hr]
    simp [loopStep, hv] at h
  | some r =>
    have hrl : r < s.links.length := hvalid r (Or.inl hr)
    have hc : s.links[r]? = some s.links[r] := List.getElem?_eq_getElem hrl
    generalize s.links[r] = c at hc
    obtain ⟨buf, cap⟩ := c
    have hv := view_recv s pr st res i r _ hr hc
    cases buf with
    | cons m rest =>
      by_cases hgt : st.max < m.payload
      · rw [loopStep_recv_gt (s.view pr st res) i m rest cap hv hgt] at h
        have hgt' : m.payload > st.max := hgt
        by_cases hroom : res.hasRoom = true
        · have hroom' : (s.view pr st res).result.hasRoom = true := hroom
          rw [hroom', if_pos rfl] at h
          obtain rfl := Outcome.done.inj h
          have hiter : s.iter p i = some
              { procs := s.procs
                states := s.states.set p
                  { value := st.value, max := m.payload,
                    shouldSendTable := GoMap.setAll st.shouldSendTable true }
                links := s.links.set r { buf := rest, cap := cap }
                results := s.results.set p
                  (res.push
                    { msgType := messageType.MAX_MESSAGE, from_ := pr.n.Id,
                      payload := m.payload }) } := by
            simp only [System.iter, hpr, hst, hres, hr, hc, hgt', hroom, if_true]
          exact ⟨_, hiter, getElem?_set_self_of_some _ _ _ _ hst,
            getElem?_set_self_of_some _ _ _ _ hres⟩
        · have hroom' : (s.view pr st res).result.hasRoom = false := by
            cases hx : res.hasRoom with
            | false => exact hx
            | true => exact absurd hx hroom
          rw [hroom'] at h
          simp at h
      · rw [loopStep_recv_le (s.view pr st res) i m rest cap hv (not_lt.mp hgt)] at h
        obtain rfl := Outcome.done.inj h
        have hgt' : ¬ m.payload > st.max := hgt
        have hiter : s.iter p i =
            some { s with links := s.links.set r { buf := rest, cap := cap } } := by
          simp only [System.iter, hpr, hst, hres, hr, hc, hgt', if_false]
        exact ⟨_, hiter, hst, hres⟩
    | nil =>
      cases hf : GoMap.get false st.shouldSendTable (i : Int) with
      | false =>
        rw [loopStep_default_idle (s.view pr st res) i cap hv hf] at h
        obtain rfl := Outcome.done.inj h
        refine ⟨s, ?_, hst, hres⟩
        simp [System.iter, hpr, hst, hres, hr, hc, hf]
      | true =>
        cases hsr : pr.send[i]? with
        | none =>
          have hvs : (s.view pr st res).send[i]? = none := by
            simp [System.view, List.getElem?_map, hsr]
          have hf' : GoMap.get false (s.view pr st res).state.shouldSendTable (i : Int) = true :=
            hf
          simp [loopStep, hv, hvs, hf'] at h
        | some sr =>
          have hsl : sr < s.links.length := hvalid sr (Or.inr hsr)
          have hsc : s.links[sr]? = some s.links[sr] := List.getElem?_eq_getElem hsl
          generalize s.links[sr] = sc at hsc
          rw [loopStep_default_send (s.view pr st res) i cap sc hv hf
            (view_send s pr st res i sr sc hsr hsc)] at h
          by_cases hroom : sc.hasRoom = true
          · rw [hroom, if_pos rfl] at h
            obtain rfl := Outcome.done.inj h
            have hiter : s.iter p i = some
                { s with
                  links := s.links.set sr
                    (sc.push
                      { msgType := messageType.MAX_MESSAGE, from_ := pr.n.Id,
                        payload := st.max })
                  states := s.states.set p
                    { st with
                      shouldSendTable := GoMap.set st.shouldSendTable (i : Int) false } } := by
              simp only [System.iter, hpr, hst, hres, hr, hc, hf, hsr, hsc, hroom, if_true]
            exact ⟨_, hiter, getElem?_set_self_of_some _ _ _ _ hst, hres⟩
          · have hroom' : sc.hasRoom = false := by
              cases hx : sc.hasRoom with
              | false => rfl
              | true => exact absurd hx hroom
            rw [hroom'] at h
            simp at h

end AsyncDistributed
